import Mathlib

/-!
Verification of the core text pipeline of `scripts/getPVAliases.py`.

Text is modelled as `List Char`.  Python regular-expression passes are
embedded as explicit character scanners that implement the exact
leftmost/greedy semantics of the patterns used by the script, as analysed
pass by pass in the doc comments below.
-/

namespace GetPVAliases

/-- Text is a list of characters. -/
abbrev T : Type := List Char

/-- Python's `\w` on the ASCII inputs of this script: letters, digits, `_`. -/
def isWordChar (c : Char) : Bool := c.isAlphanum || c = '_'

/-- Python whitespace as recognised by `str.strip()` / `\s` / `str.split()`. -/
def isPyWS (c : Char) : Bool :=
  c = ' ' || c = '\t' || c = '\n' || c = '\r' || c = '\x0b' || c = '\x0c'

/-- `str.strip()`: drop leading and trailing whitespace. -/
def pyStrip (s : T) : T :=
  ((s.dropWhile isPyWS).reverse.dropWhile isPyWS).reverse

/-- Python `str.replace(pat, rep)` (and `re.sub` with a literal pattern):
replace non-overlapping occurrences of `pat` left to right, structurally
recursive on a fuel bounding the number of scan steps.  For empty `pat`
(never used by the script) this is the identity. -/
def replaceSubF (pat rep : T) : Nat → T → T
  | _, [] => []
  | 0, s => s
  | fuel + 1, c :: cs =>
    if pat ≠ [] ∧ pat.isPrefixOf (c :: cs) then
      rep ++ replaceSubF pat rep fuel ((c :: cs).drop pat.length)
    else
      c :: replaceSubF pat rep fuel cs

/-- `str.replace` / literal `re.sub`: the fueled scanner with enough fuel. -/
def replaceSub (pat rep s : T) : T := replaceSubF pat rep s.length s

/-- Split at the first occurrence of `pat`: `s = pre ++ pat ++ post`. -/
def splitFirst (pat : T) : T → Option (T × T)
  | [] => if pat = [] then some ([], []) else none
  | c :: cs =>
    if pat.isPrefixOf (c :: cs) then some ([], (c :: cs).drop pat.length)
    else (splitFirst pat cs).map (fun p => (c :: p.1, p.2))

/-- Split at the last occurrence of `pat`: `s = pre ++ pat ++ post`. -/
def splitLast (pat : T) : T → Option (T × T)
  | [] => if pat = [] then some ([], []) else none
  | c :: cs =>
    match splitLast pat cs with
    | some p => some (c :: p.1, p.2)
    | none =>
      if pat.isPrefixOf (c :: cs) then some ([], (c :: cs).drop pat.length)
      else none

/-!
### The Quasi-JSON Normalizer, `fix_json` (source lines 149-178)

Pass 1 (line 163) computes `raw_data.replace(' ', '').strip()`, but line 165
rebinds `_temp` from `raw_data` again, so the stripped value is a dead store;
the pipeline below therefore starts from the raw input, exactly as the code
does.  The key-quoting regex `(?<!'|\w)\w+(?!')(?=:\s?)` matches precisely the
maximal `\w`-runs whose preceding character is neither `'` nor a word
character and whose following character is `:` (the `(?!')` lookahead is then
vacuous and `\s?` is optional); `quoteKeys` scans with a one-character
lookbehind state implementing exactly that.
-/

/-- One left-to-right pass of `re.sub(r"(?<!'|\w)\w+(?!')(?=:\s?)", r"'\g<0>'", s)`,
as a structural scanner: `pend` gathers (reversed) the current maximal word
run, `cq` records whether the run's preceding character was neither `'` nor a
word character (the negative lookbehind); a gathered run is quoted exactly
when it is immediately followed by `:` and `cq` holds. -/
def qkGo (cq : Bool) (pend : T) : T → T
  | [] => pend.reverse
  | c :: cs =>
    if isWordChar c then qkGo cq (c :: pend) cs
    else if c = ':' ∧ pend ≠ [] ∧ cq = true then
      '\'' :: (pend.reverse ++ '\'' :: ':' :: qkGo true [] cs)
    else
      pend.reverse ++ c :: qkGo (c != '\'') [] cs

def quoteKeys (s : T) : T := qkGo true [] s

/-- One pass of `re.sub(r"(?<=:)\d+", r"'\g<0>'", s)`: wrap in single quotes
every maximal digit run whose preceding character is exactly `:`.  The state
is `some pc` while scanning outside a run (`pc`: previous character was `:`)
and `none` while streaming a quoted digit run. -/
def qdGo : Option Bool → T → T
  | some _, [] => []
  | some pc, c :: cs =>
    if pc = true ∧ c.isDigit = true then '\'' :: c :: qdGo none cs
    else c :: qdGo (some (c == ':')) cs
  | none, [] => ['\'']
  | none, c :: cs =>
    if c.isDigit then c :: qdGo none cs
    else '\'' :: c :: qdGo (some (c == ':')) cs

def quoteDigits (s : T) : T := qdGo (some false) s

/-- `fix_json` (source lines 149-178).  Line 163's whitespace-stripped copy is
a dead store (line 165 reads `raw_data`), so the first effective pass is the
key-quoting substitution on the raw input, followed by the `True`/`False`
rewrites, digit quoting, quote-style conversion, `'},'`/`' {'` cleanup,
`strip()` and `split('\n')`. -/
def fix_json (raw_data : T) : List T :=
  let t1 := quoteKeys raw_data
  let t2 := replaceSub ("True".toList) ("true".toList) t1
  let t3 := replaceSub ("False".toList) ("false".toList) t2
  let t4 := quoteDigits t3
  let t5 := replaceSub ['\''] ['"'] t4
  let t6 := replaceSub ['}', ','] ['}'] t5
  let t7 := replaceSub [' ', '{'] ['{'] t6
  (pyStrip t7).splitOn '\n'

/-- The Normalizer as §4.1 of the spec orders it: step 2 (key quoting) runs on
the output of step 1 (whitespace stripping), every later step on the previous
step's output.  This is the spec-ordered variant used to exhibit the dead
store at source line 163; it differs from `fix_json` only in feeding step 1's
result into step 2. -/
def fix_json_spec (raw_data : T) : List T :=
  let t0 := pyStrip (raw_data.filter (· ≠ ' '))
  let t1 := quoteKeys t0
  let t2 := replaceSub ("True".toList) ("true".toList) t1
  let t3 := replaceSub ("False".toList) ("false".toList) t2
  let t4 := quoteDigits t3
  let t5 := replaceSub ['\''] ['"'] t4
  let t6 := replaceSub ['}', ','] ['}'] t5
  let t7 := replaceSub [' ', '{'] ['{'] t6
  (pyStrip t7).splitOn '\n'

/-!
### The Path Resolver, `fix_dir` (source lines 256-285)

The Python indexes `output_dir[-1]`, which raises `IndexError` when
`output_dir` is the empty string (only reachable for empty input); that
partiality is modelled with `Option`.
-/

/-- Lines 283-284: append a trailing `/` when `output_dir[-1]` is not `/`. -/
def addTrailingSlash (t : T) : T :=
  if t.getLast? = some '/' then t else t ++ ['/']

/-- `fix_dir`: short-form `ioc/` inputs are prefixed with the release root,
then paths containing `common` get `/children` appended, otherwise the input
passes through; finally a trailing `/` is appended if absent.  The final
trailing-slash append is distributed into the three branches here; the
`IndexError` that `output_dir[-1]` raises on the empty string (reachable only
in the pass-through branch, whose result is the input itself) is modelled by
`none`. -/
def fix_dir (dir_path : T) : Option T :=
  if ("ioc/".toList).isPrefixOf dir_path then
    some (addTrailingSlash ("/cds/group/pcds/epics/".toList ++ dir_path))
  else if ("common".toList) <:+: dir_path then
    some (addTrailingSlash (dir_path ++ "/children".toList))
  else if dir_path = [] then none
  else some (addTrailingSlash dir_path)

/-!
### A model of `json.loads` for the flat objects this pipeline produces

`find_ioc` feeds `json.loads` one brace-delimited flat object per line whose
values are strings, booleans or non-negative integers; the parser below
models exactly that fragment of JSON (string escapes never occur in these
inputs and are not modelled), including the whitespace tolerance of the real
parser around structural characters.
-/

/-- A JSON value of the fragment produced by the pipeline. -/
inductive JVal where
  | str : T → JVal
  | bool : Bool → JVal
  | num : Nat → JVal
deriving DecidableEq, Repr

/-- A parsed object: the key/value pairs in source order (`json.loads`
returns a `dict`; insertion order is preserved and the inputs given to it by
this script carry distinct keys). -/
abbrev Obj := List (T × JVal)

/-- JSON structural whitespace. -/
def isJWS (c : Char) : Bool := c = ' ' || c = '\t' || c = '\n' || c = '\r'

def skipJWS : T → T := List.dropWhile isJWS

/-- Parse a string body after the opening quote, up to the closing quote. -/
def parseJString : T → Option (T × T)
  | [] => none
  | c :: cs =>
    if c = '"' then some ([], cs)
    else (parseJString cs).map (fun p => (c :: p.1, p.2))

def digitsToNat (ds : T) : Nat := ds.foldl (fun n c => 10 * n + (c.toNat - 48)) 0

/-- Parse one JSON value of the fragment: string, `true`, `false`, or a
non-negative integer literal. -/
def parseJValue : T → Option (JVal × T)
  | [] => none
  | c :: cs =>
    if c = '"' then (parseJString cs).map (fun p => (JVal.str p.1, p.2))
    else if ("true".toList).isPrefixOf (c :: cs) then some (JVal.bool true, (c :: cs).drop 4)
    else if ("false".toList).isPrefixOf (c :: cs) then some (JVal.bool false, (c :: cs).drop 5)
    else
      match (c :: cs).takeWhile Char.isDigit with
      | [] => none
      | ds => some (JVal.num (digitsToNat ds), (c :: cs).dropWhile Char.isDigit)

/-- After one member's value: the next non-space character decides between
`,` (another member) and `}` (object end). -/
def pmVal4 (kv : T × JVal) : T → Option ((T × JVal) × Char × T)
  | [] => none
  | c3 :: r6 => some (kv, c3, r6)

def pmVal3 (k : T) : Option (JVal × T) → Option ((T × JVal) × Char × T)
  | none => none
  | some (v, r4) => pmVal4 (k, v) (skipJWS r4)

def pmVal2 (k : T) : T → Option ((T × JVal) × Char × T)
  | [] => none
  | c2 :: r3 => if c2 = ':' then pmVal3 k (parseJValue (skipJWS r3)) else none

def pmVal1 : Option (T × T) → Option ((T × JVal) × Char × T)
  | none => none
  | some (k, r1) => pmVal2 k (skipJWS r1)

/-- Parse one `"key": value` member, returning it with the delimiter that
follows and the remaining text. -/
def parseMember : T → Option ((T × JVal) × Char × T)
  | [] => none
  | c :: rest => if c = '"' then pmVal1 (parseJString rest) else none

/-- Parse the members of an object, positioned after `{` or after a `,`;
consumes through the closing `}`.  Fuel bounds the recursion. -/
def parseMembersAux : Nat → T → Option (Obj × T)
  | 0, _ => none
  | fuel + 1, s =>
    match parseMember (skipJWS s) with
    | none => none
    | some (kv, c3, r6) =>
      if c3 = ',' then (parseMembersAux fuel r6).map (fun p => (kv :: p.1, p.2))
      else if c3 = '}' then some ([kv], r6)
      else none

/-- The tail of `json.loads`: parse the members after `{` and require only
whitespace past the closing brace. -/
def loadsMembers (fuel : Nat) (rest : T) : Option Obj :=
  match parseMembersAux fuel rest with
  | some (obj, r2) => if skipJWS r2 = [] then some obj else none
  | none => none

/-- The body of `json.loads` after the opening brace, on the skipped text. -/
def loadsTail (len : Nat) (rest : T) : T → Option Obj
  | [] => loadsMembers (len + 1) rest
  | c2 :: r2 =>
    if c2 = '}' then (if skipJWS r2 = [] then some [] else none)
    else loadsMembers (len + 1) rest

def loadsStart (len : Nat) : T → Option Obj
  | [] => none
  | c :: rest => if c = '{' then loadsTail len rest (skipJWS rest) else none

/-- `json.loads` on one line, restricted to a single flat object. -/
def json_loads (s : T) : Option Obj := loadsStart s.length (skipJWS s)

/-!
### The Inventory Matcher, `find_ioc` (source lines 181-253)

The filesystem is modelled as an association list from paths to the list of
the file's lines (newline-free; reading the file appends one `'\n'` per
line, as `readlines()` yields for a text file).  `glob.glob` returns the
paths matching the fixed pattern in filesystem order, which the model takes
to be the association-list order.
-/

/-- A filesystem: paths mapped to file contents (lists of newline-free lines). -/
abbrev FileSys := List (T × List T)

def lookupFile (fs : FileSys) (p : T) : Option (List T) :=
  (fs.find? (fun e => e.1 == p)).map (·.2)

/-- `_f.read()`: the text of a file, every line with its trailing newline. -/
def fileText (lines : List T) : T := (lines.map (· ++ ['\n'])).flatten

/-- Does `patt` (a literal here) occur with a `}` strictly after it? -/
def pattThenClose (patt : T) : T → Bool
  | [] => false
  | c :: cs =>
    (patt.isPrefixOf (c :: cs) && ((c :: cs).drop patt.length).contains '}') ||
      pattThenClose patt cs

/-- `re.search('{' + '.*' + patt + '.*' + '}', line)` on a newline-free line,
with the caller-supplied fragment `patt` taken literally: some `{` is
followed (at any distance) by an occurrence of `patt`, itself followed (at
any distance) by a `}`. -/
def lineMatches (patt : T) : T → Bool
  | [] => false
  | c :: cs => (c == '{' && pattThenClose patt cs) || lineMatches patt cs

/-- `search_file` (source lines 102-138) as the script calls it: with
`color_wrap=None` the highlighting `re.sub` rewrites each matching line to
itself, so the result is `prefix + prefix.join(matching lines)` (each line
keeping its trailing newline); a missing file yields the empty string.  The
regex is abstracted to the line predicate `pmatch`. -/
def search_file (fs : FileSys) (file : T) (pmatch : T → Bool) (pfx : T) : T :=
  match lookupFile fs file with
  | none => []
  | some lines =>
    pfx ++ List.intercalate pfx ((lines.filter pmatch).map (· ++ ['\n']))

def cfgRoot : T := "/cds/group/pcds/pyps/config/".toList

def cfgLeaf : T := "iocmanager.cfg".toList

/-- Does a path match the glob `/cds/group/pcds/pyps/config/*/iocmanager.cfg`?
`*` matches one non-empty component without `/` that does not start with a
dot. -/
def isCfgGlobMatch (p : T) : Bool :=
  cfgRoot.isPrefixOf p &&
    (match splitFirst ['/'] (p.drop cfgRoot.length) with
     | some (mid, r2) => !mid.isEmpty && (mid.head? != some '.') && (r2 == cfgLeaf)
     | none => false)

/-- `glob.glob('/cds/group/pcds/pyps/config/*/iocmanager.cfg')` over the
modelled filesystem, in filesystem order. -/
def glob (fs : FileSys) : List T := (fs.map (·.1)).filter isCfgGlobMatch

/-- The configuration path for one hutch code (source line 217). -/
def mkCfgPath (h : T) : T := cfgRoot ++ h ++ '/' :: cfgLeaf

def cfgMark : T := "cfg:".toList

/-- The matches of `re.findall(r'/.*cfg\:', line)` within one newline-free
line: the leftmost match starts at the first `/` and `.*` extends greedily to
the end of the last `cfg:` occurrence after it; past that point the line
contains no further `cfg:`, hence no further match. -/
def findallCfgLine (l : T) : List T :=
  match splitFirst ['/'] l with
  | none => []
  | some (_, b) =>
    match splitLast cfgMark b with
    | none => []
    | some (mid, _) => ['/' :: (mid ++ cfgMark)]

/-- `re.findall(r'/.*cfg\:', text)`: `.` does not cross newlines, so the scan
decomposes into independent per-line scans. -/
def findallCfg (t : T) : List T := (t.splitOn '\n').flatMap findallCfgLine

/-- One line of `re.sub(r'.*cfg\:', '', text)`: erase everything through the
end of the last `cfg:` of the line, if any. -/
def stripCfgLine (l : T) : T :=
  match splitLast cfgMark l with
  | none => l
  | some (_, a) => a

/-- `re.sub(r'.*cfg\:', '', text)`, decomposed per line as `.` does not cross
newlines. -/
def stripCfgTags (t : T) : T :=
  List.intercalate ['\n'] ((t.splitOn '\n').map stripCfgLine)

/-- The matches of `re.findall(r'(?<=/)\w+(?=/ioc)', s)`: maximal word runs
preceded by `/` and followed by the literal `/ioc`.  `pend` gathers (reversed)
the current word run; `flag` records whether the character before the run was
`/` (the lookbehind); on the first character after the run the `/ioc`
lookahead is decided. -/
def htGo (flag : Bool) (pend : T) : T → List T
  | [] => []
  | c :: cs =>
    if isWordChar c then htGo flag (c :: pend) cs
    else
      (if pend ≠ [] ∧ flag = true ∧ c = '/' ∧ ("ioc".toList).isPrefixOf cs then
        [pend.reverse]
      else []) ++ htGo (c == '/') [] cs

/-- `''.join(re.findall(r'(?<=/)\w+(?=/ioc)', s))` (source line 243). -/
def deriveHutch (s : T) : T := (htGo false [] s).flatten

/-- Python dict assignment `d[k] = v`: overwrite in place if the key exists,
else append. -/
def setKey (d : Obj) (k : T) (v : JVal) : Obj :=
  if d.any (fun e => e.1 == k) then d.map (fun e => if e.1 == k then (k, v) else e)
  else d ++ [(k, v)]

def lookupKey (d : Obj) (k : T) : Option JVal :=
  (d.find? (fun e => e.1 == k)).map (·.2)

/-- The tagging loop `for _i, _d in enumerate(output): _d['hutch'] =
hutch_cfgs[_i]` (source lines 250-252); `none` models the `IndexError` raised
when `hutch_cfgs` is shorter than `output`. -/
def tagHutches : List Obj → List T → Option (List Obj)
  | [], _ => some []
  | _ :: _, [] => none
  | d :: ds, hh :: hs =>
    (tagHutches ds hs).map (fun r => setKey d ("hutch".toList) (JVal.str hh) :: r)

/-- The observable failure modes of `find_ioc`. -/
inductive PyErr where
  /-- line 211: invalid or missing hutch code (prints the hutch menu). -/
  | valueErrorHutch : PyErr
  /-- line 221: missing regex pattern (prints the pattern message). -/
  | valueErrorPatt : PyErr
  /-- line 248: `json.loads` failed on a normalized line. -/
  | jsonDecodeError : PyErr
  /-- line 252: `hutch_cfgs[_i]` out of range. -/
  | indexError : PyErr
deriving DecidableEq, Repr

/-- The hutch menu of source lines 204-206. -/
def hutch_list : List T :=
  ["xpp", "xcs", "cxi", "mfx", "mec", "tmo", "rix", "xrt",
   "aux", "det", "fee", "hpl", "icl", "las", "lfe", "kfe",
   "tst", "txi", "thz", "all"].map String.toList

/-- The per-file prefix of the scan loop (source lines 227-229): the file path
and a colon when more than one path is searched. -/
def iocPfx (path : List T) (f : T) : T :=
  if path.length ≠ 1 then f ++ [':'] else []

/-- The scan loop of `find_ioc` (source lines 224-232): search every path,
collecting each `search_file` result that differs from its bare prefix (the
`output` binding is inlined). -/
def iocScan (fs : FileSys) (p : T) (path : List T) : List T :=
  path.foldl (fun acc f =>
    if search_file fs f (lineMatches p) (iocPfx path f) ≠ iocPfx path f then
      acc ++ [search_file fs f (lineMatches p) (iocPfx path f)]
    else acc) []

/-- The tail of `find_ioc` (source lines 240-253) on the non-empty joined
search text `t`: recover the facility tags (the `hutch == 'all'` guard on
line 241 is immaterial since the tag list is only consumed in the `'all'`
branch), strip the file prefixes, normalize, parse each object string, and in
the wildcard case attach `hutch_cfgs[i]` to the `i`-th record. -/
def find_ioc_parse (h : T) (t : T) : Except PyErr (Option (List Obj)) :=
  let hutch_cfgs := (findallCfg t).map deriveHutch
  match (fix_json (stripCfgTags t)).mapM json_loads with
  | none => Except.error PyErr.jsonDecodeError
  | some output =>
    if h = "all".toList then
      match tagHutches output hutch_cfgs with
      | none => Except.error PyErr.indexError
      | some tagged => Except.ok (some tagged)
    else Except.ok (some output)

/-- The body of `find_ioc` after validation (source lines 213-239): build the
path list, run the scan, and return the `None` sentinel when the joined text
is empty. -/
def find_ioc_go (fs : FileSys) (h p : T) : Except PyErr (Option (List Obj)) :=
  let path := if h = "all".toList then glob fs else [mkCfgPath h]
  let t := (iocScan fs p path).flatten
  if t = [] then Except.ok none else find_ioc_parse h t

/-- `find_ioc` (source lines 181-253) over an explicit filesystem; the search
pattern is modelled as a literal fragment.  `Except.ok none` is the
`return None` empty-result sentinel of line 239.  (The source builds the path
list before checking `patt`; both steps are pure, so the pattern check is
hoisted first with identical observable behaviour.) -/
def find_ioc (fs : FileSys) (hutch : Option T) (patt : Option T) :
    Except PyErr (Option (List Obj)) :=
  match hutch with
  | none => Except.error PyErr.valueErrorHutch
  | some h =>
    if h ∈ hutch_list then
      match patt with
      | none => Except.error PyErr.valueErrorPatt
      | some p => find_ioc_go fs h p
    else Except.error PyErr.valueErrorHutch

/-!
### The Command-Script Extractor, `acquire_aliases` (source lines 354-383)
-/

/-- `re.search(r'db/alias.db', line)` on a newline-free line: an occurrence of
`db/alias` followed by any character (the unescaped `.`) followed by `db`. -/
def matchesDbAlias : T → Bool
  | [] => false
  | c :: cs =>
    (("db/alias".toList).isPrefixOf (c :: cs) &&
      (match (c :: cs).drop 8 with
       | d :: r2 => (d != '\n') && ("db".toList).isPrefixOf r2
       | [] => false)) ||
    matchesDbAlias cs

def recMarkQ : T := "\"RECORD=".toList

/-- The matches of `re.findall(r'"RECORD=.*"', line)` within one newline-free
line: from the first `"RECORD=` occurrence, `.*` extends greedily to the last
`"` of the line.  The remainder after that quote contains no further `"`,
hence no further match. -/
def clausesOfLine (l : T) : List T :=
  match splitFirst recMarkQ l with
  | none => []
  | some (_, rest) =>
    match splitLast ['"'] rest with
    | none => []
    | some (mid, _) => [recMarkQ ++ mid ++ ['"']]

/-- `re.sub(r'\"|\)|RECORD\=|ALIAS\=', '', s)` (source line 381), scanning
left to right and trying the four alternatives in order at each position
(they have pairwise distinct first characters, so the order never matters);
the fuel bounds the number of scan steps. -/
def cleanF : Nat → T → T
  | _, [] => []
  | 0, s => s
  | fuel + 1, c :: cs =>
    if c = '"' then cleanF fuel cs
    else if c = ')' then cleanF fuel cs
    else if ("RECORD=".toList).isPrefixOf (c :: cs) then cleanF fuel ((c :: cs).drop 7)
    else if ("ALIAS=".toList).isPrefixOf (c :: cs) then cleanF fuel ((c :: cs).drop 6)
    else c :: cleanF fuel cs

/-- The marker-stripping substitution with enough fuel. -/
def cleanClause (s : T) : T := cleanF s.length s

/-- Decompose one matched clause (source lines 381-383): strip the
quote/paren/marker tokens, split on commas, pair the first and last fields. -/
def decomposeClause (s : T) : T × T :=
  let fields := (cleanClause s).splitOn ','
  (fields.headD [], fields.getLastD [])

/-- Field content that survives `cleanClause` untouched and respects the
comma split: no quote, paren, equals sign or comma. -/
def clauseSafe (v : T) : Prop := ∀ c ∈ v, c ≠ '"' ∧ c ≠ ')' ∧ c ≠ '=' ∧ c ≠ ','

instance : DecidablePred clauseSafe := fun _ => List.decidableBAll _ _

/-- `acquire_aliases` (source lines 354-383): locate `st.cmd` under the
repaired release directory, keep the lines referencing `db/alias.db`, extract
each line's quoted `"RECORD=...“` clause and decompose it.  The Python
returns the empty string `''` (after printing) when `st.cmd` is missing; that
not-found outcome, like the `IndexError` that `fix_dir` can raise, is
modelled as `none`. -/
def acquire_aliases (fs : FileSys) (dir_path ioc : T) : Option (List (T × T)) := do
  let d ← fix_dir dir_path
  let f := d ++ "build/iocBoot/".toList ++ ioc ++ "/st.cmd".toList
  match lookupFile fs f with
  | none => none
  | some lines =>
    let search_result := search_file fs f matchesDbAlias []
    some (((search_result.splitOn '\n').flatMap clausesOfLine).map decomposeClause)

/-!
### The Alias Template Expander, `process_alias_template` (source lines 386-423)
-/

/-- `re.sub(r'alias\(| +', '', t)`: remove every `alias(` occurrence and
every run of spaces, scanning left to right and trying `alias\(` first at
each position (the two alternatives start with distinct characters, and
removing a space run one space at a time yields the same text); the fuel
bounds the number of scan steps. -/
def stripAF : Nat → T → T
  | _, [] => []
  | 0, s => s
  | fuel + 1, c :: cs =>
    if ("alias(".toList).isPrefixOf (c :: cs) then stripAF fuel ((c :: cs).drop 6)
    else if c = ' ' then stripAF fuel cs
    else c :: stripAF fuel cs

/-- The wrapper-stripping substitution with enough fuel. -/
def stripAliasCalls (t : T) : T := stripAF t.length t

/-- Flush after `)` and a gathered whitespace run `pend` (reversed): if the
run contains a newline, the greedy `\s*` of `\)\s*\n` backtracks to the
run's last newline, the match `)` + run-through-that-newline is replaced by
one newline and the run's newline-free tail is emitted unchanged; otherwise
there was no match and `)` plus the run are emitted unchanged. -/
def flushParen (pend : T) : T :=
  if '\n' ∈ pend then '\n' :: (pend.takeWhile (· != '\n')).reverse
  else ')' :: pend.reverse

/-- `re.sub(r'\)\s*\n', '\n', t)` as a structural scanner: state `none` is
a plain scan; state `some pend` means a `)` was seen and `pend` gathers
(reversed) the whitespace run after it, resolved by `flushParen` at the first
non-whitespace character or at the end of the text. -/
def scpGo : Option T → T → T
  | none, [] => []
  | none, c :: cs =>
    if c = ')' then scpGo (some []) cs else c :: scpGo none cs
  | some pend, [] => flushParen pend
  | some pend, c :: cs =>
    if isPyWS c then scpGo (some (c :: pend)) cs
    else flushParen pend ++ (if c = ')' then scpGo (some []) cs else c :: scpGo none cs)

def stripCloseParens (t : T) : T := scpGo none t

/-- Python `str.split()`: split on whitespace runs, discarding empty chunks. -/
def pySplit (t : T) : List T := (t.splitOnP isPyWS).filter (· ≠ [])

/-- `process_alias_template` (source lines 386-423): read
`parent_release + '/db/alias.db'`, remove the `alias(` wrappers and all
spaces, drop each `)` standing before a newline, substitute `$(RECORD)` and
`$(ALIAS)`, split the text on whitespace into template lines, and split each
line on commas after discarding `"` characters.  A missing file returns
`None`. -/
def process_alias_template (fs : FileSys) (parent_release recordName aliasName : T) :
    Option (List (List T)) :=
  let target := parent_release ++ "/db/alias.db".toList
  match lookupFile fs target with
  | none => none
  | some lines =>
    let t1 := stripAliasCalls (fileText lines)
    let t2 := stripCloseParens t1
    let t3 := replaceSub ("$(RECORD)".toList) recordName t2
    let t4 := replaceSub ("$(ALIAS)".toList) aliasName t3
    some ((pySplit t4).map (fun s => (s.filter (· ≠ '"')).splitOn ','))

/-- One atom of a template macro argument: a literal chunk, or a chunk
prefixed by the `$(RECORD)` or `$(ALIAS)` placeholder. -/
inductive TAtom where
  | lit : T → TAtom
  | recM : T → TAtom
  | aliM : T → TAtom
deriving DecidableEq, Repr

/-- The source text of one template token. -/
def tokSrc : TAtom → T
  | TAtom.lit s => s
  | TAtom.recM s => "$(RECORD)".toList ++ s
  | TAtom.aliM s => "$(ALIAS)".toList ++ s

/-- The token after substituting both placeholders. -/
def tokSubst (recordName aliasName : T) : TAtom → T
  | TAtom.lit s => s
  | TAtom.recM s => recordName ++ s
  | TAtom.aliM s => aliasName ++ s

/-- The token between the two substitution passes (`$(RECORD)` done,
`$(ALIAS)` pending). -/
def tokMid (recordName : T) : TAtom → T
  | TAtom.lit s => s
  | TAtom.recM s => recordName ++ s
  | TAtom.aliM s => "$(ALIAS)".toList ++ s

/-- The literal chunk carried by a token. -/
def atomContent : TAtom → T
  | TAtom.lit s => s
  | TAtom.recM s => s
  | TAtom.aliM s => s

/-- Literal template content that survives the strip/substitute/split
pipeline untouched: no whitespace, parenthesis-opener, quote, comma or
dollar sign. -/
def litSafe (s : T) : Prop :=
  ∀ c ∈ s, isPyWS c = false ∧ c ≠ '(' ∧ c ≠ '"' ∧ c ≠ ',' ∧ c ≠ '$'

instance : DecidablePred litSafe := fun _ => List.decidableBAll _ _

def atomSafe (a : TAtom) : Prop := litSafe (atomContent a)

instance : DecidablePred atomSafe := fun a => by unfold atomSafe; infer_instance

/-- Safe substituted names: no whitespace, quote, comma or dollar sign. -/
def tmplSafe (v : T) : Prop :=
  ∀ c ∈ v, isPyWS c = false ∧ c ≠ '"' ∧ c ≠ ',' ∧ c ≠ '$'

instance : DecidablePred tmplSafe := fun _ => List.decidableBAll _ _

/-!
### Rendered inventory lines

To state the Normalizer claims over whole classes of input lines, dialect
lines and JSON object lines are generated by render functions; the character
classes below are the value alphabet of the inventory dialect (identifier,
path and PV punctuation), deliberately excluding the characters the
Normalizer's passes react to (quotes, braces, colon, comma, whitespace).
-/

/-- Characters of rendered string values. -/
def isValChar (c : Char) : Bool := isWordChar c || c = '-' || c = '/' || c = '.'

/-- A value of the quasi-JSON dialect: a single-quoted string, a bare digit
run, or a bare `True`/`False` literal. -/
inductive DVal where
  | str : T → DVal
  | num : T → DVal
  | bool : Bool → DVal
deriving DecidableEq, Repr

/-- Render one dialect value. -/
def renderDVal : DVal → T
  | DVal.str s => '\'' :: s ++ ['\'']
  | DVal.num ds => ds
  | DVal.bool true => "True".toList
  | DVal.bool false => "False".toList

/-- How the Normalizer is meant to read a dialect value: strings stay
strings, digit runs are stringified, booleans become booleans. -/
def interpDVal : DVal → JVal
  | DVal.str s => JVal.str s
  | DVal.num ds => JVal.str ds
  | DVal.bool b => JVal.bool b

/-- Comma-join rendered fields. -/
def fieldsText (rf : T × DVal → T) : List (T × DVal) → T
  | [] => []
  | [f] => rf f
  | f :: rest => rf f ++ ',' :: fieldsText rf rest

/-- A brace-delimited object around rendered fields. -/
def renderObj (body : T) : T := '{' :: body ++ ['}']

/-- Stage 0: a raw dialect line, `{k:v,...}` with bare keys. -/
def renderD (fields : List (T × DVal)) : T :=
  renderObj (fieldsText (fun f => f.1 ++ ':' :: renderDVal f.2) fields)

/-- Stage 1 (after key quoting): `{'k':v,...}`. -/
def renderD1 (fields : List (T × DVal)) : T :=
  renderObj (fieldsText (fun f => '\'' :: f.1 ++ '\'' :: ':' :: renderDVal f.2) fields)

/-- A dialect value after the `True`/`False` rewrites. -/
def renderDVal2 : DVal → T
  | DVal.str s => '\'' :: s ++ ['\'']
  | DVal.num ds => ds
  | DVal.bool true => "true".toList
  | DVal.bool false => "false".toList

/-- Stage 2-3 (after the boolean rewrites): `{'k':v,...}` with lowercase
booleans. -/
def renderD2 (fields : List (T × DVal)) : T :=
  renderObj (fieldsText (fun f => '\'' :: f.1 ++ '\'' :: ':' :: renderDVal2 f.2) fields)

/-- A dialect value after digit quoting. -/
def renderDVal3 : DVal → T
  | DVal.str s => '\'' :: s ++ ['\'']
  | DVal.num ds => '\'' :: ds ++ ['\'']
  | DVal.bool true => "true".toList
  | DVal.bool false => "false".toList

/-- Stage 4 (after digit quoting): `{'k':'v',...}` with all strings quoted. -/
def renderD3 (fields : List (T × DVal)) : T :=
  renderObj (fieldsText (fun f => '\'' :: f.1 ++ '\'' :: ':' :: renderDVal3 f.2) fields)

/-- Render a parsed JSON value back to text (only the string and boolean
cases are exercised by the claims; numbers use their decimal digits). -/
def renderJVal : JVal → T
  | JVal.str s => '"' :: s ++ ['"']
  | JVal.bool true => "true".toList
  | JVal.bool false => "false".toList
  | JVal.num n => (toString n).toList

/-- Comma-join rendered JSON members. -/
def fieldsTextJ : Obj → T
  | [] => []
  | [f] => '"' :: f.1 ++ '"' :: ':' :: renderJVal f.2
  | f :: rest => ('"' :: f.1 ++ '"' :: ':' :: renderJVal f.2) ++ ',' :: fieldsTextJ rest

/-- A valid single-line JSON object `{"k":"v",...}` without whitespace. -/
def renderJson (obj : Obj) : T := renderObj (fieldsTextJ obj)

/-- Well-formedness of one rendered dialect field: a nonempty word-character
key without `True`/`False` occurrences, and a value that is a benign string
(again `True`/`False`-free), a nonempty digit run, or a boolean. -/
def wfField : T × DVal → Prop
  | (k, v) =>
    (k ≠ [] ∧ (∀ c ∈ k, isWordChar c = true) ∧
      ¬ ("True".toList <:+: k) ∧ ¬ ("False".toList <:+: k)) ∧
    (match v with
     | DVal.str s => (∀ c ∈ s, isValChar c = true) ∧
         ¬ ("True".toList <:+: s) ∧ ¬ ("False".toList <:+: s)
     | DVal.num ds => ds ≠ [] ∧ ∀ c ∈ ds, c.isDigit = true
     | DVal.bool _ => True)

/-- A dialect value after the `True` rewrite only (`False` still pending). -/
def renderDVal1t : DVal → T
  | DVal.str s => '\'' :: s ++ ['\'']
  | DVal.num ds => ds
  | DVal.bool true => "true".toList
  | DVal.bool false => "False".toList

/-- Stage between the two boolean rewrites. -/
def renderD1t (fields : List (T × DVal)) : T :=
  renderObj (fieldsText (fun f => '\'' :: f.1 ++ '\'' :: ':' :: renderDVal1t f.2) fields)

/-- The quote-style conversion `replace('\'', '"')` as a character map. -/
def swapQuote (c : Char) : Char := if c = '\'' then '"' else c

/-- The well-formedness needed to parse a rendered JSON object back: nonempty
word-character keys and string values over the benign value alphabet (or
booleans; numeric values are exactly what breaks idempotence, claim C2's
counterexample). -/
def roundJField : T × JVal → Prop
  | (k, v) =>
    (k ≠ [] ∧ ∀ c ∈ k, isWordChar c = true) ∧
    (match v with
     | JVal.str s => ∀ c ∈ s, isValChar c = true
     | JVal.bool _ => True
     | JVal.num _ => False)

instance : DecidablePred roundJField := by
  intro f
  rcases f with ⟨k, v⟩
  unfold roundJField
  cases v <;> exact inferInstance

/-- Well-formedness of a valid JSON object line for the idempotence claim:
parseable as above, and free of `True`/`False` occurrences (which the
Normalizer would rewrite inside keys or values). -/
def wfJField (f : T × JVal) : Prop :=
  roundJField f ∧
  ¬ ("True".toList <:+: f.1) ∧ ¬ ("False".toList <:+: f.1) ∧
  (match f.2 with
   | JVal.str s => ¬ ("True".toList <:+: s) ∧ ¬ ("False".toList <:+: s)
   | _ => True)

instance : DecidablePred wfJField := by
  intro f
  rcases f with ⟨k, v⟩
  unfold wfJField
  cases v <;> exact inferInstance

instance : DecidablePred wfField := by
  intro f
  rcases f with ⟨k, v⟩
  unfold wfField
  cases v <;> exact inferInstance

/-!
## Theorems
-/

/-- The two-hutch store used to witness the wildcard tagging claim. -/
def c1Hutches : List (T × List (T × DVal)) :=
  [("xpp".toList, [("id".toList, DVal.str ("x0".toList))]),
   ("tmo".toList, [("id".toList, DVal.str ("y1".toList))])]

/-- Claim C10, counterexample: on empty input `fix_json` does not return the
empty sequence; `''.split('\n')` is `['']`, so a one-element list containing
the empty string comes back. -/
theorem C10_counterexample : fix_json ([] : T) ≠ ([] : List T) := by decide

/-- Claim C10, amended: the Normalizer applied to empty input yields the
one-element sequence containing the empty string (so no brace-delimited
object strings, but not an empty sequence). -/
theorem C10_empty_input : fix_json ([] : T) = [([] : T)] := by decide

/-- Claim C9, counterexample: on the empty input string `fix_dir` does not
return normally; `output_dir[-1]` raises `IndexError` (modelled by `none`),
so there is an input on which no slash-terminated string is returned. -/
theorem C9_counterexample : fix_dir ([] : T) = none := by decide

/-- Claim C9, amended: for every nonempty input string the Path Resolver
returns normally, and the result is never empty and always ends in `/`. -/
theorem C9_total_slash_terminated (s : T) (hs : s ≠ []) :
    ∃ out : T, fix_dir s = some out ∧ out ≠ [] ∧ out.getLast? = some '/' := by
  have hats : ∀ od : T, od ≠ [] →
      addTrailingSlash od ≠ [] ∧ (addTrailingSlash od).getLast? = some '/' := by
    intro od h
    unfold addTrailingSlash
    by_cases hl : od.getLast? = some '/'
    · rw [if_pos hl]
      exact ⟨h, hl⟩
    · rw [if_neg hl]
      exact ⟨by simp, by simp⟩
  unfold fix_dir
  by_cases h1 : ("ioc/".toList).isPrefixOf s
  · rw [if_pos h1]
    exact ⟨_, rfl, hats _ (by simp)⟩
  · rw [if_neg h1]
    by_cases h2 : ("common".toList) <:+: s
    · rw [if_pos h2]
      exact ⟨_, rfl, hats _ (by simp)⟩
    · rw [if_neg h2, if_neg hs]
      exact ⟨_, rfl, hats _ hs⟩

/-- Claim C9, witness: the amended theorem at the concrete input `"/a/b"`. -/
theorem C9_witness :
    ∃ out : T, fix_dir ("/a/b".toList) = some out ∧ out ≠ [] ∧ out.getLast? = some '/' :=
  C9_total_slash_terminated ("/a/b".toList) (by decide)

/-- Claim C8: the Path Resolver applies its rules in order with the first
match winning — the `ioc/`-prefixed rule (regardless of a `common`
occurrence), else the `common` rule, else pass-through (stated for nonempty
input; the empty string is the C9 corner) — always appending a trailing `/`
if absent; and the three concrete examples of the spec hold. -/
theorem C8_fix_dir_rules :
    (∀ s : T, ("ioc/".toList).isPrefixOf s = true →
      fix_dir s = some (addTrailingSlash ("/cds/group/pcds/epics/".toList ++ s))) ∧
    (∀ s : T, ("ioc/".toList).isPrefixOf s = false → ("common".toList) <:+: s →
      fix_dir s = some (addTrailingSlash (s ++ "/children".toList))) ∧
    (∀ s : T, ("ioc/".toList).isPrefixOf s = false → ¬ ("common".toList) <:+: s →
      s ≠ [] → fix_dir s = some (addTrailingSlash s)) ∧
    fix_dir ("ioc/foo".toList) = some ("/cds/group/pcds/epics/ioc/foo/".toList) ∧
    fix_dir ("/a/common/b".toList) = some ("/a/common/b/children/".toList) ∧
    fix_dir ("/a/b/".toList) = some ("/a/b/".toList) := by
  refine ⟨?_, ?_, ?_, by decide, by decide, by decide⟩
  · intro s hp
    unfold fix_dir
    rw [if_pos hp]
  · intro s hp hin
    unfold fix_dir
    rw [if_neg (by rw [hp]; simp), if_pos hin]
  · intro s hp hin hs
    unfold fix_dir
    rw [if_neg (by rw [hp]; simp), if_neg hin, if_neg hs]

/-- Claim C8, witness: rule 1 wins over rule 2 on `"ioc/common/x"`, which
both starts with the short-form marker and contains `common`. -/
theorem C8_witness :
    fix_dir ("ioc/common/x".toList) =
      some (addTrailingSlash ("/cds/group/pcds/epics/".toList ++ "ioc/common/x".toList)) :=
  C8_fix_dir_rules.1 ("ioc/common/x".toList) (by decide)

/-- Claim C4: the code applies the key-quoting pass to the raw input, not to
the whitespace-stripped text of step 1 (the value computed at source line 163
is discarded by line 165).  On `"\x7ba: 1\x7d"` the code leaves the space and
the bare digit untouched, while the spec-ordered pipeline `fix_json_spec`
strips the space and stringifies the digit. -/
theorem C4_step2_runs_on_raw_input :
    fix_json ("\x7ba: 1\x7d".toList) = [("\x7b\"a\": 1\x7d".toList)] ∧
    fix_json_spec ("\x7ba: 1\x7d".toList) = [("\x7b\"a\":\"1\"\x7d".toList)] ∧
    fix_json ("\x7ba: 1\x7d".toList) ≠ fix_json_spec ("\x7ba: 1\x7d".toList) := by
  refine ⟨by decide, by decide, by decide⟩

/-- Claim C2, counterexample: `"\x7b\"a\":5\x7d"` is valid JSON (it parses,
with numeric value `5`), but normalizing it first changes the structured
output — the Normalizer stringifies the digit, so re-normalizing
already-valid JSON is not a no-op. -/
theorem C2_counterexample :
    json_loads ("\x7b\"a\":5\x7d".toList) = some [("a".toList, JVal.num 5)] ∧
    (fix_json ("\x7b\"a\":5\x7d".toList)).map json_loads ≠
      [json_loads ("\x7b\"a\":5\x7d".toList)] := by
  refine ⟨by decide, by decide⟩

/-- Claim C3, counterexample: on the dialect line `"\x7bport: 8080\x7d"` (a
bare key and a bare digit value separated by the stray space the dialect
allows), normalization succeeds but the digit-valued field comes back as a
number, not a string: the digit-quoting pass requires the digits to follow
the colon immediately, and the whitespace strip that would guarantee that is
the dead store of source line 163. -/
theorem C3_counterexample :
    json_loads ((fix_json ("\x7bport: 8080\x7d".toList)).headD []) =
      some [("port".toList, JVal.num 8080)] ∧
    ∀ ds : T, JVal.num 8080 ≠ JVal.str ds := by
  refine ⟨by decide, fun ds h => by cases h⟩

/-- A successful `lookupFile` returns the line list of some filesystem entry. -/
theorem lookupFile_mem {fs : FileSys} {f : T} {ls : List T}
    (h : lookupFile fs f = some ls) : ∃ pth : T, (pth, ls) ∈ fs := by
  unfold lookupFile at h
  cases hf : fs.find? (fun e => e.1 == f) with
  | none => rw [hf] at h; simp at h
  | some e =>
    rw [hf] at h
    simp only [Option.map] at h
    have h2 : e.2 = ls := Option.some.inj h
    exact ⟨e.1, by rw [← h2]; exact List.mem_of_find?_eq_some hf⟩

/-- When no line of any file satisfies the matcher, `search_file` returns
either the bare prefix (file found, no matching lines) or the empty string
(file missing). -/
theorem search_file_of_no_match (fs : FileSys) (f : T) (pm : T → Bool) (pfx : T)
    (hno : ∀ e ∈ fs, ∀ l ∈ e.2, pm l = false) :
    search_file fs f pm pfx = pfx ∨ search_file fs f pm pfx = [] := by
  unfold search_file
  cases hl : lookupFile fs f with
  | none => exact Or.inr rfl
  | some ls =>
    obtain ⟨pth, hmem⟩ := lookupFile_mem hl
    have hfil : ls.filter pm = [] :=
      List.filter_eq_nil_iff.mpr (fun l hlmem => by simp [hno (pth, ls) hmem l hlmem])
    refine Or.inl ?_
    show pfx ++ List.intercalate pfx ((ls.filter pm).map (· ++ ['\n'])) = pfx
    rw [hfil]
    simp [List.intercalate]

/-- The result accumulation loop of `find_ioc` collects nothing when every
file search comes back as its bare prefix or empty. -/
theorem foldl_search_flatten_nil (fs : FileSys) (pm : T → Bool) (pfxf : T → T) :
    ∀ paths : List T,
      (∀ f ∈ paths, search_file fs f pm (pfxf f) = pfxf f ∨
        search_file fs f pm (pfxf f) = []) →
      ∀ acc : List T,
        (paths.foldl (fun acc f =>
          if search_file fs f pm (pfxf f) ≠ pfxf f then acc ++ [search_file fs f pm (pfxf f)]
          else acc) acc).flatten = acc.flatten := by
  intro paths
  induction paths with
  | nil => intro _ acc; rfl
  | cons f rest ih =>
    intro hstep acc
    have hf := hstep f (by simp)
    have hrest : ∀ g ∈ rest, search_file fs g pm (pfxf g) = pfxf g ∨
        search_file fs g pm (pfxf g) = [] := fun g hg => hstep g (by simp [hg])
    simp only [List.foldl_cons]
    rcases hf with hf | hf
    · rw [if_neg (by simp [hf])]
      exact ih hrest acc
    · by_cases hemp : pfxf f = []
      · have hfp : search_file fs f pm (pfxf f) = pfxf f := by rw [hf, hemp]
        rw [if_neg (by simp [hfp])]
        exact ih hrest acc
      · rw [if_pos (by rw [hf]; exact fun hc => hemp hc.symm)]
        rw [ih hrest (acc ++ [search_file fs f pm (pfxf f)])]
        simp [hf]

/-- With no matching line anywhere, the scan of `find_ioc` collects nothing. -/
theorem iocScan_flatten_nil (fs : FileSys) (p : T) (path : List T)
    (hno : ∀ e ∈ fs, ∀ l ∈ e.2, lineMatches p l = false) :
    (iocScan fs p path).flatten = [] := by
  unfold iocScan
  have := foldl_search_flatten_nil fs (lineMatches p) (iocPfx path) path
    (fun f _ => search_file_of_no_match fs f (lineMatches p) (iocPfx path f) hno) []
  simpa using this

/-- Claim C5: `find_ioc` fails with the invalid-selector error whenever the
hutch code is absent or unknown, fails with the missing-pattern error when no
pattern is supplied (the selector being checked first), and on a valid
selector and pattern with zero matches across all sources returns the `None`
sentinel — an outcome distinct from every error and from an empty record
list. -/
theorem C5_find_ioc_errors_and_sentinel :
    (∀ fs : FileSys, ∀ patt : Option T,
      find_ioc fs none patt = Except.error PyErr.valueErrorHutch) ∧
    (∀ fs : FileSys, ∀ h : T, ∀ patt : Option T, h ∉ hutch_list →
      find_ioc fs (some h) patt = Except.error PyErr.valueErrorHutch) ∧
    (∀ fs : FileSys, ∀ h : T, h ∈ hutch_list →
      find_ioc fs (some h) none = Except.error PyErr.valueErrorPatt) ∧
    (∀ fs : FileSys, ∀ h p : T, h ∈ hutch_list →
      (∀ e ∈ fs, ∀ l ∈ e.2, lineMatches p l = false) →
      find_ioc fs (some h) (some p) = Except.ok none) ∧
    (∀ e : PyErr,
      (Except.ok none : Except PyErr (Option (List Obj))) ≠ Except.error e) ∧
    (Except.ok none : Except PyErr (Option (List Obj))) ≠ Except.ok (some []) := by
  refine ⟨?_, ?_, ?_, ?_, ?_, ?_⟩
  · intro fs patt
    rfl
  · intro fs h patt hh
    simp only [find_ioc]
    rw [if_neg hh]
  · intro fs h hh
    simp only [find_ioc]
    rw [if_pos hh]
  · intro fs h p hh hno
    have hscan : ∀ path : List T, (iocScan fs p path).flatten = [] := fun path =>
      iocScan_flatten_nil fs p path hno
    simp only [find_ioc, find_ioc_go]
    rw [if_pos hh]
    simp [hscan]
  · intro e h
    exact Except.noConfusion h
  · intro h
    exact Option.noConfusion (Except.ok.inj h)

/-- Claim C5, witness: the sentinel clause at a concrete filesystem — a valid
selector and pattern with zero matches yields `Except.ok none`. -/
theorem C5_witness :
    find_ioc [(mkCfgPath ("xpp".toList), [("\x7b'id':'x0'\x7d".toList)])]
      (some ("xpp".toList)) (some ("zzz".toList)) = Except.ok none :=
  C5_find_ioc_errors_and_sentinel.2.2.2.1 _ _ _ (by decide) (by decide)

/-- Claim C1, counterexample: with the wildcard selector and exactly one
discovered configuration file, the matcher adds no path prefix, recovers no
facility tags, and the tagging loop raises `IndexError` instead of attaching
the file's facility to the parsed record — the claimed correspondence fails
for one discovered file. -/
theorem C1_counterexample :
    find_ioc [(mkCfgPath ("xpp".toList), [("\x7b'id':'x0'\x7d".toList)])]
      (some ("all".toList)) (some ("id".toList)) = Except.error PyErr.indexError := by
  rfl

/-!
### Generic facts about the substitution scanner `replaceSub`
-/

/-- `replaceSubF` does not depend on the fuel once it covers the input. -/
theorem replaceSubF_stable (pat rep : T) :
    ∀ f₁ : Nat, ∀ s : T, ∀ f₂ : Nat, s.length ≤ f₁ → s.length ≤ f₂ →
      replaceSubF pat rep f₁ s = replaceSubF pat rep f₂ s := by
  intro f₁
  induction f₁ with
  | zero =>
    intro s f₂ h1 _
    have hs : s = [] := List.eq_nil_of_length_eq_zero (Nat.le_zero.mp h1)
    subst hs
    cases f₂ <;> rfl
  | succ a ih =>
    intro s f₂ h1 h2
    cases s with
    | nil => cases f₂ <;> rfl
    | cons c cs =>
      cases f₂ with
      | zero => simp at h2
      | succ b =>
        simp only [replaceSubF]
        by_cases hp : pat ≠ [] ∧ pat.isPrefixOf (c :: cs)
        · rw [if_pos hp, if_pos hp]
          congr 1
          apply ih
          · have hplen : 0 < pat.length := List.length_pos.mpr hp.1
            simp only [List.length_drop, List.length_cons]
            simp only [List.length_cons] at h1
            omega
          · have hplen : 0 < pat.length := List.length_pos.mpr hp.1
            simp only [List.length_drop, List.length_cons]
            simp only [List.length_cons] at h2
            omega
        · rw [if_neg hp, if_neg hp]
          congr 1
          apply ih
          · simp only [List.length_cons] at h1
            omega
          · simp only [List.length_cons] at h2
            omega

/-- Any sufficient fuel computes `replaceSub`. -/
theorem replaceSub_eqF (pat rep : T) (s : T) (fuel : Nat) (h : s.length ≤ fuel) :
    replaceSubF pat rep fuel s = replaceSub pat rep s :=
  replaceSubF_stable pat rep fuel s s.length h le_rfl

/-- One scan step on a position with no match. -/
theorem replaceSub_cons_of_neg {pat rep : T} {c : Char} {cs : T}
    (h : ¬ (pat ≠ [] ∧ pat.isPrefixOf (c :: cs))) :
    replaceSub pat rep (c :: cs) = c :: replaceSub pat rep cs := by
  show replaceSubF pat rep (cs.length + 1) (c :: cs) = _
  simp only [replaceSubF, if_neg h]
  rfl

/-- A pattern occurrence at the head is consumed and replaced. -/
theorem replaceSub_hit (pat rep : T) (hpat : pat ≠ []) (r : T) :
    replaceSub pat rep (pat ++ r) = rep ++ replaceSub pat rep r := by
  cases pat with
  | nil => exact absurd rfl hpat
  | cons p pt =>
    show replaceSubF (p :: pt) rep ((p :: pt ++ r).length) (p :: (pt ++ r)) = _
    have hpre : (p :: pt).isPrefixOf (p :: pt ++ r) := by
      rw [List.isPrefixOf_iff_prefix]
      exact List.prefix_append _ _
    rw [show ((p :: pt ++ r).length) = (pt ++ r).length + 1 from rfl]
    have hcond : (p :: pt) ≠ [] ∧ (p :: pt).isPrefixOf (p :: (pt ++ r)) = true :=
      And.intro hpat hpre
    simp only [replaceSubF]
    rw [if_pos hcond]
    congr 1
    have hdrop : (p :: (pt ++ r)).drop (p :: pt).length = r := by
      have : (p :: (pt ++ r)) = (p :: pt) ++ r := by simp
      rw [this, List.drop_left]
    rw [hdrop]
    exact replaceSub_eqF _ _ r ((pt ++ r).length) (by simp only [List.length_append]; omega)

/-- Replacing the pattern by itself alone. -/
theorem replaceSub_self (pat rep : T) (hpat : pat ≠ []) :
    replaceSub pat rep pat = rep := by
  have h := replaceSub_hit pat rep hpat []
  rw [List.append_nil] at h
  rw [show replaceSub pat rep [] = [] from rfl, List.append_nil] at h
  exact h

/-- If `pat` never occurs, the scan is the identity. -/
theorem replaceSub_of_not_infix (pat rep : T) :
    ∀ s : T, ¬ (pat <:+: s) → replaceSub pat rep s = s := by
  intro s
  induction s with
  | nil => intro _; rfl
  | cons c cs ih =>
    intro hni
    have hstep : ¬ (pat ≠ [] ∧ pat.isPrefixOf (c :: cs)) := by
      rintro ⟨_, hp⟩
      exact hni ((List.isPrefixOf_iff_prefix.mp hp).isInfix)
    rw [replaceSub_cons_of_neg hstep]
    rw [ih (fun hinf => hni (hinf.trans (List.suffix_cons c cs).isInfix))]

/-- Skip a chunk in which no occurrence of `pat` can start, not even one
reaching over into the remainder. -/
theorem replaceSub_append (pat rep : T) :
    ∀ s r : T, (∀ t : T, t <:+ s → t ≠ [] → ¬ (pat.isPrefixOf (t ++ r) = true)) →
      replaceSub pat rep (s ++ r) = s ++ replaceSub pat rep r := by
  have key : ∀ s r : T, (∀ t : T, t <:+ s → t ≠ [] → ¬ (pat.isPrefixOf (t ++ r) = true)) →
      ∀ fuel : Nat, replaceSubF pat rep (s.length + fuel) (s ++ r) =
        s ++ replaceSubF pat rep fuel r := by
    intro s
    induction s with
    | nil => intro r _ fuel; simp
    | cons c s' ih =>
      intro r hno fuel
      have hcond : ¬ (pat ≠ [] ∧ pat.isPrefixOf (c :: (s' ++ r))) := by
        rintro ⟨_, hp⟩
        exact hno (c :: s') (List.suffix_refl _) (by simp) (by simpa using hp)
      have hlen : (c :: s').length + fuel = (s'.length + fuel) + 1 := by
        simp only [List.length_cons]
        omega
      rw [hlen]
      show replaceSubF pat rep ((s'.length + fuel) + 1) (c :: (s' ++ r)) = _
      simp only [replaceSubF, if_neg hcond]
      rw [ih r (fun t ht hne => hno t (ht.trans (List.suffix_cons c s')) hne) fuel]
      rfl
  intro s r hno
  show replaceSubF pat rep ((s ++ r).length) (s ++ r) = _
  rw [List.length_append]
  rw [key s r hno r.length]
  rfl

/-- The head of an occurring pattern occurs. -/
theorem infix_head_mem {p : Char} {pt s : T} (h : (p :: pt) <:+: s) : p ∈ s := by
  obtain ⟨x, y, hxy⟩ := h
  rw [← hxy]
  simp

/-- Skip a chunk that does not contain the pattern's head character. -/
theorem replaceSub_append_headNotMem {p : Char} {pt : T} (rep : T) (s r : T)
    (h : p ∉ s) :
    replaceSub (p :: pt) rep (s ++ r) = s ++ replaceSub (p :: pt) rep r := by
  apply replaceSub_append
  intro t ht hne hp
  cases t with
  | nil => exact hne rfl
  | cons a t' =>
    obtain ⟨z, hz⟩ := List.isPrefixOf_iff_prefix.mp hp
    simp only [List.cons_append] at hz
    cases pt with
    | nil => simp at hz; exact h (ht.subset (by simp [hz.1]))
    | cons q qt =>
      have hpa : p = a := by injection hz
      exact h (ht.subset (by simp [hpa]))

/-- Identity on a chunk that does not contain the pattern's head character. -/
theorem replaceSub_of_headNotMem {p : Char} {pt : T} (rep : T) (s : T)
    (h : p ∉ s) : replaceSub (p :: pt) rep s = s :=
  replaceSub_of_not_infix _ _ s (fun hinf => h (infix_head_mem hinf))

/-- An all-word-character pattern cannot straddle a non-word character: if it
is a prefix of `a ++ c :: b` with `c` not a word character, it is a prefix of
`a`. -/
theorem wordpat_prefix_bound {pat : T} (hw : ∀ ch ∈ pat, isWordChar ch = true)
    {c : Char} (hc : isWordChar c = false) {a b : T}
    (hp : pat.isPrefixOf (a ++ c :: b) = true) : pat <+: a := by
  have hpre : pat <+: a ++ c :: b := List.isPrefixOf_iff_prefix.mp hp
  by_cases hlen : pat.length ≤ a.length
  · exact List.prefix_of_prefix_length_le hpre (a.prefix_append (c :: b)) hlen
  · exfalso
    push_neg at hlen
    have hac : (a ++ [c]) <+: pat := by
      apply List.prefix_of_prefix_length_le _ hpre
      · simpa using hlen
      · have : a ++ [c] ++ b = a ++ c :: b := by simp
        exact this ▸ List.prefix_append _ _
    have hcp : c ∈ pat := hac.subset (by simp)
    rw [hw c hcp] at hc
    exact Bool.noConfusion hc

/-- Substitution of an all-word pattern distributes over a split at any
non-word character. -/
theorem replaceSub_split (pat rep : T) (hpat : pat ≠ [])
    (hw : ∀ ch ∈ pat, isWordChar ch = true) (c : Char) (hc : isWordChar c = false) :
    ∀ a b : T, replaceSub pat rep (a ++ c :: b) =
      replaceSub pat rep a ++ c :: replaceSub pat rep b := by
  have main : ∀ n : Nat, ∀ a : T, a.length ≤ n → ∀ b : T,
      replaceSub pat rep (a ++ c :: b) = replaceSub pat rep a ++ c :: replaceSub pat rep b := by
    intro n
    induction n with
    | zero =>
      intro a ha b
      have : a = [] := List.eq_nil_of_length_eq_zero (Nat.le_zero.mp ha)
      subst this
      simp only [List.nil_append]
      rw [replaceSub_cons_of_neg (by
        rintro ⟨hne, hp⟩
        have := wordpat_prefix_bound hw hc (a := []) (b := b) (by simpa using hp)
        exact hne (List.prefix_nil.mp this))]
      rfl
    | succ n ih =>
      intro a ha b
      cases a with
      | nil =>
        simp only [List.nil_append]
        rw [replaceSub_cons_of_neg (by
          rintro ⟨hne, hp⟩
          have := wordpat_prefix_bound hw hc (a := []) (b := b) (by simpa using hp)
          exact hne (List.prefix_nil.mp this))]
        rfl
      | cons x a' =>
        by_cases hhit : pat.isPrefixOf (x :: a' ++ c :: b) = true
        · have hpa : pat <+: x :: a' := wordpat_prefix_bound hw hc (a := x :: a') hhit
          obtain ⟨a2, ha2⟩ := hpa
          rw [← ha2]
          have e1 : (pat ++ a2) ++ c :: b = pat ++ (a2 ++ c :: b) := by simp
          rw [e1, replaceSub_hit pat rep hpat, replaceSub_hit pat rep hpat]
          have ha2len : a2.length ≤ n := by
            have h1 := congrArg List.length ha2
            have h2 : 0 < pat.length := List.length_pos.mpr hpat
            simp only [List.length_append, List.length_cons] at h1 ha
            omega
          rw [ih a2 ha2len b]
          simp
        · have hcond : ¬ (pat ≠ [] ∧ pat.isPrefixOf (x :: a' ++ c :: b)) := by
            rintro ⟨_, hp⟩
            exact hhit hp
          have hconda : ¬ (pat ≠ [] ∧ pat.isPrefixOf (x :: a')) := by
            rintro ⟨_, hp⟩
            apply hhit
            rw [List.isPrefixOf_iff_prefix] at hp ⊢
            exact hp.trans (by exact (x :: a').prefix_append (c :: b))
          have e1 : x :: a' ++ c :: b = x :: (a' ++ c :: b) := by simp
          rw [e1, replaceSub_cons_of_neg (by simpa using hcond),
            replaceSub_cons_of_neg hconda]
          have ha' : a'.length ≤ n := by
            simp only [List.length_cons] at ha
            omega
          rw [ih a' ha' b]
          simp
  intro a b
  exact main a.length a le_rfl b

/-- Everything inside an occurring infix satisfies what everything in the
text satisfies. -/
theorem infix_all {t s : T} (h : t <:+: s) {P : Char → Prop}
    (hall : ∀ ch ∈ s, P ch) : ∀ ch ∈ t, P ch :=
  fun ch hch => hall ch (h.subset hch)

/-!
### Walking the key-quoting scanner `qkGo` over rendered text
-/

/-- A false boolean is not true. -/
theorem neg_of_eq_false {b : Bool} (h : b = false) : ¬ (b = true) := by simp [h]

/-- Word characters are gathered into the pending run. -/
theorem qkGo_word_append (k : T) (hk : ∀ c ∈ k, isWordChar c = true) :
    ∀ (cq : Bool) (pend rest : T),
      qkGo cq pend (k ++ rest) = qkGo cq (k.reverse ++ pend) rest := by
  induction k with
  | nil => intro cq pend rest; simp
  | cons c k' ih =>
    intro cq pend rest
    have hc : isWordChar c = true := hk c (by simp)
    simp only [List.cons_append]
    rw [qkGo, if_pos hc]
    rw [ih (fun x hx => hk x (by simp [hx])) cq (c :: pend) rest]
    simp

/-- A colon-free chunk closed off by a non-word, non-colon delimiter passes
through the key-quoting scanner unchanged (no run inside it can be followed
by `:`). -/
theorem qkGo_no_colon (s : T) (hs : ':' ∉ s) (d : Char) (hd : isWordChar d = false)
    (hd2 : d ≠ ':') (rest : T) :
    ∀ (cq : Bool) (pend : T),
      qkGo cq pend (s ++ d :: rest) =
        pend.reverse ++ s ++ d :: qkGo (d != '\'') [] rest := by
  induction s with
  | nil =>
    intro cq pend
    simp only [List.nil_append]
    rw [qkGo, if_neg (neg_of_eq_false hd),
      if_neg (fun hco => hd2 hco.1)]
    simp
  | cons c s' ih =>
    intro cq pend
    have hcs : ':' ∉ s' := fun h => hs (by simp [h])
    by_cases hc : isWordChar c = true
    · simp only [List.cons_append]
      rw [qkGo, if_pos hc]
      rw [ih hcs cq (c :: pend)]
      simp
    · have hcc : c ≠ ':' := fun h => hs (by simp [h])
      simp only [List.cons_append]
      rw [qkGo, if_neg hc, if_neg (fun hco => hcc hco.1)]
      rw [ih hcs (c != '\'') []]
      simp

/-- A nonempty word run followed by a colon is quoted (with the lookbehind
clear). -/
theorem qkGo_key (k : T) (hk1 : k ≠ []) (hk2 : ∀ c ∈ k, isWordChar c = true)
    (rest : T) :
    qkGo true [] (k ++ ':' :: rest) = '\'' :: k ++ '\'' :: ':' :: qkGo true [] rest := by
  rw [qkGo_word_append k hk2 true [] (':' :: rest)]
  simp only [List.append_nil]
  rw [qkGo, if_neg (neg_of_eq_false (show isWordChar ':' = false from by decide)),
    if_pos ⟨rfl, by simpa using hk1, rfl⟩]
  simp

/-- A colon reached with an empty pending run is emitted unchanged and clears
the lookbehind. -/
theorem qkGo_colon_nil (cq : Bool) (rest : T) :
    qkGo cq [] (':' :: rest) = ':' :: qkGo true [] rest := by
  rw [qkGo, if_neg (neg_of_eq_false (show isWordChar ':' = false from by decide)),
    if_neg (fun hco => hco.2.1 rfl)]
  simp only [List.reverse_nil, List.nil_append]
  rw [show ((':' : Char) != '\'') = true from by decide]

/-!
### Walking the digit-quoting scanner `qdGo`
-/

/-- A non-digit character steps the scanner, updating the colon lookbehind. -/
theorem qdGo_step (c : Char) (hc : c.isDigit = false) (pc : Bool) (r : T) :
    qdGo (some pc) (c :: r) = c :: qdGo (some (c == ':')) r := by
  rw [qdGo, if_neg (fun hco => (neg_of_eq_false hc) hco.2)]

/-- A colon-free chunk scanned with a clear lookbehind is unchanged. -/
theorem qdGo_no_colon (s : T) (hs : ':' ∉ s) (r : T) :
    qdGo (some false) (s ++ r) = s ++ qdGo (some false) r := by
  induction s with
  | nil => rfl
  | cons c s' ih =>
    have hcs : ':' ∉ s' := fun h => hs (by simp [h])
    have hcc : c ≠ ':' := fun h => hs (by simp [h])
    simp only [List.cons_append]
    rw [qdGo, if_neg (fun hco => Bool.noConfusion hco.1)]
    rw [show (c == ':') = false from by simpa using hcc]
    rw [ih hcs]

/-- Streaming the tail of a quoted digit run up to its first non-digit. -/
theorem qdGo_run (ds : T) (hds : ∀ c ∈ ds, c.isDigit = true) (d : Char)
    (hd : d.isDigit = false) (r : T) :
    qdGo none (ds ++ d :: r) = ds ++ '\'' :: d :: qdGo (some (d == ':')) r := by
  induction ds with
  | nil =>
    simp only [List.nil_append]
    rw [qdGo, if_neg (neg_of_eq_false hd)]
  | cons c ds' ih =>
    simp only [List.cons_append]
    rw [qdGo, if_pos (hds c (by simp))]
    rw [ih (fun x hx => hds x (by simp [hx]))]

/-- A nonempty digit run right after a colon is wrapped in quotes. -/
theorem qdGo_digits (ds : T) (hne : ds ≠ []) (hds : ∀ c ∈ ds, c.isDigit = true)
    (d : Char) (hd : d.isDigit = false) (r : T) :
    qdGo (some true) (ds ++ d :: r) =
      '\'' :: ds ++ '\'' :: d :: qdGo (some (d == ':')) r := by
  cases ds with
  | nil => exact absurd rfl hne
  | cons c ds' =>
    simp only [List.cons_append]
    rw [qdGo, if_pos ⟨rfl, hds c (by simp)⟩]
    rw [qdGo_run ds' (fun x hx => hds x (by simp [hx])) d hd r]

/-!
### The Normalizer on rendered dialect lines, stage by stage
-/

/-- A character failing a test everything in `s` passes is not in `s`. -/
theorem not_mem_of_all {s : T} {P : Char → Bool} (hall : ∀ c ∈ s, P c = true)
    {a : Char} (ha : P a = false) : a ∉ s :=
  fun h => Bool.noConfusion (ha ▸ hall a h)

/-- Rendered dialect values never contain a colon. -/
theorem renderDVal_no_colon {k : T} {v : DVal} (hf : wfField (k, v)) :
    ':' ∉ renderDVal v := by
  rcases hf with ⟨_, hv⟩
  cases v with
  | str s =>
    intro hmem
    have h1 : (':' : Char) ≠ '\'' := by decide
    have h2 : ':' ∉ s := not_mem_of_all hv.1 (show isValChar ':' = false from by decide)
    simp only [renderDVal] at hmem
    rcases List.mem_cons.mp hmem with h | h
    · exact h1 h
    · rcases List.mem_append.mp h with h | h
      · exact h2 h
      · exact h1 (List.mem_singleton.mp h)
  | num ds =>
    exact not_mem_of_all hv.2 (show Char.isDigit ':' = false from by decide)
  | bool b => cases b <;> decide

/-- The key-quoting pass turns a rendered dialect line into its key-quoted
form. -/
theorem quoteKeys_renderD (fields : List (T × DVal)) (hwf : ∀ f ∈ fields, wfField f) :
    quoteKeys (renderD fields) = renderD1 fields := by
  have main : ∀ fs : List (T × DVal), (∀ f ∈ fs, wfField f) →
      qkGo true [] (fieldsText (fun f => f.1 ++ ':' :: renderDVal f.2) fs ++ ['}']) =
        fieldsText (fun f => '\'' :: f.1 ++ '\'' :: ':' :: renderDVal f.2) fs ++ ['}'] := by
    intro fs
    induction fs with
    | nil =>
      intro _
      simp only [fieldsText, List.nil_append]
      rw [show (['}'] : T) = [] ++ '}' :: [] from rfl,
        qkGo_no_colon [] (by simp) '}' (by decide) (by decide) [] true []]
      rfl
    | cons f rest ih =>
      intro hwf
      obtain ⟨⟨hk1, hk2, _, _⟩, _⟩ := hwf f (by simp)
      have hvc : ':' ∉ renderDVal f.2 := renderDVal_no_colon (hwf f (by simp))
      cases rest with
      | nil =>
        simp only [fieldsText]
        rw [show (f.1 ++ ':' :: renderDVal f.2) ++ ['}'] =
          f.1 ++ ':' :: (renderDVal f.2 ++ '}' :: []) by simp]
        rw [qkGo_key f.1 hk1 hk2]
        rw [qkGo_no_colon (renderDVal f.2) hvc '}' (by decide) (by decide) [] true []]
        rw [show (('}' : Char) != '\'') = true from by decide]
        simp [qkGo]
      | cons f2 rest2 =>
        simp only [fieldsText]
        rw [show ((f.1 ++ ':' :: renderDVal f.2) ++
            ',' :: fieldsText (fun f => f.1 ++ ':' :: renderDVal f.2) (f2 :: rest2)) ++ ['}'] =
          f.1 ++ ':' :: (renderDVal f.2 ++
            ',' :: (fieldsText (fun f => f.1 ++ ':' :: renderDVal f.2) (f2 :: rest2) ++ ['}'])) by
          simp]
        rw [qkGo_key f.1 hk1 hk2]
        rw [qkGo_no_colon (renderDVal f.2) hvc ',' (by decide) (by decide) _ true []]
        rw [show ((',' : Char) != '\'') = true from by decide]
        rw [ih (fun g hg => hwf g (by simp [hg]))]
        simp
  unfold quoteKeys renderD renderD1 renderObj
  rw [show ('{' :: fieldsText (fun f => f.1 ++ ':' :: renderDVal f.2) fields ++ ['}'] : T) =
    [] ++ '{' :: (fieldsText (fun f => f.1 ++ ':' :: renderDVal f.2) fields ++ ['}']) from rfl]
  rw [qkGo_no_colon [] (by simp) '{' (by decide) (by decide) _ true []]
  rw [show (('{' : Char) != '\'') = true from by decide]
  rw [main fields hwf]
  rfl

/-- One literal-rewrite pass (an all-word pattern such as `True`) over a
key-quoted rendered line: keys are pattern-free, so the pass rewrites each
rendered value chunk independently. -/
theorem replaceSub_fieldsPass (p : Char) (pt rep : T)
    (hw : ∀ c ∈ p :: pt, isWordChar c = true) (rv rv' : DVal → T) :
    ∀ fs : List (T × DVal),
      (∀ f ∈ fs, replaceSub (p :: pt) rep (rv f.2) = rv' f.2) →
      (∀ f ∈ fs, ¬ ((p :: pt) <:+: f.1)) →
      replaceSub (p :: pt) rep
        (fieldsText (fun f => '\'' :: f.1 ++ '\'' :: ':' :: rv f.2) fs ++ ['}']) =
      fieldsText (fun f => '\'' :: f.1 ++ '\'' :: ':' :: rv' f.2) fs ++ ['}'] := by
  have hpat : (p :: pt) ≠ [] := by simp
  have hsplit := replaceSub_split (p :: pt) rep hpat hw
  intro fs
  induction fs with
  | nil =>
    intro _ _
    simp only [fieldsText, List.nil_append]
    apply replaceSub_of_not_infix
    intro hinf
    have hp : p ∈ (['}'] : T) := infix_head_mem hinf
    have hpe : p = '}' := by simpa using hp
    subst hpe
    exact absurd (hw '}' (by simp)) (by decide)
  | cons f rest ih =>
    intro hv hk
    have hkid : replaceSub (p :: pt) rep f.1 = f.1 :=
      replaceSub_of_not_infix _ _ _ (hk f (by simp))
    have hvf : replaceSub (p :: pt) rep (rv f.2) = rv' f.2 := hv f (by simp)
    cases rest with
    | nil =>
      simp only [fieldsText]
      rw [show ('\'' :: f.1 ++ '\'' :: ':' :: rv f.2) ++ ['}'] =
        [] ++ '\'' :: (f.1 ++ '\'' :: (([] ++ ':' :: (rv f.2 ++ '}' :: [])))) by simp]
      rw [hsplit '\'' (by decide), hsplit '\'' (by decide), hsplit ':' (by decide),
        hsplit '}' (by decide)]
      rw [hkid, hvf]
      have hnil : replaceSub (p :: pt) rep ([] : T) = [] := rfl
      simp [hnil]
    | cons f2 rest2 =>
      simp only [fieldsText]
      rw [show ('\'' :: f.1 ++ '\'' :: ':' :: rv f.2) ++
          ',' :: fieldsText (fun f => '\'' :: f.1 ++ '\'' :: ':' :: rv f.2) (f2 :: rest2) ++
            ['}'] =
        [] ++ '\'' :: (f.1 ++ '\'' :: ([] ++ ':' :: (rv f.2 ++
          ',' :: (fieldsText (fun f => '\'' :: f.1 ++ '\'' :: ':' :: rv f.2) (f2 :: rest2) ++
            ['}'])))) by simp]
      rw [hsplit '\'' (by decide), hsplit '\'' (by decide), hsplit ':' (by decide),
        hsplit ',' (by decide)]
      rw [hkid, hvf]
      rw [ih (fun g hg => hv g (by simp [hg])) (fun g hg => hk g (by simp [hg]))]
      have hnil : replaceSub (p :: pt) rep ([] : T) = [] := rfl
      simp [hnil, fieldsText]

/-- `p :: pt` cannot occur inside an all-digit run when its head is not a
digit. -/
theorem not_infix_digits {p : Char} {pt ds : T} (hp : p.isDigit = false)
    (hds : ∀ c ∈ ds, c.isDigit = true) : ¬ ((p :: pt) <:+: ds) := fun hinf =>
  Bool.noConfusion (hp ▸ infix_all hinf (P := fun c => c.isDigit = true) hds p (by simp))

/-- A rewritten string-value chunk is untouched by a pass whose pattern does
not occur in the string body. -/
theorem replaceSub_quoted_chunk (p : Char) (pt rep : T)
    (hw : ∀ c ∈ p :: pt, isWordChar c = true) (s : T)
    (hfree : ¬ ((p :: pt) <:+: s)) :
    replaceSub (p :: pt) rep ('\'' :: s ++ ['\'']) = '\'' :: s ++ ['\''] := by
  have hpat : (p :: pt) ≠ [] := by simp
  have hsplit := replaceSub_split (p :: pt) rep hpat hw
  rw [show ('\'' :: s ++ ['\''] : T) = [] ++ '\'' :: (s ++ '\'' :: []) by simp]
  rw [hsplit '\'' (by decide), hsplit '\'' (by decide)]
  rw [ replaceSub_of_not_infix _ _ _ hfree]
  have hnil : replaceSub (p :: pt) rep ([] : T) = [] := rfl
  simp [hnil]

/-- The `True` pass on a key-quoted dialect line rewrites exactly the bare
`True` values. -/
theorem truePass_renderD1 (fields : List (T × DVal))
    (hwf : ∀ f ∈ fields, wfField f) :
    replaceSub ("True".toList) ("true".toList) (renderD1 fields) = renderD1t fields := by
  unfold renderD1 renderD1t renderObj
  have hw : ∀ c ∈ ('T' :: "rue".toList), isWordChar c = true := by decide
  rw [show "True".toList = 'T' :: "rue".toList from rfl]
  rw [show ('{' :: fieldsText (fun f => '\'' :: f.1 ++ '\'' :: ':' :: renderDVal f.2) fields ++
      ['}'] : T) =
    [] ++ '{' :: (fieldsText (fun f => '\'' :: f.1 ++ '\'' :: ':' :: renderDVal f.2) fields ++
      ['}']) from rfl]
  rw [replaceSub_split _ _ (by simp) hw '{' (by decide)]
  rw [replaceSub_fieldsPass 'T' ("rue".toList) ("true".toList) hw renderDVal renderDVal1t
    fields ?hval ?hkey]
  · rfl
  case hval =>
    intro f hf
    obtain ⟨_, hv⟩ := hwf f hf
    rcases hv2 : f.2 with s | ds | b
    · rw [hv2] at hv
      exact replaceSub_quoted_chunk 'T' _ _ hw s hv.2.1
    · rw [hv2] at hv
      exact replaceSub_of_not_infix _ _ _ (not_infix_digits (by decide) hv.2)
    · cases b
      · exact replaceSub_of_not_infix _ _ _ (by decide)
      · exact replaceSub_self _ _ (by simp)
  case hkey =>
    intro f hf
    exact (hwf f hf).1.2.2.1

/-- The `False` pass then rewrites exactly the bare `False` values. -/
theorem falsePass_renderD1t (fields : List (T × DVal))
    (hwf : ∀ f ∈ fields, wfField f) :
    replaceSub ("False".toList) ("false".toList) (renderD1t fields) = renderD2 fields := by
  unfold renderD1t renderD2 renderObj
  have hw : ∀ c ∈ ('F' :: "alse".toList), isWordChar c = true := by decide
  rw [show "False".toList = 'F' :: "alse".toList from rfl]
  rw [show ('{' :: fieldsText (fun f => '\'' :: f.1 ++ '\'' :: ':' :: renderDVal1t f.2) fields ++
      ['}'] : T) =
    [] ++ '{' :: (fieldsText (fun f => '\'' :: f.1 ++ '\'' :: ':' :: renderDVal1t f.2) fields ++
      ['}']) from rfl]
  rw [replaceSub_split _ _ (by simp) hw '{' (by decide)]
  rw [replaceSub_fieldsPass 'F' ("alse".toList) ("false".toList) hw renderDVal1t renderDVal2
    fields ?hval ?hkey]
  · rfl
  case hval =>
    intro f hf
    obtain ⟨_, hv⟩ := hwf f hf
    rcases hv2 : f.2 with s | ds | b
    · rw [hv2] at hv
      exact replaceSub_quoted_chunk 'F' _ _ hw s hv.2.2
    · rw [hv2] at hv
      exact replaceSub_of_not_infix _ _ _ (not_infix_digits (by decide) hv.2)
    · cases b
      · exact replaceSub_self _ _ (by simp)
      · exact replaceSub_of_not_infix _ _ _ (by decide)
  case hkey =>
    intro f hf
    exact (hwf f hf).1.2.2.2

/-- A colon-free chunk with a non-digit head clears the colon lookbehind and
passes the digit scanner unchanged. -/
theorem qdGo_true_chunk (c : Char) (cs : T) (hc : c.isDigit = false)
    (hcc : c ≠ ':') (hcs : ':' ∉ cs) (r : T) :
    qdGo (some true) (c :: cs ++ r) = c :: cs ++ qdGo (some false) r := by
  rw [List.cons_append, qdGo_step c hc]
  rw [show (c == ':') = false from by simpa using hcc]
  rw [qdGo_no_colon cs hcs r]
  simp

/-- The digit scanner right after a colon, crossing one rendered value and the
following delimiter: only a bare digit run gets quoted. -/
theorem qdGo_value (v : DVal)
    (hv : match v with
          | DVal.str s => ∀ c ∈ s, isValChar c = true
          | DVal.num ds => ds ≠ [] ∧ ∀ c ∈ ds, c.isDigit = true
          | DVal.bool _ => True)
    (d : Char) (hd : d.isDigit = false) (hdc : d ≠ ':') (r : T) :
    qdGo (some true) (renderDVal2 v ++ d :: r) =
      renderDVal3 v ++ d :: qdGo (some false) r := by
  have hdq : (d == ':') = false := by simpa using hdc
  cases v with
  | str s =>
    have hcs : ':' ∉ s := not_mem_of_all hv (by decide)
    have hcs2 : ':' ∉ s ++ ['\''] := by
      intro h
      rcases List.mem_append.mp h with h1 | h1
      · exact hcs h1
      · simp at h1
    show qdGo (some true) (('\'' :: s ++ ['\'']) ++ d :: r) = _
    rw [show ('\'' :: s ++ ['\'']) ++ d :: r = '\'' :: (s ++ ['\'']) ++ (d :: r) by simp]
    rw [qdGo_true_chunk '\'' (s ++ ['\'']) (by decide) (by decide) hcs2 (d :: r)]
    rw [qdGo_step d hd, hdq]
    simp [renderDVal3]
  | num ds =>
    obtain ⟨hne, hds⟩ := hv
    show qdGo (some true) (ds ++ d :: r) = ('\'' :: ds ++ ['\'']) ++ d :: qdGo (some false) r
    rw [qdGo_digits ds hne hds d hd r, hdq]
    simp
  | bool b =>
    cases b
    · show qdGo (some true) (('f' :: "alse".toList) ++ d :: r) = _
      rw [qdGo_true_chunk 'f' ("alse".toList) (by decide) (by decide) (by decide) (d :: r)]
      rw [qdGo_step d hd, hdq]
      rfl
    · show qdGo (some true) (('t' :: "rue".toList) ++ d :: r) = _
      rw [qdGo_true_chunk 't' ("rue".toList) (by decide) (by decide) (by decide) (d :: r)]
      rw [qdGo_step d hd, hdq]
      rfl

/-- The digit scanner across one whole rendered field and its delimiter. -/
theorem qdGo_chunk (k : T) (hk : ∀ c ∈ k, isWordChar c = true) (v : DVal)
    (hv : match v with
          | DVal.str s => ∀ c ∈ s, isValChar c = true
          | DVal.num ds => ds ≠ [] ∧ ∀ c ∈ ds, c.isDigit = true
          | DVal.bool _ => True)
    (d : Char) (hd : d.isDigit = false) (hdc : d ≠ ':') (r : T) :
    qdGo (some false) (('\'' :: k ++ '\'' :: ':' :: renderDVal2 v) ++ d :: r) =
      ('\'' :: k ++ '\'' :: ':' :: renderDVal3 v) ++ d :: qdGo (some false) r := by
  have hkq : ':' ∉ k := not_mem_of_all hk (by decide)
  have hpre : ':' ∉ '\'' :: k ++ ['\''] := by
    intro h
    rcases List.mem_cons.mp h with h1 | h1
    · exact absurd h1 (by decide)
    · rcases List.mem_append.mp h1 with h2 | h2
      · exact hkq h2
      · simp at h2
  rw [show ('\'' :: k ++ '\'' :: ':' :: renderDVal2 v) ++ d :: r =
    ('\'' :: k ++ ['\'']) ++ (':' :: (renderDVal2 v ++ d :: r)) by simp]
  rw [qdGo_no_colon _ hpre]
  rw [qdGo_step ':' (by decide)]
  rw [show ((':' : Char) == ':') = true from rfl]
  rw [qdGo_value v hv d hd hdc r]
  simp

/-- The digit scanner over the rendered field list with its closing brace. -/
theorem qdGo_fields (fs : List (T × DVal)) (hwf : ∀ f ∈ fs, wfField f) :
    qdGo (some false)
      (fieldsText (fun f => '\'' :: f.1 ++ '\'' :: ':' :: renderDVal2 f.2) fs ++ ['}']) =
    fieldsText (fun f => '\'' :: f.1 ++ '\'' :: ':' :: renderDVal3 f.2) fs ++ ['}'] := by
  induction fs with
  | nil => rfl
  | cons f rest ih =>
    have hk := (hwf f (by simp)).1.2.1
    have hv : match f.2 with
        | DVal.str s => ∀ c ∈ s, isValChar c = true
        | DVal.num ds => ds ≠ [] ∧ ∀ c ∈ ds, c.isDigit = true
        | DVal.bool _ => True := by
      have h2 := (hwf f (by simp)).2
      rcases hv2 : f.2 with s | ds | b
      · rw [hv2] at h2
        exact h2.1
      · rw [hv2] at h2
        exact h2
      · trivial
    cases rest with
    | nil =>
      simp only [fieldsText]
      rw [qdGo_chunk f.1 hk f.2 hv '}' (by decide) (by decide) []]
      rfl
    | cons f2 rest2 =>
      simp only [fieldsText]
      rw [show (('\'' :: f.1 ++ '\'' :: ':' :: renderDVal2 f.2) ++
          ',' :: fieldsText (fun f => '\'' :: f.1 ++ '\'' :: ':' :: renderDVal2 f.2)
            (f2 :: rest2)) ++ ['}'] =
        ('\'' :: f.1 ++ '\'' :: ':' :: renderDVal2 f.2) ++
          ',' :: (fieldsText (fun f => '\'' :: f.1 ++ '\'' :: ':' :: renderDVal2 f.2)
            (f2 :: rest2) ++ ['}']) by simp]
      rw [qdGo_chunk f.1 hk f.2 hv ',' (by decide) (by decide) _]
      rw [ih (fun g hg => hwf g (by simp [hg]))]
      simp

/-- Digit quoting turns the boolean-rewritten line into the fully quoted
line: exactly the bare digit runs (which sit right after their colon) gain
quotes. -/
theorem quoteDigits_renderD2 (fields : List (T × DVal))
    (hwf : ∀ f ∈ fields, wfField f) :
    quoteDigits (renderD2 fields) = renderD3 fields := by
  unfold quoteDigits renderD2 renderD3 renderObj
  rw [List.cons_append]
  rw [show qdGo (some false)
      ('{' :: (fieldsText (fun f => '\'' :: f.1 ++ '\'' :: ':' :: renderDVal2 f.2) fields ++
        ['}'])) =
    '{' :: qdGo (some false)
      (fieldsText (fun f => '\'' :: f.1 ++ '\'' :: ':' :: renderDVal2 f.2) fields ++
        ['}']) from by
      rw [qdGo_step '{' (by decide)]
      rfl]
  rw [qdGo_fields fields hwf]
  rfl

/-- The value side of field well-formedness, extracted per constructor. -/
theorem wfField_val (f : T × DVal) (h : wfField f) :
    match f.2 with
    | DVal.str s => ∀ c ∈ s, isValChar c = true
    | DVal.num ds => ds ≠ [] ∧ ∀ c ∈ ds, c.isDigit = true
    | DVal.bool _ => True := by
  have h2 := h.2
  rcases hv2 : f.2 with s | ds | b
  · rw [hv2] at h2
    exact h2.1
  · rw [hv2] at h2
    exact h2
  · trivial

/-- The quote-style conversion `replace('\'', '"')` is the character map
`swapQuote` (a single-character pattern can neither straddle nor overlap). -/
theorem replaceSub_quote (s : T) : replaceSub ['\''] ['"'] s = s.map swapQuote := by
  induction s with
  | nil => rfl
  | cons c cs ih =>
    by_cases hc : c = '\''
    · subst hc
      rw [show ('\'' :: cs : T) = ['\''] ++ cs from rfl]
      rw [replaceSub_hit ['\''] ['"'] (by simp) cs, ih]
      simp [swapQuote]
    · have hng : ¬ ((['\''] : T) ≠ [] ∧ (['\''] : T).isPrefixOf (c :: cs)) := by
        rintro ⟨-, hp⟩
        rcases List.isPrefixOf_iff_prefix.mp hp with ⟨t, ht⟩
        injection ht with h1 _
        exact hc h1.symm
      rw [replaceSub_cons_of_neg hng, ih]
      simp [swapQuote, hc]

/-- `swapQuote` fixes any quote-free chunk. -/
theorem map_swapQuote_id (t : T) (h : '\'' ∉ t) : t.map swapQuote = t := by
  induction t with
  | nil => rfl
  | cons c cs ih =>
    have hc : c ≠ '\'' := fun he => h (by simp [he])
    simp only [List.map_cons, ih (fun hm => h (by simp [hm]))]
    rw [show swapQuote c = c from by simp [swapQuote, hc]]

/-- Swapping quotes turns a fully quoted dialect value into its JSON
rendering. -/
theorem mapSwap_renderDVal3 (v : DVal)
    (hv : match v with
          | DVal.str s => ∀ c ∈ s, isValChar c = true
          | DVal.num ds => ds ≠ [] ∧ ∀ c ∈ ds, c.isDigit = true
          | DVal.bool _ => True) :
    (renderDVal3 v).map swapQuote = renderJVal (interpDVal v) := by
  cases v with
  | str s =>
    have hs : s.map swapQuote = s :=
      map_swapQuote_id s (not_mem_of_all hv (by decide))
    show ('\'' :: s ++ ['\'']).map swapQuote = '"' :: s ++ ['"']
    simp only [List.map_cons, List.map_append, List.map_nil]
    rw [hs]
    rfl
  | num ds =>
    have hs : ds.map swapQuote = ds :=
      map_swapQuote_id ds (not_mem_of_all hv.2 (by decide))
    show ('\'' :: ds ++ ['\'']).map swapQuote = '"' :: ds ++ ['"']
    simp only [List.map_cons, List.map_append, List.map_nil]
    rw [hs]
    rfl
  | bool b => cases b <;> rfl

/-- Swapping quotes turns the fully quoted line into valid JSON text. -/
theorem mapSwap_renderD3 (fields : List (T × DVal))
    (hwf : ∀ f ∈ fields, wfField f) :
    (renderD3 fields).map swapQuote =
      renderJson (fields.map (fun f => (f.1, interpDVal f.2))) := by
  have main : ∀ fs : List (T × DVal), (∀ f ∈ fs, wfField f) →
      (fieldsText (fun f => '\'' :: f.1 ++ '\'' :: ':' :: renderDVal3 f.2) fs).map swapQuote =
        fieldsTextJ (fs.map (fun f => (f.1, interpDVal f.2))) := by
    intro fs
    induction fs with
    | nil => intro _; rfl
    | cons f rest ih =>
      intro hwf2
      have hkq : '\'' ∉ f.1 := not_mem_of_all (hwf2 f (by simp)).1.2.1 (by decide)
      have hvv : (renderDVal3 f.2).map swapQuote = renderJVal (interpDVal f.2) :=
        mapSwap_renderDVal3 f.2 (wfField_val f (hwf2 f (by simp)))
      cases rest with
      | nil =>
        show (('\'' :: f.1 ++ '\'' :: ':' :: renderDVal3 f.2)).map swapQuote = _
        simp only [List.map_cons, List.map_append]
        rw [map_swapQuote_id f.1 hkq, hvv]
        rfl
      | cons f2 rest2 =>
        show (('\'' :: f.1 ++ '\'' :: ':' :: renderDVal3 f.2) ++
            ',' :: fieldsText (fun f => '\'' :: f.1 ++ '\'' :: ':' :: renderDVal3 f.2)
              (f2 :: rest2)).map swapQuote = _
        simp only [List.map_cons, List.map_append]
        rw [map_swapQuote_id f.1 hkq, hvv]
        rw [ih (fun g hg => hwf2 g (by simp [hg]))]
        rfl
  unfold renderD3 renderJson renderObj
  simp only [List.map_cons, List.map_append, List.map_nil]
  rw [main fields hwf]
  rfl

/-- Every character of a rendered JSON value is a quote or a value
character. -/
theorem renderJVal_chars (v : JVal)
    (hv : match v with
          | JVal.str s => ∀ c ∈ s, isValChar c = true
          | JVal.bool _ => True
          | JVal.num _ => False) :
    ∀ c ∈ renderJVal v, c = '"' ∨ isValChar c = true := by
  cases v with
  | str s =>
    intro c hc
    rcases List.mem_cons.mp hc with h1 | h1
    · exact Or.inl h1
    · rcases List.mem_append.mp h1 with h2 | h2
      · exact Or.inr (hv c h2)
      · exact Or.inl (by simpa using h2)
  | bool b =>
    cases b <;> intro c hc <;> right
    · have hc2 : c ∈ ('f' :: 'a' :: 'l' :: 's' :: 'e' :: ([] : T)) := hc
      simp at hc2
      rcases hc2 with rfl | rfl | rfl | rfl | rfl <;> decide
    · have hc2 : c ∈ ('t' :: 'r' :: 'u' :: 'e' :: ([] : T)) := hc
      simp at hc2
      rcases hc2 with rfl | rfl | rfl | rfl <;> decide
  | num n => exact absurd hv (by simp)

/-- Every character of the rendered member text is a quote, colon, comma or
value character (in particular neither brace, space nor newline). -/
theorem fieldsTextJ_chars (obj : Obj) (hobj : ∀ f ∈ obj, roundJField f) :
    ∀ c ∈ fieldsTextJ obj, c = '"' ∨ c = ':' ∨ c = ',' ∨ isValChar c = true := by
  induction obj with
  | nil => intro c hc; simp [fieldsTextJ] at hc
  | cons f rest ih =>
    have hk : ∀ c ∈ f.1, isWordChar c = true := (hobj f (by simp)).1.2
    have hvm : match f.2 with
        | JVal.str s => ∀ c ∈ s, isValChar c = true
        | JVal.bool _ => True
        | JVal.num _ => False := by
      have h2 := (hobj f (by simp)).2
      rcases hv2 : f.2 with s | b | n
      · rw [hv2] at h2
        exact h2
      · trivial
      · rw [hv2] at h2
        exact h2
    have hchunk : ∀ c ∈ ('"' :: f.1 ++ '"' :: ':' :: renderJVal f.2),
        c = '"' ∨ c = ':' ∨ c = ',' ∨ isValChar c = true := by
      intro c hc
      rcases List.mem_cons.mp hc with h1 | h1
      · exact Or.inl h1
      · rcases List.mem_append.mp h1 with h2 | h2
        · exact Or.inr (Or.inr (Or.inr (by
            have := hk c h2
            simp [isValChar, this])))
        · rcases List.mem_cons.mp h2 with h3 | h3
          · exact Or.inl h3
          · rcases List.mem_cons.mp h3 with h4 | h4
            · exact Or.inr (Or.inl h4)
            · rcases renderJVal_chars f.2 hvm c h4 with h5 | h5
              · exact Or.inl h5
              · exact Or.inr (Or.inr (Or.inr h5))
    cases rest with
    | nil => exact hchunk
    | cons f2 rest2 =>
      intro c hc
      rcases List.mem_append.mp hc with h1 | h1
      · exact hchunk c h1
      · rcases List.mem_cons.mp h1 with h2 | h2
        · exact Or.inr (Or.inr (Or.inl h2))
        · exact ih (fun g hg => hobj g (by simp [hg])) c h2

/-- `'},'` cannot occur in a rendered object whose body is brace-free. -/
theorem not_infix_brace_comma (body : T) (hb : '}' ∉ body) :
    ¬ ((['}', ','] : T) <:+: ('{' :: body ++ ['}'])) := by
  have main : ∀ t : T, '}' ∉ t → ¬ ((['}', ','] : T) <:+: (t ++ ['}'])) := by
    intro t
    induction t with
    | nil =>
      intro _
      decide
    | cons c t' ih =>
      intro hc hinf
      rcases List.infix_cons_iff.mp hinf with h1 | h1
      · rcases h1 with ⟨r, hr⟩
        injection hr with he _
        exact hc (by simp [← he])
      · exact ih (fun hm => hc (by simp [hm])) h1
  intro hinf
  rcases List.infix_cons_iff.mp hinf with h1 | h1
  · rcases h1 with ⟨r, hr⟩
    injection hr with he _
    exact absurd he (by decide)
  · exact main body hb h1

/-- Stripping leaves a brace-delimited line untouched. -/
theorem pyStrip_obj (body : T) : pyStrip ('{' :: body ++ ['}']) = '{' :: body ++ ['}'] := by
  unfold pyStrip
  rw [show ('{' :: body ++ ['}'] : T) = '{' :: (body ++ ['}']) from rfl]
  rw [show List.dropWhile isPyWS ('{' :: (body ++ ['}'])) = '{' :: (body ++ ['}']) from by
    rw [List.dropWhile_cons]
    rw [if_neg (by decide)]]
  rw [show ('{' :: (body ++ ['}'])).reverse = '}' :: (body.reverse ++ ['{']) from by simp]
  rw [List.dropWhile_cons]
  rw [if_neg (by decide)]
  simp

/-- A line without the separator splits into itself alone. -/
theorem splitOn_no_sep (a : Char) (s : T) (h : a ∉ s) : s.splitOn a = [s] := by
  rw [List.splitOn]
  refine List.splitOnP_eq_single _ _ ?_
  intro x hx hb
  exact h (by simpa using (by simpa using hb : x = a) ▸ hx)

/-- A non-whitespace head stops the JSON whitespace skipper. -/
theorem skipJWS_cons (c : Char) (cs : T) (hc : isJWS c = false) :
    skipJWS (c :: cs) = c :: cs := by
  unfold skipJWS
  rw [List.dropWhile_cons, if_neg (neg_of_eq_false hc)]

/-- The value side of parse-back well-formedness, extracted per constructor. -/
theorem roundJField_val (f : T × JVal) (h : roundJField f) :
    match f.2 with
    | JVal.str s => ∀ c ∈ s, isValChar c = true
    | JVal.bool _ => True
    | JVal.num _ => False := by
  have h2 := h.2
  rcases hv2 : f.2 with s | b | n
  · rw [hv2] at h2
    exact h2
  · trivial
  · rw [hv2] at h2
    exact h2

/-- The string parser consumes a quote-free body up to its closing quote. -/
theorem parseJString_append (k : T) (r : T) (hk : '"' ∉ k) :
    parseJString (k ++ '"' :: r) = some (k, r) := by
  induction k with
  | nil =>
    show parseJString ('"' :: r) = some ([], r)
    rw [parseJString, if_pos rfl]
  | cons c k' ih =>
    have hc : c ≠ '"' := fun he => hk (by simp [he])
    show parseJString (c :: (k' ++ '"' :: r)) = some (c :: k', r)
    rw [parseJString, if_neg hc]
    rw [ih (fun hm => hk (by simp [hm]))]
    rfl

/-- The value parser reads back exactly a rendered string or boolean. -/
theorem parseJValue_render (v : JVal)
    (hv : match v with
          | JVal.str s => ∀ c ∈ s, isValChar c = true
          | JVal.bool _ => True
          | JVal.num _ => False)
    (r : T) :
    parseJValue (renderJVal v ++ r) = some (v, r) := by
  cases v with
  | str s =>
    have hs : '"' ∉ s := not_mem_of_all hv (by decide)
    rw [show renderJVal (JVal.str s) ++ r = '"' :: (s ++ '"' :: r) from by simp [renderJVal]]
    rw [parseJValue, if_pos rfl]
    rw [parseJString_append s r hs]
    rfl
  | bool b =>
    cases b
    · show parseJValue ('f' :: ("alse".toList ++ r)) = some (JVal.bool false, r)
      rw [parseJValue, if_neg (by decide)]
      have hnp : (("true".toList).isPrefixOf ('f' :: ("alse".toList ++ r))) = false := by
        show (('t' == 'f') && (("rue".toList).isPrefixOf ("alse".toList ++ r))) = false
        rw [show ('t' == 'f') = false from by decide]
        rw [Bool.false_and]
      rw [if_neg (neg_of_eq_false hnp)]
      have hp : ("false".toList).isPrefixOf ('f' :: ("alse".toList ++ r)) = true := by
        rw [List.isPrefixOf_iff_prefix]
        exact ⟨r, rfl⟩
      rw [if_pos hp]
      rfl
    · show parseJValue ('t' :: ("rue".toList ++ r)) = some (JVal.bool true, r)
      rw [parseJValue, if_neg (by decide)]
      have hp : ("true".toList).isPrefixOf ('t' :: ("rue".toList ++ r)) = true := by
        rw [List.isPrefixOf_iff_prefix]
        exact ⟨r, rfl⟩
      rw [if_pos hp]
      rfl
  | num n => exact hv.elim

/-- One rendered member parses back as itself, exposing the delimiter that
follows it. -/
theorem parseMember_chunk (k : T) (hkq : '"' ∉ k) (v : JVal)
    (hv : match v with
          | JVal.str s => ∀ c ∈ s, isValChar c = true
          | JVal.bool _ => True
          | JVal.num _ => False)
    (c3 : Char) (hc3 : isJWS c3 = false) (r6 : T) :
    parseMember ('"' :: (k ++ '"' :: ':' :: (renderJVal v ++ c3 :: r6))) =
      some ((k, v), c3, r6) := by
  rw [parseMember, if_pos rfl]
  rw [parseJString_append k _ hkq]
  rw [pmVal1]
  rw [skipJWS_cons ':' _ (by decide)]
  rw [pmVal2, if_pos rfl]
  have hskip : skipJWS (renderJVal v ++ c3 :: r6) = renderJVal v ++ c3 :: r6 := by
    cases v with
    | str s => exact skipJWS_cons '"' _ (by decide)
    | bool b =>
      cases b
      · exact skipJWS_cons 'f' _ (by decide)
      · exact skipJWS_cons 't' _ (by decide)
    | num n => exact hv.elim
  rw [hskip]
  rw [parseJValue_render v hv (c3 :: r6)]
  rw [pmVal3]
  rw [skipJWS_cons c3 r6 hc3]
  rw [pmVal4]

/-- A member list closed by `}` is consumed whole. -/
theorem parseMembersAux_last (fuel : Nat) (s : T) (kv : T × JVal) (r6 : T)
    (h : parseMember (skipJWS s) = some (kv, '}', r6)) :
    parseMembersAux (fuel + 1) s = some ([kv], r6) := by
  rw [parseMembersAux, h]
  rfl

/-- A member followed by `,` is consed onto the remaining members. -/
theorem parseMembersAux_more (fuel : Nat) (s : T) (kv : T × JVal) (r6 : T)
    (h : parseMember (skipJWS s) = some (kv, ',', r6)) :
    parseMembersAux (fuel + 1) s =
      (parseMembersAux fuel r6).map (fun p => (kv :: p.1, p.2)) := by
  rw [parseMembersAux, h]
  rfl

/-- The rendered member text is at least as long as the member list. -/
theorem length_fieldsTextJ : ∀ obj : Obj, obj.length ≤ (fieldsTextJ obj).length := by
  intro obj
  induction obj with
  | nil => simp [fieldsTextJ]
  | cons f rest ih =>
    cases rest with
    | nil =>
      show ([f] : Obj).length ≤ ('"' :: f.1 ++ '"' :: ':' :: renderJVal f.2).length
      simp only [List.length_cons, List.length_append, List.length_nil]
      omega
    | cons f2 rest2 =>
      show ((f :: f2 :: rest2 : Obj)).length ≤
        (('"' :: f.1 ++ '"' :: ':' :: renderJVal f.2) ++ ',' :: fieldsTextJ (f2 :: rest2)).length
      simp only [List.length_cons, List.length_append, List.length_nil] at ih ⊢
      omega

/-- The member parser reads back a nonempty rendered member list exactly,
consuming the closing brace. -/
theorem parseMembersAux_render (obj : Obj) :
    ∀ fuel : Nat, obj ≠ [] → obj.length ≤ fuel → (∀ f ∈ obj, roundJField f) →
    parseMembersAux fuel (fieldsTextJ obj ++ ['}']) = some (obj, []) := by
  induction obj with
  | nil =>
    intro fuel hne _ _
    exact absurd rfl hne
  | cons f rest ih =>
    intro fuel hne hlen hobj
    cases fuel with
    | zero => simp at hlen
    | succ n =>
      have hkq : '"' ∉ f.1 := not_mem_of_all (hobj f (by simp)).1.2 (by decide)
      have hvm := roundJField_val f (hobj f (by simp))
      cases rest with
      | nil =>
        have htext : fieldsTextJ [f] ++ ['}'] =
            '"' :: (f.1 ++ '"' :: ':' :: (renderJVal f.2 ++ '}' :: [])) := by
          simp [fieldsTextJ]
        rw [htext]
        have hm : parseMember (skipJWS
            ('"' :: (f.1 ++ '"' :: ':' :: (renderJVal f.2 ++ '}' :: [])))) =
            some ((f.1, f.2), '}', []) := by
          rw [skipJWS_cons _ _ (by decide)]
          exact parseMember_chunk f.1 hkq f.2 hvm '}' (by decide) []
        rw [parseMembersAux_last n _ _ _ hm]
      | cons f2 rest2 =>
        have htext : fieldsTextJ (f :: f2 :: rest2) ++ ['}'] =
            '"' :: (f.1 ++ '"' :: ':' :: (renderJVal f.2 ++ ',' ::
              (fieldsTextJ (f2 :: rest2) ++ ['}']))) := by
          simp [fieldsTextJ]
        rw [htext]
        have hm : parseMember (skipJWS
            ('"' :: (f.1 ++ '"' :: ':' :: (renderJVal f.2 ++ ',' ::
              (fieldsTextJ (f2 :: rest2) ++ ['}']))))) =
            some ((f.1, f.2), ',', fieldsTextJ (f2 :: rest2) ++ ['}']) := by
          rw [skipJWS_cons _ _ (by decide)]
          exact parseMember_chunk f.1 hkq f.2 hvm ',' (by decide) _
        rw [parseMembersAux_more n _ _ _ hm]
        have hlen2 : (f2 :: rest2).length ≤ n := by
          simp only [List.length_cons] at hlen ⊢
          omega
        rw [ih n (by simp) hlen2 (fun g hg => hobj g (by simp [hg]))]
        rfl

/-- `json.loads` reads a rendered well-formed object line back exactly. -/
theorem json_loads_renderJson (obj : Obj) (hobj : ∀ f ∈ obj, roundJField f) :
    json_loads (renderJson obj) = some obj := by
  cases obj with
  | nil => rfl
  | cons f rest =>
    rw [show renderJson (f :: rest) = '{' :: (fieldsTextJ (f :: rest) ++ ['}']) from by
      simp [renderJson, renderObj]]
    rw [json_loads]
    rw [skipJWS_cons '{' _ (by decide)]
    rw [loadsStart, if_pos rfl]
    obtain ⟨y, hy⟩ : ∃ y, fieldsTextJ (f :: rest) = '"' :: y := by
      cases rest
      · exact ⟨_, rfl⟩
      · exact ⟨_, rfl⟩
    rw [hy]
    rw [show (('"' :: y : T)) ++ ['}'] = '"' :: (y ++ ['}']) from rfl]
    rw [skipJWS_cons '"' _ (by decide)]
    rw [loadsTail, if_neg (by decide)]
    rw [show ('"' :: (y ++ ['}']) : T) = fieldsTextJ (f :: rest) ++ ['}'] from by
      rw [hy]
      rfl]
    rw [loadsMembers]
    have hfuel : (f :: rest).length ≤
        ('{' :: (fieldsTextJ (f :: rest) ++ ['}'])).length + 1 := by
      have := length_fieldsTextJ (f :: rest)
      simp only [List.length_cons, List.length_append]
      simp only [List.length_cons] at this
      omega
    rw [parseMembersAux_render (f :: rest) _ (by simp) hfuel hobj]
    rfl

/-- Decimal digits are value characters. -/
theorem digit_isValChar (c : Char) (h : c.isDigit = true) : isValChar c = true := by
  have ha : c.isAlphanum = true := by
    unfold Char.isAlphanum
    rw [h]
    simp
  unfold isValChar isWordChar
  rw [ha]
  simp

/-- Reading a well-formed dialect line's fields as JSON yields parse-back
well-formed members. -/
theorem mapped_roundJField (fields : List (T × DVal))
    (hwf : ∀ f ∈ fields, wfField f) :
    ∀ g ∈ fields.map (fun f => (f.1, interpDVal f.2)), roundJField g := by
  intro g hg
  rcases List.mem_map.mp hg with ⟨f, hf, rfl⟩
  have hk := (hwf f hf).1
  have hv := wfField_val f (hwf f hf)
  constructor
  · exact ⟨hk.1, hk.2.1⟩
  · rcases hv2 : f.2 with s | ds | b
    · rw [hv2] at hv
      exact hv
    · rw [hv2] at hv
      intro c hc
      exact digit_isValChar c (hv.2 c hc)
    · trivial

/-- The character repertoire of a rendered JSON object line. -/
theorem renderJson_chars (obj : Obj) (hobj : ∀ g ∈ obj, roundJField g) :
    ∀ a ∈ renderJson obj,
      a = '{' ∨ a = '}' ∨ a = '"' ∨ a = ':' ∨ a = ',' ∨ isValChar a = true := by
  have hchars := fieldsTextJ_chars obj hobj
  intro a ha
  have ha2 : a ∈ '{' :: (fieldsTextJ obj ++ ['}']) := ha
  rcases List.mem_cons.mp ha2 with h | h
  · exact Or.inl h
  · rcases List.mem_append.mp h with h2 | h2
    · rcases hchars a h2 with h3 | h3 | h3 | h3
      · exact Or.inr (Or.inr (Or.inl h3))
      · exact Or.inr (Or.inr (Or.inr (Or.inl h3)))
      · exact Or.inr (Or.inr (Or.inr (Or.inr (Or.inl h3))))
      · exact Or.inr (Or.inr (Or.inr (Or.inr (Or.inr h3))))
    · exact Or.inr (Or.inl (by simpa using h2))

/-- The cleanup tail of the Normalizer (`'},'` and `' {'` rewrites, `strip`,
`split`) leaves a rendered JSON object line untouched, as one line. -/
theorem fix_json_tail_renderJson (obj : Obj) (hobj : ∀ g ∈ obj, roundJField g) :
    (pyStrip (replaceSub [' ', '{'] ['{'] (replaceSub ['}', ','] ['}']
      (renderJson obj)))).splitOn '\n' = [renderJson obj] := by
  have hchars := fieldsTextJ_chars obj hobj
  have hbr : '}' ∉ fieldsTextJ obj := by
    intro hm
    rcases hchars '}' hm with h | h | h | h <;> exact absurd h (by decide)
  have hsp : ' ' ∉ renderJson obj := by
    intro hm
    rcases renderJson_chars obj hobj ' ' hm with h | h | h | h | h | h <;>
      exact absurd h (by decide)
  have hnl : '\n' ∉ renderJson obj := by
    intro hm
    rcases renderJson_chars obj hobj '\n' hm with h | h | h | h | h | h <;>
      exact absurd h (by decide)
  rw [show replaceSub ['}', ','] ['}'] (renderJson obj) = renderJson obj from
    replaceSub_of_not_infix _ _ _ (not_infix_brace_comma (fieldsTextJ obj) hbr)]
  rw [show replaceSub [' ', '{'] ['{'] (renderJson obj) = renderJson obj from
    replaceSub_of_headNotMem _ _ hsp]
  rw [show pyStrip (renderJson obj) = renderJson obj from pyStrip_obj (fieldsTextJ obj)]
  exact splitOn_no_sep '\n' (renderJson obj) hnl

set_option maxHeartbeats 1000000 in
/-- The seven-stage Normalizer maps a well-formed rendered dialect line to the
single corresponding JSON line. -/
theorem fix_json_renderD (fields : List (T × DVal))
    (hwf : ∀ f ∈ fields, wfField f) :
    fix_json (renderD fields) =
      [renderJson (fields.map (fun f => (f.1, interpDVal f.2)))] := by
  show (pyStrip (replaceSub [' ', '{'] ['{'] (replaceSub ['}', ','] ['}']
      (replaceSub ['\''] ['"'] (quoteDigits (replaceSub ("False".toList) ("false".toList)
        (replaceSub ("True".toList) ("true".toList)
          (quoteKeys (renderD fields))))))))).splitOn '\n' =
    [renderJson (fields.map (fun f => (f.1, interpDVal f.2)))]
  rw [quoteKeys_renderD fields hwf]
  rw [truePass_renderD1 fields hwf]
  rw [falsePass_renderD1t fields hwf]
  rw [quoteDigits_renderD2 fields hwf]
  rw [replaceSub_quote]
  rw [mapSwap_renderD3 fields hwf]
  have h := fix_json_tail_renderJson (fields.map (fun f => (f.1, interpDVal f.2)))
    (mapped_roundJField fields hwf)
  convert h using 2

/-- Claim C3 (amended): on a well-formed space-free dialect line the
Normalizer's output parses as JSON with every digit-run value read back as a
JSON string (the digit-quoting pass wraps it in quotes before the
quote-style conversion), never as a number. -/
theorem C3_digit_fields_as_strings (fields : List (T × DVal))
    (hwf : ∀ f ∈ fields, wfField f) :
    (fix_json (renderD fields)).map json_loads =
      [some (fields.map (fun f => (f.1, interpDVal f.2)))] ∧
    ∀ f ∈ fields, ∀ ds : T, f.2 = DVal.num ds →
      (f.1, JVal.str ds) ∈ fields.map (fun g => (g.1, interpDVal g.2)) := by
  constructor
  · rw [fix_json_renderD fields hwf]
    simp only [List.map_cons, List.map_nil]
    rw [json_loads_renderJson _ (mapped_roundJField fields hwf)]
  · intro f hf ds hds
    have hmem : (f.1, interpDVal f.2) ∈ fields.map (fun g => (g.1, interpDVal g.2)) :=
      List.mem_map_of_mem (fun g => (g.1, interpDVal g.2)) hf
    rw [hds] at hmem
    exact hmem

/-- Witness: the spec's own example field, `\x7bport: 8080\x7d`, normalises to
`\x7b"port":"8080"\x7d` whose parse holds the string `"8080"`. -/
theorem C3_witness :
    (∀ f ∈ ([("port".toList, DVal.num "8080".toList)] : List (T × DVal)), wfField f) ∧
    ((fix_json (renderD [("port".toList, DVal.num "8080".toList)])).map json_loads =
        [some ([("port".toList, DVal.num "8080".toList)].map
          (fun f => (f.1, interpDVal f.2)))] ∧
      ∀ f ∈ ([("port".toList, DVal.num "8080".toList)] : List (T × DVal)),
        ∀ ds : T, f.2 = DVal.num ds →
          (f.1, JVal.str ds) ∈ [("port".toList, DVal.num "8080".toList)].map
            (fun g => (g.1, interpDVal g.2))) :=
  ⟨by decide, C3_digit_fields_as_strings _ (by decide)⟩

/-- The key-quoting scanner crosses one rendered JSON member unchanged: the
key's word run is followed by `"`, not `:`, so the lookahead never fires. -/
theorem qkGo_jmember (k : T) (hk : ∀ c ∈ k, isWordChar c = true) (v : JVal)
    (hv : match v with
          | JVal.str s => ∀ c ∈ s, isValChar c = true
          | JVal.bool _ => True
          | JVal.num _ => False)
    (d : Char) (hdw : isWordChar d = false) (hdc : d ≠ ':') (r : T) :
    qkGo true [] ('"' :: (k ++ '"' :: ':' :: (renderJVal v ++ d :: r))) =
      '"' :: (k ++ '"' :: ':' :: (renderJVal v ++ d :: qkGo (d != '\'') [] r)) := by
  have hkc : ':' ∉ k := not_mem_of_all hk (by decide)
  have hvc : ':' ∉ renderJVal v := by
    intro hm
    rcases renderJVal_chars v hv ':' hm with h | h <;> exact absurd h (by decide)
  rw [show ('"' :: (k ++ '"' :: ':' :: (renderJVal v ++ d :: r)) : T) =
    [] ++ '"' :: (k ++ '"' :: ':' :: (renderJVal v ++ d :: r)) from rfl]
  rw [qkGo_no_colon [] (by simp) '"' (by decide) (by decide) _ true []]
  rw [show (('"' : Char) != '\'') = true from by decide]
  rw [qkGo_no_colon k hkc '"' (by decide) (by decide) _ true []]
  rw [show (('"' : Char) != '\'') = true from by decide]
  rw [qkGo_colon_nil true _]
  rw [qkGo_no_colon (renderJVal v) hvc d hdw hdc r true []]
  simp

/-- The key-quoting pass leaves a rendered JSON object line unchanged: every
key is already wrapped in double quotes, so no word run is followed by a
colon. -/
theorem quoteKeys_renderJson (obj : Obj) (hobj : ∀ f ∈ obj, roundJField f) :
    quoteKeys (renderJson obj) = renderJson obj := by
  have main : ∀ os : Obj, (∀ f ∈ os, roundJField f) →
      qkGo true [] (fieldsTextJ os ++ ['}']) = fieldsTextJ os ++ ['}'] := by
    intro os
    induction os with
    | nil => intro _; rfl
    | cons f rest ih =>
      intro hobj2
      have hk := (hobj2 f (by simp)).1.2
      have hvm := roundJField_val f (hobj2 f (by simp))
      cases rest with
      | nil =>
        rw [show fieldsTextJ [f] ++ ['}'] =
          '"' :: (f.1 ++ '"' :: ':' :: (renderJVal f.2 ++ '}' :: [])) from by
            simp [fieldsTextJ]]
        rw [qkGo_jmember f.1 hk f.2 hvm '}' (by decide) (by decide) []]
        rfl
      | cons f2 rest2 =>
        rw [show fieldsTextJ (f :: f2 :: rest2) ++ ['}'] =
          '"' :: (f.1 ++ '"' :: ':' :: (renderJVal f.2 ++ ',' ::
            (fieldsTextJ (f2 :: rest2) ++ ['}']))) from by simp [fieldsTextJ]]
        rw [qkGo_jmember f.1 hk f.2 hvm ',' (by decide) (by decide) _]
        rw [show ((',' : Char) != '\'') = true from by decide]
        rw [ih (fun g hg => hobj2 g (by simp [hg]))]
  unfold quoteKeys renderJson renderObj
  rw [show ('{' :: fieldsTextJ obj ++ ['}'] : T) =
    [] ++ '{' :: (fieldsTextJ obj ++ ['}']) from rfl]
  rw [qkGo_no_colon [] (by simp) '{' (by decide) (by decide) _ true []]
  rw [show (('{' : Char) != '\'') = true from by decide]
  rw [main obj hobj]
  simp

/-- An all-word pattern absent from a wrapped chunk's body leaves the whole
wrapped chunk fixed, for any non-word wrapper character. -/
theorem replaceSub_wrapped_chunk (p : Char) (pt rep : T)
    (hw : ∀ c ∈ p :: pt, isWordChar c = true) (q : Char)
    (hq : isWordChar q = false) (s : T) (hfree : ¬ ((p :: pt) <:+: s)) :
    replaceSub (p :: pt) rep (q :: s ++ [q]) = q :: s ++ [q] := by
  have hpat : (p :: pt) ≠ [] := by simp
  have hsplit := replaceSub_split (p :: pt) rep hpat hw
  rw [show (q :: s ++ [q] : T) = [] ++ q :: (s ++ q :: []) by simp]
  rw [hsplit q hq, hsplit q hq]
  rw [ replaceSub_of_not_infix _ _ _ hfree]
  have hnil : replaceSub (p :: pt) rep ([] : T) = [] := rfl
  simp [hnil]

/-- An all-word pattern free of every key and rendered value fixes the whole
rendered member text. -/
theorem replaceSub_fieldsTextJ (p : Char) (pt rep : T)
    (hw : ∀ c ∈ p :: pt, isWordChar c = true) :
    ∀ os : Obj,
      (∀ f ∈ os, replaceSub (p :: pt) rep (renderJVal f.2) = renderJVal f.2) →
      (∀ f ∈ os, ¬ ((p :: pt) <:+: f.1)) →
      replaceSub (p :: pt) rep (fieldsTextJ os ++ ['}']) = fieldsTextJ os ++ ['}'] := by
  have hpat : (p :: pt) ≠ [] := by simp
  have hsplit := replaceSub_split (p :: pt) rep hpat hw
  intro os
  induction os with
  | nil =>
    intro _ _
    simp only [fieldsTextJ, List.nil_append]
    apply replaceSub_of_not_infix
    intro hinf
    have hp : p ∈ (['}'] : T) := infix_head_mem hinf
    have hpe : p = '}' := by simpa using hp
    subst hpe
    exact absurd (hw '}' (by simp)) (by decide)
  | cons f rest ih =>
    intro hv hkf
    have hkid : replaceSub (p :: pt) rep f.1 = f.1 :=
      replaceSub_of_not_infix _ _ _ (hkf f (by simp))
    have hvf : replaceSub (p :: pt) rep (renderJVal f.2) = renderJVal f.2 := hv f (by simp)
    have hnil : replaceSub (p :: pt) rep ([] : T) = [] := rfl
    cases rest with
    | nil =>
      simp only [fieldsTextJ]
      rw [show ('"' :: f.1 ++ '"' :: ':' :: renderJVal f.2) ++ ['}'] =
        [] ++ '"' :: (f.1 ++ '"' :: (([] ++ ':' :: (renderJVal f.2 ++ '}' :: [])))) by simp]
      rw [hsplit '"' (by decide), hsplit '"' (by decide), hsplit ':' (by decide),
        hsplit '}' (by decide)]
      rw [hkid, hvf]
      simp [hnil]
    | cons f2 rest2 =>
      simp only [fieldsTextJ]
      rw [show (('"' :: f.1 ++ '"' :: ':' :: renderJVal f.2) ++
          ',' :: fieldsTextJ (f2 :: rest2)) ++ ['}'] =
        [] ++ '"' :: (f.1 ++ '"' :: ([] ++ ':' :: (renderJVal f.2 ++
          ',' :: (fieldsTextJ (f2 :: rest2) ++ ['}'])))) by simp]
      rw [hsplit '"' (by decide), hsplit '"' (by decide), hsplit ':' (by decide),
        hsplit ',' (by decide)]
      rw [hkid, hvf]
      rw [ih (fun g hg => hv g (by simp [hg])) (fun g hg => hkf g (by simp [hg]))]
      simp [hnil, fieldsTextJ]

/-- The rendered values of a `True`-free well-formed JSON line are fixed by
the `True` rewrite. -/
theorem trueFree_values (obj : Obj) (hobj : ∀ f ∈ obj, wfJField f) :
    ∀ f ∈ obj, replaceSub ('T' :: "rue".toList) ("true".toList) (renderJVal f.2) =
      renderJVal f.2 := by
  intro f hf
  have hr := roundJField_val f ((hobj f hf).1)
  have hTF := (hobj f hf).2.2.2
  rcases hv2 : f.2 with s | b | n
  · rw [hv2] at hr hTF
    exact replaceSub_wrapped_chunk 'T' _ _ (by decide) '"' (by decide) s hTF.1
  · cases b
    · exact replaceSub_of_not_infix _ _ _ (by decide)
    · exact replaceSub_of_not_infix _ _ _ (by decide)
  · rw [hv2] at hr
    exact hr.elim

/-- The rendered values of a `False`-free well-formed JSON line are fixed by
the `False` rewrite. -/
theorem falseFree_values (obj : Obj) (hobj : ∀ f ∈ obj, wfJField f) :
    ∀ f ∈ obj, replaceSub ('F' :: "alse".toList) ("false".toList) (renderJVal f.2) =
      renderJVal f.2 := by
  intro f hf
  have hr := roundJField_val f ((hobj f hf).1)
  have hTF := (hobj f hf).2.2.2
  rcases hv2 : f.2 with s | b | n
  · rw [hv2] at hr hTF
    exact replaceSub_wrapped_chunk 'F' _ _ (by decide) '"' (by decide) s hTF.2
  · cases b
    · exact replaceSub_of_not_infix _ _ _ (by decide)
    · exact replaceSub_of_not_infix _ _ _ (by decide)
  · rw [hv2] at hr
    exact hr.elim

/-- The `True` rewrite leaves a `True`-free rendered JSON line unchanged. -/
theorem truePass_renderJson (obj : Obj) (hobj : ∀ f ∈ obj, wfJField f) :
    replaceSub ("True".toList) ("true".toList) (renderJson obj) = renderJson obj := by
  unfold renderJson renderObj
  have hw : ∀ c ∈ ('T' :: "rue".toList), isWordChar c = true := by decide
  rw [show "True".toList = 'T' :: "rue".toList from rfl]
  rw [show ('{' :: fieldsTextJ obj ++ ['}'] : T) =
    [] ++ '{' :: (fieldsTextJ obj ++ ['}']) from rfl]
  rw [replaceSub_split _ _ (by simp) hw '{' (by decide)]
  rw [replaceSub_fieldsTextJ 'T' ("rue".toList) ("true".toList) hw obj
    (trueFree_values obj hobj) (fun f hf => (hobj f hf).2.1)]
  rfl

/-- The `False` rewrite leaves a `False`-free rendered JSON line unchanged. -/
theorem falsePass_renderJson (obj : Obj) (hobj : ∀ f ∈ obj, wfJField f) :
    replaceSub ("False".toList) ("false".toList) (renderJson obj) = renderJson obj := by
  unfold renderJson renderObj
  have hw : ∀ c ∈ ('F' :: "alse".toList), isWordChar c = true := by decide
  rw [show "False".toList = 'F' :: "alse".toList from rfl]
  rw [show ('{' :: fieldsTextJ obj ++ ['}'] : T) =
    [] ++ '{' :: (fieldsTextJ obj ++ ['}']) from rfl]
  rw [replaceSub_split _ _ (by simp) hw '{' (by decide)]
  rw [replaceSub_fieldsTextJ 'F' ("alse".toList) ("false".toList) hw obj
    (falseFree_values obj hobj) (fun f hf => (hobj f hf).2.2.1)]
  rfl

/-- The digit scanner crosses one rendered JSON member unchanged: every
character right after a colon is a quote or a letter, never a digit. -/
theorem qdGo_jchunk (k : T) (hk : ':' ∉ k) (v : JVal)
    (hv : match v with
          | JVal.str s => ∀ c ∈ s, isValChar c = true
          | JVal.bool _ => True
          | JVal.num _ => False)
    (d : Char) (hd : d.isDigit = false) (hdc : d ≠ ':') (r : T) :
    qdGo (some false) (('"' :: k ++ '"' :: ':' :: renderJVal v) ++ d :: r) =
      ('"' :: k ++ '"' :: ':' :: renderJVal v) ++ d :: qdGo (some false) r := by
  have hpre : ':' ∉ '"' :: k ++ ['"'] := by
    intro h
    rcases List.mem_cons.mp h with h1 | h1
    · exact absurd h1 (by decide)
    · rcases List.mem_append.mp h1 with h2 | h2
      · exact hk h2
      · simp at h2
  rw [show ('"' :: k ++ '"' :: ':' :: renderJVal v) ++ d :: r =
    ('"' :: k ++ ['"']) ++ (':' :: (renderJVal v ++ d :: r)) by simp]
  rw [qdGo_no_colon _ hpre]
  rw [qdGo_step ':' (by decide)]
  rw [show ((':' : Char) == ':') = true from rfl]
  have hval : qdGo (some true) (renderJVal v ++ d :: r) =
      renderJVal v ++ d :: qdGo (some false) r := by
    have hdq : (d == ':') = false := by simpa using hdc
    cases v with
    | str s =>
      have hcs : ':' ∉ s := not_mem_of_all hv (by decide)
      have hcs2 : ':' ∉ s ++ ['"'] := by
        intro h
        rcases List.mem_append.mp h with h1 | h1
        · exact hcs h1
        · simp at h1
      rw [show renderJVal (JVal.str s) ++ d :: r = '"' :: (s ++ ['"']) ++ (d :: r) by
        simp [renderJVal]]
      rw [qdGo_true_chunk '"' (s ++ ['"']) (by decide) (by decide) hcs2 (d :: r)]
      rw [qdGo_step d hd, hdq]
      simp [renderJVal]
    | bool b =>
      cases b
      · show qdGo (some true) (('f' :: "alse".toList) ++ d :: r) = _
        rw [qdGo_true_chunk 'f' ("alse".toList) (by decide) (by decide) (by decide) (d :: r)]
        rw [qdGo_step d hd, hdq]
        rfl
      · show qdGo (some true) (('t' :: "rue".toList) ++ d :: r) = _
        rw [qdGo_true_chunk 't' ("rue".toList) (by decide) (by decide) (by decide) (d :: r)]
        rw [qdGo_step d hd, hdq]
        rfl
    | num n => exact hv.elim
  rw [hval]
  simp

/-- Digit quoting leaves a rendered JSON line unchanged. -/
theorem quoteDigits_renderJson (obj : Obj) (hobj : ∀ f ∈ obj, roundJField f) :
    quoteDigits (renderJson obj) = renderJson obj := by
  have main : ∀ os : Obj, (∀ f ∈ os, roundJField f) →
      qdGo (some false) (fieldsTextJ os ++ ['}']) = fieldsTextJ os ++ ['}'] := by
    intro os
    induction os with
    | nil => intro _; rfl
    | cons f rest ih =>
      intro hobj2
      have hk : ':' ∉ f.1 := not_mem_of_all (hobj2 f (by simp)).1.2 (by decide)
      have hvm := roundJField_val f (hobj2 f (by simp))
      cases rest with
      | nil =>
        simp only [fieldsTextJ]
        rw [qdGo_jchunk f.1 hk f.2 hvm '}' (by decide) (by decide) []]
        rfl
      | cons f2 rest2 =>
        simp only [fieldsTextJ]
        rw [show (('"' :: f.1 ++ '"' :: ':' :: renderJVal f.2) ++
            ',' :: fieldsTextJ (f2 :: rest2)) ++ ['}'] =
          ('"' :: f.1 ++ '"' :: ':' :: renderJVal f.2) ++
            ',' :: (fieldsTextJ (f2 :: rest2) ++ ['}']) by simp]
        rw [qdGo_jchunk f.1 hk f.2 hvm ',' (by decide) (by decide) _]
        rw [ih (fun g hg => hobj2 g (by simp [hg]))]
  unfold quoteDigits renderJson renderObj
  rw [List.cons_append]
  rw [show qdGo (some false) ('{' :: (fieldsTextJ obj ++ ['}'])) =
    '{' :: qdGo (some false) (fieldsTextJ obj ++ ['}']) from by
      rw [qdGo_step '{' (by decide)]
      rfl]
  rw [main obj hobj]

set_option maxHeartbeats 1000000 in
/-- The whole Normalizer is the identity (as a one-line output) on rendered
well-formed JSON object lines. -/
theorem fix_json_renderJson (obj : Obj) (hobj : ∀ f ∈ obj, wfJField f) :
    fix_json (renderJson obj) = [renderJson obj] := by
  have hr : ∀ f ∈ obj, roundJField f := fun f hf => (hobj f hf).1
  have hnq : '\'' ∉ renderJson obj := by
    intro hm
    rcases renderJson_chars obj hr '\'' hm with h | h | h | h | h | h <;>
      exact absurd h (by decide)
  show (pyStrip (replaceSub [' ', '{'] ['{'] (replaceSub ['}', ','] ['}']
      (replaceSub ['\''] ['"'] (quoteDigits (replaceSub ("False".toList) ("false".toList)
        (replaceSub ("True".toList) ("true".toList)
          (quoteKeys (renderJson obj))))))))).splitOn '\n' = [renderJson obj]
  rw [quoteKeys_renderJson obj hr]
  rw [truePass_renderJson obj hobj]
  rw [falsePass_renderJson obj hobj]
  rw [quoteDigits_renderJson obj hr]
  rw [replaceSub_quote]
  rw [map_swapQuote_id _ hnq]
  have h := fix_json_tail_renderJson obj hr
  convert h using 2

/-- Claim C2 (amended): the Normalizer is idempotent on well-formed rendered
single-line JSON objects (word-character keys, quote-free string or boolean
values, no `True`/`False` occurrences): the text passes through unchanged as
one line, so parsing the normalised output equals parsing the original. -/
theorem C2_idempotent_on_wf_json (obj : Obj) (hobj : ∀ f ∈ obj, wfJField f) :
    (fix_json (renderJson obj)).map json_loads = [json_loads (renderJson obj)] ∧
    fix_json (renderJson obj) = [renderJson obj] ∧
    json_loads (renderJson obj) = some obj := by
  have h1 := fix_json_renderJson obj hobj
  have h2 := json_loads_renderJson obj (fun f hf => (hobj f hf).1)
  refine ⟨?_, h1, h2⟩
  rw [h1]
  rfl

/-- Witness: the one-member object `\x7b"a":"b"\x7d` normalises to itself and
parses back to itself. -/
theorem C2_witness :
    (∀ f ∈ ([("a".toList, JVal.str "b".toList)] : Obj), wfJField f) ∧
    ((fix_json (renderJson [("a".toList, JVal.str "b".toList)])).map json_loads =
        [json_loads (renderJson [("a".toList, JVal.str "b".toList)])] ∧
      fix_json (renderJson [("a".toList, JVal.str "b".toList)]) =
        [renderJson [("a".toList, JVal.str "b".toList)]] ∧
      json_loads (renderJson [("a".toList, JVal.str "b".toList)]) =
        some [("a".toList, JVal.str "b".toList)]) :=
  ⟨by decide, C2_idempotent_on_wf_json _ (by decide)⟩

/-- The marker-stripping scan is fuel-stable once the fuel covers the
input. -/
theorem cleanF_stable : ∀ f₁ : Nat, ∀ s : T, ∀ f₂ : Nat, s.length ≤ f₁ → s.length ≤ f₂ →
    cleanF f₁ s = cleanF f₂ s := by
  intro f₁
  induction f₁ with
  | zero =>
    intro s f₂ h1 _
    have hs : s = [] := List.eq_nil_of_length_eq_zero (Nat.le_zero.mp h1)
    subst hs
    cases f₂ <;> rfl
  | succ a ih =>
    intro s f₂ h1 h2
    cases s with
    | nil => cases f₂ <;> rfl
    | cons c cs =>
      cases f₂ with
      | zero => simp at h2
      | succ b =>
        have hlen1 : cs.length ≤ a := by simp only [List.length_cons] at h1; omega
        have hlen2 : cs.length ≤ b := by simp only [List.length_cons] at h2; omega
        have hd7 : ((c :: cs).drop 7).length ≤ a := by
          simp only [List.length_drop, List.length_cons]
          omega
        have hd7b : ((c :: cs).drop 7).length ≤ b := by
          simp only [List.length_drop, List.length_cons]
          omega
        have hd6 : ((c :: cs).drop 6).length ≤ a := by
          simp only [List.length_drop, List.length_cons]
          omega
        have hd6b : ((c :: cs).drop 6).length ≤ b := by
          simp only [List.length_drop, List.length_cons]
          omega
        rw [cleanF, cleanF]
        by_cases hq : c = '"'
        · rw [if_pos hq, if_pos hq]
          exact ih cs b hlen1 hlen2
        · rw [if_neg hq, if_neg hq]
          by_cases hp : c = ')'
          · rw [if_pos hp, if_pos hp]
            exact ih cs b hlen1 hlen2
          · rw [if_neg hp, if_neg hp]
            by_cases hr : ("RECORD=".toList).isPrefixOf (c :: cs) = true
            · rw [if_pos hr, if_pos hr]
              exact ih _ b hd7 hd7b
            · rw [if_neg hr, if_neg hr]
              by_cases ha : ("ALIAS=".toList).isPrefixOf (c :: cs) = true
              · rw [if_pos ha, if_pos ha]
                exact ih _ b hd6 hd6b
              · rw [if_neg ha, if_neg ha]
                rw [ih cs b hlen1 hlen2]

/-- A leading `"` is removed. -/
theorem cleanClause_quote (cs : T) : cleanClause ('"' :: cs) = cleanClause cs := by
  show cleanF (cs.length + 1) ('"' :: cs) = cleanF cs.length cs
  rw [cleanF, if_pos rfl]

/-- A leading `)` is removed. -/
theorem cleanClause_paren (cs : T) : cleanClause (')' :: cs) = cleanClause cs := by
  show cleanF (cs.length + 1) (')' :: cs) = cleanF cs.length cs
  rw [cleanF, if_neg (by decide), if_pos rfl]

/-- A leading `RECORD=` marker is removed. -/
theorem cleanClause_record (cs : T) :
    cleanClause ('R' :: 'E' :: 'C' :: 'O' :: 'R' :: 'D' :: '=' :: cs) = cleanClause cs := by
  show cleanF (cs.length + 6 + 1) ('R' :: 'E' :: 'C' :: 'O' :: 'R' :: 'D' :: '=' :: cs) =
    cleanF cs.length cs
  rw [cleanF, if_neg (by decide), if_neg (by decide),
    if_pos (show ("RECORD=".toList).isPrefixOf
        ('R' :: 'E' :: 'C' :: 'O' :: 'R' :: 'D' :: '=' :: cs) = true from
      List.isPrefixOf_iff_prefix.mpr ⟨cs, rfl⟩)]
  exact cleanF_stable (cs.length + 6) _ cs.length
    (by simp only [List.length_drop, List.length_cons]; omega)
    (by simp only [List.length_drop, List.length_cons]; omega)

/-- A leading `ALIAS=` marker is removed. -/
theorem cleanClause_aliasm (cs : T) :
    cleanClause ('A' :: 'L' :: 'I' :: 'A' :: 'S' :: '=' :: cs) = cleanClause cs := by
  show cleanF (cs.length + 5 + 1) ('A' :: 'L' :: 'I' :: 'A' :: 'S' :: '=' :: cs) =
    cleanF cs.length cs
  rw [cleanF, if_neg (by decide), if_neg (by decide),
    if_neg (neg_of_eq_false (show ("RECORD=".toList).isPrefixOf
      ('A' :: 'L' :: 'I' :: 'A' :: 'S' :: '=' :: cs) = false from rfl)),
    if_pos (show ("ALIAS=".toList).isPrefixOf
        ('A' :: 'L' :: 'I' :: 'A' :: 'S' :: '=' :: cs) = true from
      List.isPrefixOf_iff_prefix.mpr ⟨cs, rfl⟩)]
  exact cleanF_stable (cs.length + 5) _ cs.length
    (by simp only [List.length_drop, List.length_cons]; omega)
    (by simp only [List.length_drop, List.length_cons]; omega)

/-- A position where no alternative of the stripping regex matches is
emitted unchanged. -/
theorem cleanClause_cons (c : Char) (cs : T) (h1 : c ≠ '"') (h2 : c ≠ ')')
    (h3 : ¬ (("RECORD=".toList).isPrefixOf (c :: cs) = true))
    (h4 : ¬ (("ALIAS=".toList).isPrefixOf (c :: cs) = true)) :
    cleanClause (c :: cs) = c :: cleanClause cs := by
  show cleanF (cs.length + 1) (c :: cs) = c :: cleanF cs.length cs
  rw [cleanF, if_neg h1, if_neg h2, if_neg h3, if_neg h4]

/-- A token that ends in `=` cannot start inside `=`-free text followed by a
comma, a quote or nothing. -/
theorem not_prefix_eqtoken : ∀ (v : T) (pat r : T), ',' ∉ pat → '"' ∉ pat →
    pat.getLast? = some '=' → '=' ∉ v →
    (r = [] ∨ (∃ r2, r = ',' :: r2) ∨ (∃ r2, r = '"' :: r2)) →
    ¬ pat <+: (v ++ r) := by
  intro v
  induction v with
  | nil =>
    intro pat r hc hq hl he hr hpre
    cases pat with
    | nil => simp at hl
    | cons p pt =>
      rcases hr with rfl | ⟨r2, rfl⟩ | ⟨r2, rfl⟩
      · rw [List.nil_append] at hpre
        have := List.prefix_nil.mp hpre
        simp at this
      · rcases hpre with ⟨t, ht⟩
        rw [List.nil_append] at ht
        have ht2 : p :: (pt ++ t) = ',' :: r2 := by simpa using ht
        injection ht2 with hh _
        exact hc (by simp [hh])
      · rcases hpre with ⟨t, ht⟩
        rw [List.nil_append] at ht
        have ht2 : p :: (pt ++ t) = '"' :: r2 := by simpa using ht
        injection ht2 with hh _
        exact hq (by simp [hh])
  | cons a v' ih =>
    intro pat r hc hq hl he hr hpre
    cases pat with
    | nil => simp at hl
    | cons p pt =>
      rcases hpre with ⟨t, ht⟩
      have ht2 : p :: (pt ++ t) = a :: (v' ++ r) := by simpa using ht
      injection ht2 with h1 h2
      cases pt with
      | nil =>
        have hp : p = '=' := by simpa using hl
        exact he (by simp [← h1, hp])
      | cons p2 pt' =>
        refine ih (p2 :: pt') r (fun hm => hc (by simp [hm])) (fun hm => hq (by simp [hm]))
          ?_ (fun hm => he (by simp [hm])) hr ⟨t, h2⟩
        simpa using hl

/-- A safe field passes through the stripping scan whenever a comma, a quote
or the end of the clause follows it. -/
theorem clean_field : ∀ v : T, clauseSafe v →
    ∀ r : T, (r = [] ∨ (∃ r2, r = ',' :: r2) ∨ (∃ r2, r = '"' :: r2)) →
    cleanClause (v ++ r) = v ++ cleanClause r := by
  intro v
  induction v with
  | nil => intro _ r _; simp
  | cons c v' ih =>
    intro hv r hr
    have hc := hv c (by simp)
    have h3 : ¬ (("RECORD=".toList).isPrefixOf (c :: (v' ++ r)) = true) := by
      intro hp
      exact not_prefix_eqtoken (c :: v') ("RECORD=".toList) r (by decide) (by decide)
        (by decide) (fun hm => (hv '=' hm).2.2.1 rfl) hr
        (List.isPrefixOf_iff_prefix.mp hp)
    have h4 : ¬ (("ALIAS=".toList).isPrefixOf (c :: (v' ++ r)) = true) := by
      intro hp
      exact not_prefix_eqtoken (c :: v') ("ALIAS=".toList) r (by decide) (by decide)
        (by decide) (fun hm => (hv '=' hm).2.2.1 rfl) hr
        (List.isPrefixOf_iff_prefix.mp hp)
    show cleanClause (c :: (v' ++ r)) = c :: (v' ++ cleanClause r)
    rw [cleanClause_cons c (v' ++ r) hc.1 hc.2.1 h3 h4]
    rw [ih (fun x hx => hv x (by simp [hx])) r hr]

/-- A comma is emitted unchanged by the stripping scan. -/
theorem cleanClause_comma (cs : T) : cleanClause (',' :: cs) = ',' :: cleanClause cs := by
  apply cleanClause_cons ',' cs (by decide) (by decide)
  · intro hp
    rcases List.isPrefixOf_iff_prefix.mp hp with ⟨t, ht⟩
    have ht2 : 'R' :: ("ECORD=".toList ++ t) = ',' :: cs := by simpa using ht
    injection ht2 with hh _
    exact absurd hh (by decide)
  · intro hp
    rcases List.isPrefixOf_iff_prefix.mp hp with ⟨t, ht⟩
    have ht2 : 'A' :: ("LIAS=".toList ++ t) = ',' :: cs := by simpa using ht
    injection ht2 with hh _
    exact absurd hh (by decide)

/-- `intercalate` over at least two chunks, one step. -/
theorem intercalate_cc (a b : T) (l : List T) :
    List.intercalate [','] (a :: b :: l) = a ++ ',' :: List.intercalate [','] (b :: l) := by
  simp [List.intercalate, List.intersperse]

/-- `intercalate` of a single chunk. -/
theorem intercalate_single (a : T) : List.intercalate [','] [a] = a := by
  simp [List.intercalate, List.intersperse]

/-- `cleanClause` on the comma-joined fields of a quoted clause: the `ALIAS=`
marker of the final field disappears, everything else survives. -/
theorem clean_inter : ∀ (mids : List T) (v1 vn : T), clauseSafe v1 →
    (∀ m ∈ mids, clauseSafe m) → clauseSafe vn →
    cleanClause (List.intercalate [','] (v1 :: mids ++ [("ALIAS=".toList) ++ vn]) ++ ['"']) =
      List.intercalate [','] (v1 :: mids ++ [vn]) := by
  intro mids
  induction mids with
  | nil =>
    intro v1 vn h1 _ h3
    rw [show (v1 :: [] ++ [("ALIAS=".toList) ++ vn]) = [v1, ("ALIAS=".toList) ++ vn] from rfl]
    rw [show (v1 :: ([] : List T) ++ [vn]) = [v1, vn] from rfl]
    rw [intercalate_cc, intercalate_single, intercalate_cc, intercalate_single]
    rw [show (v1 ++ ',' :: ("ALIAS=".toList ++ vn)) ++ ['"'] =
      v1 ++ (',' :: ("ALIAS=".toList ++ (vn ++ ['"']))) from by simp]
    rw [clean_field v1 h1 _ (Or.inr (Or.inl ⟨_, rfl⟩))]
    rw [cleanClause_comma]
    rw [show "ALIAS=".toList ++ (vn ++ ['"']) =
      'A' :: 'L' :: 'I' :: 'A' :: 'S' :: '=' :: (vn ++ ['"']) from rfl]
    rw [cleanClause_aliasm]
    rw [clean_field vn h3 _ (Or.inr (Or.inr ⟨_, rfl⟩))]
    rw [show cleanClause ['"'] = [] from rfl]
    simp
  | cons m mids' ih =>
    intro v1 vn h1 h2 h3
    rw [show (v1 :: (m :: mids') ++ [("ALIAS=".toList) ++ vn]) =
      v1 :: m :: (mids' ++ [("ALIAS=".toList) ++ vn]) from by simp]
    rw [show (v1 :: (m :: mids') ++ [vn]) = v1 :: m :: (mids' ++ [vn]) from by simp]
    rw [intercalate_cc, intercalate_cc]
    rw [show (v1 ++ ',' :: List.intercalate [','] (m :: (mids' ++ [("ALIAS=".toList) ++ vn]))) ++
        ['"'] =
      v1 ++ (',' :: (List.intercalate [','] (m :: (mids' ++ [("ALIAS=".toList) ++ vn])) ++
        ['"'])) from by simp]
    rw [clean_field v1 h1 _ (Or.inr (Or.inl ⟨_, rfl⟩))]
    rw [cleanClause_comma]
    rw [show (m :: (mids' ++ [("ALIAS=".toList) ++ vn])) =
      (m :: mids' ++ [("ALIAS=".toList) ++ vn]) from by simp]
    rw [ih m vn (h2 m (by simp)) (fun x hx => h2 x (by simp [hx])) h3]
    rw [show (m :: mids' ++ [vn]) = m :: (mids' ++ [vn]) from by simp]

/-- `splitFirst` finds the boundary occurrence when the pattern's head is
absent from the prefix. -/
theorem splitFirst_headNotMem (q : Char) (qt : T) : ∀ pre rest : T, q ∉ pre →
    splitFirst (q :: qt) (pre ++ (q :: qt) ++ rest) = some (pre, rest) := by
  intro pre
  induction pre with
  | nil =>
    intro rest _
    show splitFirst (q :: qt) (q :: (qt ++ rest)) = some ([], rest)
    rw [splitFirst]
    rw [if_pos (List.isPrefixOf_iff_prefix.mpr ⟨rest, by simp⟩)]
    rw [show (q :: (qt ++ rest)).drop (q :: qt).length = rest from by
      rw [show (q :: qt).length = qt.length + 1 from by simp]
      rw [List.drop_succ_cons]
      exact List.drop_left qt rest]
  | cons c pre' ih =>
    intro rest hq
    have hcq : c ≠ q := fun he => hq (by simp [he])
    show splitFirst (q :: qt) (c :: (pre' ++ (q :: qt) ++ rest)) = some (c :: pre', rest)
    rw [splitFirst]
    rw [if_neg ?hneg]
    · rw [ih rest (fun hm => hq (by simp [hm]))]
      rfl
    case hneg =>
      intro hp
      rcases List.isPrefixOf_iff_prefix.mp hp with ⟨t, ht⟩
      have ht2 : q :: (qt ++ t) = c :: (pre' ++ (q :: qt) ++ rest) := by simpa using ht
      injection ht2 with hh _
      exact hcq hh.symm

/-- `splitLast` on quote-free text finds nothing. -/
theorem splitLast_qnone : ∀ s : T, '"' ∉ s → splitLast ['"'] s = none := by
  intro s
  induction s with
  | nil => intro _; rfl
  | cons c cs ih =>
    intro h
    rw [splitLast]
    rw [ih (fun hm => h (by simp [hm]))]
    show (if (['"'] : T).isPrefixOf (c :: cs) = true then
        some (([] : T), (c :: cs).drop (['"'] : T).length) else none) = none
    rw [if_neg ?hc]
    case hc =>
      intro hp
      rcases List.isPrefixOf_iff_prefix.mp hp with ⟨t, ht⟩
      have ht2 : '"' :: t = c :: cs := by simpa using ht
      injection ht2 with hh _
      exact h (by rw [← hh]; exact List.mem_cons_self _ _)

/-- `splitLast` splits at the boundary quote when the tail is quote-free. -/
theorem splitLast_boundary : ∀ mid post : T, '"' ∉ post →
    splitLast ['"'] (mid ++ '"' :: post) = some (mid, post) := by
  intro mid
  induction mid with
  | nil =>
    intro post hp
    show splitLast ['"'] ('"' :: post) = some ([], post)
    rw [splitLast]
    rw [splitLast_qnone post hp]
    show (if (['"'] : T).isPrefixOf ('"' :: post) = true then
        some (([] : T), ('"' :: post).drop (['"'] : T).length) else none) = some ([], post)
    rw [if_pos (show (['"'] : T).isPrefixOf ('"' :: post) = true from
      List.isPrefixOf_iff_prefix.mpr ⟨post, rfl⟩)]
    rfl
  | cons c mid' ih =>
    intro post hp
    show splitLast ['"'] (c :: (mid' ++ '"' :: post)) = some (c :: mid', post)
    rw [splitLast]
    rw [ih post hp]

/-- The single clause of a structured command-script line. -/
theorem clausesOfLine_structured (pre mid post : T) (hpre : '"' ∉ pre)
    (hpost : '"' ∉ post) :
    clausesOfLine (pre ++ recMarkQ ++ (mid ++ '"' :: post)) =
      [recMarkQ ++ mid ++ ['"']] := by
  have e1 : splitFirst recMarkQ (pre ++ recMarkQ ++ (mid ++ '"' :: post)) =
      some (pre, mid ++ '"' :: post) := by
    rw [show recMarkQ = '"' :: "RECORD=".toList from rfl]
    exact splitFirst_headNotMem '"' ("RECORD=".toList) pre (mid ++ '"' :: post) hpre
  have e2 := splitLast_boundary mid post hpost
  simp only [clausesOfLine, e1, e2]

/-- Splitting a newline-terminated single line. -/
theorem splitOn_newline_end (L : T) (hnl : '\n' ∉ L) :
    (L ++ ['\n']).splitOn '\n' = [L, []] := by
  have hno : ∀ x ∈ L, ¬ ((x == '\n') = true) := fun x hx hbe =>
    hnl ((by simpa using hbe : x = '\n') ▸ hx)
  rw [List.splitOn]
  rw [List.splitOnP_first (fun x => x == '\n') L hno '\n' rfl []]
  rw [List.splitOnP_nil]

/-- Decomposing a structured clause strips the punctuation and markers and
pairs the first comma field with the last. -/
theorem decomposeClause_structured (v1 vn : T) (mids : List T)
    (h1 : clauseSafe v1) (h2 : ∀ m ∈ mids, clauseSafe m) (h3 : clauseSafe vn) :
    decomposeClause (recMarkQ ++
      List.intercalate [','] (v1 :: mids ++ [("ALIAS=".toList) ++ vn]) ++ ['"']) =
      (v1, vn) := by
  unfold decomposeClause
  rw [show (recMarkQ ++
      List.intercalate [','] (v1 :: mids ++ [("ALIAS=".toList) ++ vn])) ++ ['"'] =
    recMarkQ ++ (List.intercalate [','] (v1 :: mids ++ [("ALIAS=".toList) ++ vn]) ++ ['"'])
    from by simp]
  rw [show cleanClause (recMarkQ ++
      (List.intercalate [','] (v1 :: mids ++ [("ALIAS=".toList) ++ vn]) ++ ['"'])) =
    cleanClause
      (List.intercalate [','] (v1 :: mids ++ [("ALIAS=".toList) ++ vn]) ++ ['"']) from by
    show cleanClause ('"' :: ('R' :: 'E' :: 'C' :: 'O' :: 'R' :: 'D' :: '=' ::
      (List.intercalate [','] (v1 :: mids ++ [("ALIAS=".toList) ++ vn]) ++ ['"']))) = _
    rw [cleanClause_quote, cleanClause_record]]
  rw [clean_inter mids v1 vn h1 h2 h3]
  rw [List.splitOn_intercalate _ ',' ?hfree ?hne]
  · show ((v1 :: mids ++ [vn]).headD [], (v1 :: mids ++ [vn]).getLastD []) = (v1, vn)
    rw [show (v1 :: mids ++ [vn]).headD [] = v1 from rfl]
    rw [show (v1 :: mids ++ [vn]).getLastD [] = vn from by
      rw [List.getLastD_eq_getLast?]
      rw [show v1 :: mids ++ [vn] = (v1 :: mids) ++ [vn] from by simp]
      rw [List.getLast?_concat]
      rfl]
  case hfree =>
    intro l hl
    rcases List.mem_cons.mp hl with rfl | hl2
    · exact fun hm => (h1 _ hm).2.2.2 rfl
    · rcases List.mem_append.mp hl2 with hm2 | hm2
      · exact fun hm => (h2 l hm2 _ hm).2.2.2 rfl
      · have : l = vn := by simpa using hm2
        subst this
        exact fun hm => (h3 _ hm).2.2.2 rfl
  case hne => simp

/-- Claim C6: on a command script whose single `db/alias.db` line carries a
quoted `RECORD=...,...,ALIAS=...` clause, the extractor strips the
quote/paren punctuation and both markers, splits the cleaned clause on
commas, and pairs the first field with the last, discarding the middle
fields. -/
theorem C6_clause_extraction (fs : FileSys) (dir_path ioc d : T)
    (lines : List T) (L pre post v1 vn : T) (mids : List T)
    (hL : L = pre ++ recMarkQ ++
      (List.intercalate [','] (v1 :: mids ++ [("ALIAS=".toList) ++ vn]) ++ '"' :: post))
    (hdir : fix_dir dir_path = some d)
    (hfile : lookupFile fs (d ++ "build/iocBoot/".toList ++ ioc ++ "/st.cmd".toList) =
      some lines)
    (hmatch : lines.filter matchesDbAlias = [L])
    (hnl : '\n' ∉ L) (hpre : '"' ∉ pre) (hpost : '"' ∉ post)
    (h1 : clauseSafe v1) (h2 : ∀ m ∈ mids, clauseSafe m) (h3 : clauseSafe vn) :
    acquire_aliases fs dir_path ioc = some [(v1, vn)] := by
  have hsearch : search_file fs (d ++ "build/iocBoot/".toList ++ ioc ++ "/st.cmd".toList)
      matchesDbAlias [] = L ++ ['\n'] := by
    unfold search_file
    rw [hfile]
    show ([] : T) ++
      List.intercalate [] ((lines.filter matchesDbAlias).map (· ++ ['\n'])) = L ++ ['\n']
    rw [hmatch]
    simp [List.intercalate, List.intersperse]
  unfold acquire_aliases
  rw [hdir]
  simp only [Option.bind_eq_bind, Option.some_bind, hfile, hsearch]
  rw [splitOn_newline_end L hnl]
  rw [show ([L, []] : List T).flatMap clausesOfLine = clausesOfLine L from by
    have hemp : clausesOfLine [] = ([] : List T) := rfl
    simp [List.flatMap, hemp]]
  rw [hL]
  rw [clausesOfLine_structured pre _ post hpre hpost]
  rw [show List.map decomposeClause [recMarkQ ++
      List.intercalate [','] (v1 :: mids ++ [("ALIAS=".toList) ++ vn]) ++ ['"']] =
    [decomposeClause (recMarkQ ++
      List.intercalate [','] (v1 :: mids ++ [("ALIAS=".toList) ++ vn]) ++ ['"'])] from rfl]
  rw [decomposeClause_structured v1 vn mids h1 h2 h3]

/-- Witness: the spec's example clause inside a full `st.cmd` line yields
record `LM1K2:MCS2:01:m1` and alias `LM2K2:INJ_MP1_MR1`. -/
theorem C6_witness :
    acquire_aliases
      [("/cds/group/pcds/epics/ioc/x/build/iocBoot/abc/st.cmd".toList,
        ["dbLoadRecords(db/alias.db,\"RECORD=LM1K2:MCS2:01:m1,ALIAS=LM2K2:INJ_MP1_MR1\")".toList])]
      ("ioc/x".toList) ("abc".toList) =
      some [("LM1K2:MCS2:01:m1".toList, "LM2K2:INJ_MP1_MR1".toList)] :=
  C6_clause_extraction
    [("/cds/group/pcds/epics/ioc/x/build/iocBoot/abc/st.cmd".toList,
      ["dbLoadRecords(db/alias.db,\"RECORD=LM1K2:MCS2:01:m1,ALIAS=LM2K2:INJ_MP1_MR1\")".toList])]
    ("ioc/x".toList) ("abc".toList) ("/cds/group/pcds/epics/ioc/x/".toList)
    ["dbLoadRecords(db/alias.db,\"RECORD=LM1K2:MCS2:01:m1,ALIAS=LM2K2:INJ_MP1_MR1\")".toList]
    ("dbLoadRecords(db/alias.db,\"RECORD=LM1K2:MCS2:01:m1,ALIAS=LM2K2:INJ_MP1_MR1\")".toList)
    ("dbLoadRecords(db/alias.db,".toList) (")".toList)
    ("LM1K2:MCS2:01:m1".toList) ("LM2K2:INJ_MP1_MR1".toList) []
    (by decide) (by decide) (by decide) (by decide) (by decide) (by decide) (by decide)
    (by decide) (by decide) (by decide)

/-- The wrapper-stripping scan is fuel-stable once the fuel covers the
input. -/
theorem stripAF_stable : ∀ f₁ : Nat, ∀ s : T, ∀ f₂ : Nat, s.length ≤ f₁ → s.length ≤ f₂ →
    stripAF f₁ s = stripAF f₂ s := by
  intro f₁
  induction f₁ with
  | zero =>
    intro s f₂ h1 _
    have hs : s = [] := List.eq_nil_of_length_eq_zero (Nat.le_zero.mp h1)
    subst hs
    cases f₂ <;> rfl
  | succ a ih =>
    intro s f₂ h1 h2
    cases s with
    | nil => cases f₂ <;> rfl
    | cons c cs =>
      cases f₂ with
      | zero => simp at h2
      | succ b =>
        have hlen1 : cs.length ≤ a := by simp only [List.length_cons] at h1; omega
        have hlen2 : cs.length ≤ b := by simp only [List.length_cons] at h2; omega
        have hd1 : ((c :: cs).drop 6).length ≤ a := by
          simp only [List.length_drop, List.length_cons]
          omega
        have hd2 : ((c :: cs).drop 6).length ≤ b := by
          simp only [List.length_drop, List.length_cons]
          omega
        rw [stripAF, stripAF]
        by_cases hal : ("alias(".toList).isPrefixOf (c :: cs) = true
        · rw [if_pos hal, if_pos hal]
          exact ih _ b hd1 hd2
        · rw [if_neg hal, if_neg hal]
          by_cases hsp : c = ' '
          · rw [if_pos hsp, if_pos hsp]
            exact ih cs b hlen1 hlen2
          · rw [if_neg hsp, if_neg hsp]
            rw [ih cs b hlen1 hlen2]

/-- A leading `alias(` wrapper is removed. -/
theorem strip_alias_head (cs : T) :
    stripAliasCalls ("alias(".toList ++ cs) = stripAliasCalls cs := by
  show stripAF (cs.length + 5 + 1) ('a' :: 'l' :: 'i' :: 'a' :: 's' :: '(' :: cs) =
    stripAF cs.length cs
  rw [stripAF, if_pos (show ("alias(".toList).isPrefixOf
      ('a' :: 'l' :: 'i' :: 'a' :: 's' :: '(' :: cs) = true from
    List.isPrefixOf_iff_prefix.mpr ⟨cs, rfl⟩)]
  exact stripAF_stable (cs.length + 5) _ cs.length
    (by simp only [List.length_drop, List.length_cons]; omega)
    (by simp only [List.length_drop, List.length_cons]; omega)

/-- A leading space is removed. -/
theorem strip_space (cs : T) : stripAliasCalls (' ' :: cs) = stripAliasCalls cs := by
  show stripAF (cs.length + 1) (' ' :: cs) = stripAF cs.length cs
  rw [stripAF,
    if_neg (neg_of_eq_false
      (show ("alias(".toList).isPrefixOf (' ' :: cs) = false from rfl)),
    if_pos rfl]

/-- A position matching neither alternative is emitted unchanged. -/
theorem strip_cons (c : Char) (cs : T)
    (h1 : ¬ (("alias(".toList).isPrefixOf (c :: cs) = true)) (h2 : c ≠ ' ') :
    stripAliasCalls (c :: cs) = c :: stripAliasCalls cs := by
  show stripAF (cs.length + 1) (c :: cs) = c :: stripAF cs.length cs
  rw [stripAF, if_neg h1, if_neg h2]

/-- A token whose final character is banned from the preceding text and
whose boundary characters are not in the token cannot start inside that
text. -/
theorem not_prefix_token (e b1 b2 : Char) : ∀ (v pat r : T), b1 ∉ pat → b2 ∉ pat →
    pat.getLast? = some e → e ∉ v →
    (r = [] ∨ (∃ r2, r = b1 :: r2) ∨ (∃ r2, r = b2 :: r2)) →
    ¬ pat <+: (v ++ r) := by
  intro v
  induction v with
  | nil =>
    intro pat r hc hq hl he hr hpre
    cases pat with
    | nil => simp at hl
    | cons p pt =>
      rcases hr with rfl | ⟨r2, rfl⟩ | ⟨r2, rfl⟩
      · rw [List.nil_append] at hpre
        have := List.prefix_nil.mp hpre
        simp at this
      · rcases hpre with ⟨t, ht⟩
        rw [List.nil_append] at ht
        have ht2 : p :: (pt ++ t) = b1 :: r2 := by simpa using ht
        injection ht2 with hh _
        exact hc (by simp [hh])
      · rcases hpre with ⟨t, ht⟩
        rw [List.nil_append] at ht
        have ht2 : p :: (pt ++ t) = b2 :: r2 := by simpa using ht
        injection ht2 with hh _
        exact hq (by simp [hh])
  | cons a v' ih =>
    intro pat r hc hq hl he hr hpre
    cases pat with
    | nil => simp at hl
    | cons p pt =>
      rcases hpre with ⟨t, ht⟩
      have ht2 : p :: (pt ++ t) = a :: (v' ++ r) := by simpa using ht
      injection ht2 with h1 h2
      cases pt with
      | nil =>
        have hp : p = e := by simpa using hl
        exact he (by simp [← h1, hp])
      | cons p2 pt' =>
        refine ih (p2 :: pt') r (fun hm => hc (by simp [hm])) (fun hm => hq (by simp [hm]))
          ?_ (fun hm => he (by simp [hm])) hr ⟨t, h2⟩
        simpa using hl

/-- An `a`-free, space-free chunk passes the wrapper strip unchanged. -/
theorem strip_chunk_no_a : ∀ s : T, (∀ c ∈ s, c ≠ 'a' ∧ c ≠ ' ') → ∀ r : T,
    stripAliasCalls (s ++ r) = s ++ stripAliasCalls r := by
  intro s
  induction s with
  | nil => intro _ r; simp
  | cons c s' ih =>
    intro hs r
    have hc := hs c (by simp)
    show stripAliasCalls (c :: (s' ++ r)) = c :: (s' ++ stripAliasCalls r)
    rw [strip_cons c _ ?h1 hc.2]
    · rw [ih (fun x hx => hs x (by simp [hx])) r]
    case h1 =>
      intro hp
      rcases List.isPrefixOf_iff_prefix.mp hp with ⟨t, ht⟩
      have ht2 : 'a' :: ("lias(".toList ++ t) = c :: (s' ++ r) := by simpa using ht
      injection ht2 with hh _
      exact hc.1 hh.symm

/-- A safe literal template chunk passes the wrapper strip unchanged when a
comma or closing parenthesis follows. -/
theorem strip_lit : ∀ v : T, litSafe v → ∀ r : T,
    (r = [] ∨ (∃ r2, r = ',' :: r2) ∨ (∃ r2, r = ')' :: r2)) →
    stripAliasCalls (v ++ r) = v ++ stripAliasCalls r := by
  intro v
  induction v with
  | nil => intro _ r _; simp
  | cons c v' ih =>
    intro hv r hr
    have hc := hv c (by simp)
    have hsp : c ≠ ' ' := by
      intro he
      subst he
      exact absurd hc.1 (by decide)
    show stripAliasCalls (c :: (v' ++ r)) = c :: (v' ++ stripAliasCalls r)
    rw [strip_cons c _ ?h1 hsp]
    · rw [ih (fun x hx => hv x (by simp [hx])) r hr]
    case h1 =>
      intro hp
      exact not_prefix_token '(' ',' ')' (c :: v') ("alias(".toList) r (by decide) (by decide)
        (by decide) (fun hm => (hv '(' hm).2.1 rfl) hr
        (List.isPrefixOf_iff_prefix.mp hp)

/-- The source text of a safe token passes the wrapper strip unchanged when
a comma or closing parenthesis follows. -/
theorem strip_tok (a : TAtom) (ha : atomSafe a) (r : T)
    (hr : r = [] ∨ (∃ r2, r = ',' :: r2) ∨ (∃ r2, r = ')' :: r2)) :
    stripAliasCalls (tokSrc a ++ r) = tokSrc a ++ stripAliasCalls r := by
  cases a with
  | lit s => exact strip_lit s ha r hr
  | recM s =>
    show stripAliasCalls ("$(RECORD)".toList ++ (s ++ r)) =
      "$(RECORD)".toList ++ (s ++ stripAliasCalls r)
    rw [strip_chunk_no_a ("$(RECORD)".toList) (by decide) (s ++ r)]
    rw [strip_lit s ha r hr]
  | aliM s =>
    show stripAliasCalls ("$(ALIAS)".toList ++ (s ++ r)) =
      "$(ALIAS)".toList ++ (s ++ stripAliasCalls r)
    rw [strip_chunk_no_a ("$(ALIAS)".toList) (by decide) (s ++ r)]
    rw [strip_lit s ha r hr]

/-- A comma-space separator strips to a bare comma. -/
theorem strip_comma_space (rest : T) :
    stripAliasCalls (',' :: ' ' :: rest) = ',' :: stripAliasCalls rest := by
  rw [strip_cons ',' _ (neg_of_eq_false
    (show ("alias(".toList).isPrefixOf (',' :: ' ' :: rest) = false from rfl)) (by decide)]
  rw [strip_space]

/-- `intercalate` with the comma-space separator, one step. -/
theorem intercalate_cs2 (a b : T) (l : List T) :
    List.intercalate [',', ' '] (a :: b :: l) =
      a ++ ',' :: ' ' :: List.intercalate [',', ' '] (b :: l) := by
  simp [List.intercalate, List.intersperse]

/-- `intercalate` of a single chunk, comma-space separator. -/
theorem intercalate_cs2_single (a : T) : List.intercalate [',', ' '] [a] = a := by
  simp [List.intercalate, List.intersperse]

/-- Stripping the wrapper from the joined macro arguments: the tokens
survive and the separators lose their spaces. -/
theorem strip_args : ∀ toks : List TAtom, (∀ a ∈ toks, atomSafe a) →
    ∀ r : T, (∃ r2, r = ')' :: r2) →
    stripAliasCalls (List.intercalate [',', ' '] (toks.map tokSrc) ++ r) =
      List.intercalate [','] (toks.map tokSrc) ++ stripAliasCalls r := by
  intro toks
  induction toks with
  | nil =>
    intro _ r _
    simp [List.intercalate, List.intersperse]
  | cons a rest ih =>
    intro ha r hr
    cases rest with
    | nil =>
      simp only [List.map_cons, List.map_nil]
      rw [intercalate_cs2_single, intercalate_single]
      exact strip_tok a (ha a (by simp)) r (Or.inr (Or.inr hr))
    | cons a2 rest2 =>
      simp only [List.map_cons]
      rw [intercalate_cs2, intercalate_cc]
      rw [show (tokSrc a ++ ',' :: ' ' ::
          List.intercalate [',', ' '] (tokSrc a2 :: List.map tokSrc rest2)) ++ r =
        tokSrc a ++ (',' :: ' ' ::
          (List.intercalate [',', ' '] (tokSrc a2 :: List.map tokSrc rest2) ++ r)) from by
        simp]
      rw [strip_tok a (ha a (by simp)) _ (Or.inr (Or.inl ⟨_, rfl⟩))]
      rw [strip_comma_space]
      have ih2 := ih (fun x hx => ha x (by simp [hx])) r hr
      simp only [List.map_cons] at ih2
      rw [ih2]
      simp

/-- A non-parenthesis character is emitted by the paren scanner. -/
theorem scpGo_none_cons (c : Char) (cs : T) (hc : c ≠ ')') :
    scpGo none (c :: cs) = c :: scpGo none cs := by
  rw [scpGo, if_neg hc]

/-- A closing parenthesis opens the pending state. -/
theorem scpGo_none_rparen (cs : T) : scpGo none (')' :: cs) = scpGo (some []) cs := by
  rw [scpGo, if_pos rfl]

/-- With an empty pending run and a non-whitespace next character the paren
is kept and the scan resumes. -/
theorem scpGo_some_nil (c : Char) (cs : T) (hc : isPyWS c = false) :
    scpGo (some []) (c :: cs) = ')' :: scpGo none (c :: cs) := by
  rw [scpGo]
  rw [scpGo, if_neg (neg_of_eq_false hc)]
  rw [show flushParen [] = [')'] from rfl]
  simp

/-- A whitespace-free chunk passes the paren scanner unchanged when followed
by a non-whitespace character. -/
theorem scp_pass : ∀ s : T, (∀ c ∈ s, isPyWS c = false) →
    ∀ r : T, (∃ d r2, r = d :: r2 ∧ isPyWS d = false) →
    scpGo none (s ++ r) = s ++ scpGo none r := by
  intro s
  induction s with
  | nil => intro _ r _; simp
  | cons c s' ih =>
    intro hs r hr
    by_cases hcp : c = ')'
    · subst hcp
      show scpGo none (')' :: (s' ++ r)) = ')' :: (s' ++ scpGo none r)
      rw [scpGo_none_rparen]
      cases s' with
      | nil =>
        rcases hr with ⟨d, r2, rfl, hd⟩
        simp only [List.nil_append]
        rw [scpGo_some_nil d r2 hd]
      | cons c2 s'' =>
        have hc2 := hs c2 (by simp)
        show scpGo (some []) (c2 :: (s'' ++ r)) = ')' :: (c2 :: s'' ++ scpGo none r)
        rw [scpGo_some_nil c2 _ hc2]
        rw [show scpGo none (c2 :: (s'' ++ r)) = scpGo none ((c2 :: s'') ++ r) from rfl]
        rw [ih (fun x hx => hs x (by simp [hx])) r hr]
    · show scpGo none (c :: (s' ++ r)) = c :: (s' ++ scpGo none r)
      rw [scpGo_none_cons c _ hcp]
      rw [ih (fun x hx => hs x (by simp [hx])) r hr]

/-- During the `$(RECORD)` pass an `$(ALIAS)` placeholder head is skipped. -/
theorem passA_ali_skip (rep cs : T) :
    replaceSub ('$' :: "(RECORD)".toList) rep ('$' :: '(' :: 'A' :: cs) =
      '$' :: '(' :: 'A' :: replaceSub ('$' :: "(RECORD)".toList) rep cs := by
  rw [replaceSub_cons_of_neg (by
    rintro ⟨-, hp⟩
    exact absurd hp (neg_of_eq_false
      (show (('$' :: "(RECORD)".toList : T)).isPrefixOf ('$' :: '(' :: 'A' :: cs) = false from
        rfl)))]
  rw [show ('(' :: 'A' :: cs : T) = ['(', 'A'] ++ cs from rfl]
  rw [replaceSub_append_headNotMem rep ['(', 'A'] cs (by decide)]
  rfl

/-- The `$(RECORD)` pass on one token and its continuation. -/
theorem passA_tok (recordName : T) (a : TAtom) (ha : atomSafe a) (r : T) :
    replaceSub ('$' :: "(RECORD)".toList) recordName (tokSrc a ++ r) =
      tokMid recordName a ++ replaceSub ('$' :: "(RECORD)".toList) recordName r := by
  cases a with
  | lit s =>
    show replaceSub ('$' :: "(RECORD)".toList) recordName (s ++ r) =
      s ++ replaceSub ('$' :: "(RECORD)".toList) recordName r
    exact replaceSub_append_headNotMem recordName s r (fun hm => (ha '$' hm).2.2.2.2 rfl)
  | recM s =>
    rw [show tokSrc (TAtom.recM s) ++ r = ('$' :: "(RECORD)".toList) ++ (s ++ r) from by
      simp [tokSrc]]
    rw [replaceSub_hit _ _ (by simp) (s ++ r)]
    rw [replaceSub_append_headNotMem recordName s r (fun hm => (ha '$' hm).2.2.2.2 rfl)]
    simp [tokMid]
  | aliM s =>
    rw [show tokSrc (TAtom.aliM s) ++ r = '$' :: '(' :: 'A' :: ("LIAS)".toList ++ (s ++ r))
      from by simp [tokSrc]]
    rw [passA_ali_skip]
    rw [show ("LIAS)".toList ++ (s ++ r) : T) = ("LIAS)".toList ++ s) ++ r from by simp]
    rw [replaceSub_append_headNotMem recordName ("LIAS)".toList ++ s) r ?hm]
    · simp [tokMid]
    case hm =>
      intro hm
      rcases List.mem_append.mp hm with h1 | h1
      · exact absurd h1 (by decide)
      · exact (ha '$' h1).2.2.2.2 rfl

/-- The `$(RECORD)` pass over the stripped argument list. -/
theorem passA_line (recordName : T) : ∀ toks : List TAtom, (∀ a ∈ toks, atomSafe a) →
    ∀ r : T, '$' ∉ r →
    replaceSub ('$' :: "(RECORD)".toList) recordName
      (List.intercalate [','] (toks.map tokSrc) ++ r) =
    List.intercalate [','] (toks.map (tokMid recordName)) ++ r := by
  intro toks
  induction toks with
  | nil =>
    intro _ r hr
    simp only [List.map_nil]
    rw [show List.intercalate [','] ([] : List T) = [] from rfl]
    simp only [List.nil_append]
    exact replaceSub_of_headNotMem _ _ hr
  | cons a rest ih =>
    intro ha r hr
    cases rest with
    | nil =>
      simp only [List.map_cons, List.map_nil]
      rw [intercalate_single, intercalate_single]
      rw [passA_tok recordName a (ha a (by simp)) r]
      rw [replaceSub_of_headNotMem _ _ hr]
    | cons a2 rest2 =>
      simp only [List.map_cons]
      rw [intercalate_cc, intercalate_cc]
      rw [show (tokSrc a ++ ',' ::
          List.intercalate [','] (tokSrc a2 :: List.map tokSrc rest2)) ++ r =
        tokSrc a ++ (',' ::
          (List.intercalate [','] (tokSrc a2 :: List.map tokSrc rest2) ++ r)) from by simp]
      rw [passA_tok recordName a (ha a (by simp)) _]
      rw [replaceSub_cons_of_neg (by
        rintro ⟨-, hp⟩
        exact absurd hp (neg_of_eq_false rfl))]
      have ih2 := ih (fun x hx => ha x (by simp [hx])) r hr
      simp only [List.map_cons] at ih2
      rw [ih2]
      simp

/-- During the `$(ALIAS)` pass the already-substituted tokens are left
alone and each `$(ALIAS)` placeholder is replaced. -/
theorem passB_tok (recordName aliasName : T) (hrec : tmplSafe recordName) (a : TAtom)
    (ha : atomSafe a) (r : T) :
    replaceSub ('$' :: "(ALIAS)".toList) aliasName (tokMid recordName a ++ r) =
      tokSubst recordName aliasName a ++
        replaceSub ('$' :: "(ALIAS)".toList) aliasName r := by
  cases a with
  | lit s =>
    show replaceSub ('$' :: "(ALIAS)".toList) aliasName (s ++ r) =
      s ++ replaceSub ('$' :: "(ALIAS)".toList) aliasName r
    exact replaceSub_append_headNotMem aliasName s r (fun hm => (ha '$' hm).2.2.2.2 rfl)
  | recM s =>
    rw [show tokMid recordName (TAtom.recM s) ++ r = (recordName ++ s) ++ r from by
      simp [tokMid]]
    rw [show ((recordName ++ s) ++ r : T) = (recordName ++ s) ++ r from rfl]
    rw [replaceSub_append_headNotMem aliasName (recordName ++ s) r ?hm]
    · simp [tokSubst]
    case hm =>
      intro hm
      rcases List.mem_append.mp hm with h1 | h1
      · exact (hrec '$' h1).2.2.2 rfl
      · exact (ha '$' h1).2.2.2.2 rfl
  | aliM s =>
    rw [show tokMid recordName (TAtom.aliM s) ++ r = ('$' :: "(ALIAS)".toList) ++ (s ++ r)
      from by simp [tokMid]]
    rw [replaceSub_hit _ _ (by simp) (s ++ r)]
    rw [replaceSub_append_headNotMem aliasName s r (fun hm => (ha '$' hm).2.2.2.2 rfl)]
    simp [tokSubst]

/-- The `$(ALIAS)` pass over the record-substituted argument list. -/
theorem passB_line (recordName aliasName : T) (hrec : tmplSafe recordName) :
    ∀ toks : List TAtom, (∀ a ∈ toks, atomSafe a) →
    ∀ r : T, '$' ∉ r →
    replaceSub ('$' :: "(ALIAS)".toList) aliasName
      (List.intercalate [','] (toks.map (tokMid recordName)) ++ r) =
    List.intercalate [','] (toks.map (tokSubst recordName aliasName)) ++ r := by
  intro toks
  induction toks with
  | nil =>
    intro _ r hr
    simp only [List.map_nil]
    rw [show List.intercalate [','] ([] : List T) = [] from rfl]
    simp only [List.nil_append]
    exact replaceSub_of_headNotMem _ _ hr
  | cons a rest ih =>
    intro ha r hr
    cases rest with
    | nil =>
      simp only [List.map_cons, List.map_nil]
      rw [intercalate_single, intercalate_single]
      rw [passB_tok recordName aliasName hrec a (ha a (by simp)) r]
      rw [replaceSub_of_headNotMem _ _ hr]
    | cons a2 rest2 =>
      simp only [List.map_cons]
      rw [intercalate_cc, intercalate_cc]
      rw [show (tokMid recordName a ++ ',' ::
          List.intercalate [','] (tokMid recordName a2 :: List.map (tokMid recordName) rest2))
            ++ r =
        tokMid recordName a ++ (',' ::
          (List.intercalate [',']
            (tokMid recordName a2 :: List.map (tokMid recordName) rest2) ++ r)) from by simp]
      rw [passB_tok recordName aliasName hrec a (ha a (by simp)) _]
      rw [replaceSub_cons_of_neg (by
        rintro ⟨-, hp⟩
        exact absurd hp (neg_of_eq_false rfl))]
      have ih2 := ih (fun x hx => ha x (by simp [hx])) r hr
      simp only [List.map_cons] at ih2
      rw [ih2]
      simp

/-- A membership bound for comma-joined chunks. -/
theorem inter_comma_all {P : Char → Prop} (hP : P ',') :
    ∀ ls : List T, (∀ l ∈ ls, ∀ c ∈ l, P c) → ∀ c ∈ List.intercalate [','] ls, P c := by
  intro ls
  induction ls with
  | nil =>
    intro _ c hc
    rw [show List.intercalate [','] ([] : List T) = [] from rfl] at hc
    simp at hc
  | cons x rest ih =>
    intro h c hc
    cases rest with
    | nil =>
      rw [intercalate_single] at hc
      exact h x (by simp) c hc
    | cons y rest2 =>
      rw [intercalate_cc] at hc
      rcases List.mem_append.mp hc with h1 | h1
      · exact h x (by simp) c h1
      · rcases List.mem_cons.mp h1 with rfl | h2
        · exact hP
        · exact ih (fun l hl => h l (by simp [hl])) c h2

/-- `str.split()` on a newline-terminated whitespace-free line. -/
theorem pySplit_single (X : T) (hX : ∀ c ∈ X, isPyWS c = false) (hne : X ≠ []) :
    pySplit (X ++ ['\n']) = [X] := by
  unfold pySplit
  rw [show (X ++ ['\n'] : T) = X ++ '\n' :: [] from rfl]
  rw [List.splitOnP_first isPyWS X (fun x hx => neg_of_eq_false (hX x hx)) '\n' (by decide) []]
  rw [List.splitOnP_nil]
  simp [hne]

/-- Token source text is whitespace-free. -/
theorem tokSrc_nonws (a : TAtom) (ha : atomSafe a) : ∀ c ∈ tokSrc a, isPyWS c = false := by
  cases a with
  | lit s => exact fun c hc => (ha c hc).1
  | recM s =>
    intro c hc
    rcases List.mem_append.mp hc with h1 | h1
    · have h2 : c ∈ ('$' :: '(' :: 'R' :: 'E' :: 'C' :: 'O' :: 'R' :: 'D' :: ')' :: ([] : T)) :=
        h1
      simp at h2
      rcases h2 with rfl | rfl | rfl | rfl | rfl | rfl | rfl | rfl | rfl <;> decide
    · exact (ha c h1).1
  | aliM s =>
    intro c hc
    rcases List.mem_append.mp hc with h1 | h1
    · have h2 : c ∈ ('$' :: '(' :: 'A' :: 'L' :: 'I' :: 'A' :: 'S' :: ')' :: ([] : T)) := h1
      simp at h2
      rcases h2 with rfl | rfl | rfl | rfl | rfl | rfl | rfl | rfl <;> decide
    · exact (ha c h1).1

/-- Substituted tokens are whitespace-, quote- and comma-free. -/
theorem tokSubst_chars (recordName aliasName : T) (hrec : tmplSafe recordName)
    (hali : tmplSafe aliasName) (a : TAtom) (ha : atomSafe a) :
    ∀ c ∈ tokSubst recordName aliasName a,
      isPyWS c = false ∧ c ≠ '"' ∧ c ≠ ',' := by
  cases a with
  | lit s => exact fun c hc => ⟨(ha c hc).1, (ha c hc).2.2.1, (ha c hc).2.2.2.1⟩
  | recM s =>
    intro c hc
    rcases List.mem_append.mp hc with h1 | h1
    · exact ⟨(hrec c h1).1, (hrec c h1).2.1, (hrec c h1).2.2.1⟩
    · exact ⟨(ha c h1).1, (ha c h1).2.2.1, (ha c h1).2.2.2.1⟩
  | aliM s =>
    intro c hc
    rcases List.mem_append.mp hc with h1 | h1
    · exact ⟨(hali c h1).1, (hali c h1).2.1, (hali c h1).2.2.1⟩
    · exact ⟨(ha c h1).1, (ha c h1).2.2.1, (ha c h1).2.2.2.1⟩

/-- Claim C7: on a template file whose single line is
`alias(tok0, ..., tokN)`, the expander strips the wrapper, the spaces and
the closing parenthesis, substitutes every `$(RECORD)` and `$(ALIAS)`
placeholder, and returns the comma-split field list whose first entry is the
expanded first argument and whose last entry is the expanded last
argument. -/
theorem C7_template_expansion (fs : FileSys) (parent recordName aliasName : T)
    (tok0 tokN : TAtom) (mids : List TAtom)
    (hfile : lookupFile fs (parent ++ "/db/alias.db".toList) =
      some [("alias(".toList ++
        List.intercalate [',', ' '] ((tok0 :: mids ++ [tokN]).map tokSrc) ++ [')'])])
    (hsafe : ∀ a ∈ tok0 :: mids ++ [tokN], atomSafe a)
    (hrec : tmplSafe recordName) (hali : tmplSafe aliasName) :
    process_alias_template fs parent recordName aliasName =
      some [(tok0 :: mids ++ [tokN]).map (tokSubst recordName aliasName)] ∧
    ((tok0 :: mids ++ [tokN]).map (tokSubst recordName aliasName)).headD [] =
      tokSubst recordName aliasName tok0 ∧
    ((tok0 :: mids ++ [tokN]).map (tokSubst recordName aliasName)).getLastD [] =
      tokSubst recordName aliasName tokN := by
  refine ⟨?_, rfl, ?_⟩
  · have hsub := tokSubst_chars recordName aliasName hrec hali
    have hstrip : stripAliasCalls (("alias(".toList ++
        List.intercalate [',', ' '] ((tok0 :: mids ++ [tokN]).map tokSrc) ++ [')']) ++
        ['\n']) =
        List.intercalate [','] ((tok0 :: mids ++ [tokN]).map tokSrc) ++ (')' :: ['\n']) := by
      rw [show ("alias(".toList ++
          List.intercalate [',', ' '] ((tok0 :: mids ++ [tokN]).map tokSrc) ++ [')']) ++
          ['\n'] =
        "alias(".toList ++
          (List.intercalate [',', ' '] ((tok0 :: mids ++ [tokN]).map tokSrc) ++
            (')' :: ['\n'])) from by simp]
      rw [strip_alias_head]
      rw [strip_args (tok0 :: mids ++ [tokN]) hsafe (')' :: ['\n']) ⟨['\n'], rfl⟩]
      rw [show stripAliasCalls (')' :: ['\n']) = ')' :: ['\n'] from rfl]
    have hnonws : ∀ c ∈ List.intercalate [','] ((tok0 :: mids ++ [tokN]).map tokSrc),
        isPyWS c = false := by
      refine inter_comma_all (by decide) _ ?_
      intro l hl c hc
      rcases List.mem_map.mp hl with ⟨a, hal, rfl⟩
      exact tokSrc_nonws a (hsafe a hal) c hc
    have hscp : stripCloseParens
        (List.intercalate [','] ((tok0 :: mids ++ [tokN]).map tokSrc) ++ (')' :: ['\n'])) =
        List.intercalate [','] ((tok0 :: mids ++ [tokN]).map tokSrc) ++ ['\n'] := by
      unfold stripCloseParens
      rw [scp_pass _ hnonws (')' :: ['\n']) ⟨')', ['\n'], rfl, by decide⟩]
      rw [show scpGo none (')' :: ['\n']) = ['\n'] from rfl]
    have hA : replaceSub ("$(RECORD)".toList) recordName
        (List.intercalate [','] ((tok0 :: mids ++ [tokN]).map tokSrc) ++ ['\n']) =
        List.intercalate [','] ((tok0 :: mids ++ [tokN]).map (tokMid recordName)) ++
          ['\n'] := by
      rw [show "$(RECORD)".toList = '$' :: "(RECORD)".toList from rfl]
      exact passA_line recordName (tok0 :: mids ++ [tokN]) hsafe ['\n'] (by decide)
    have hB : replaceSub ("$(ALIAS)".toList) aliasName
        (List.intercalate [','] ((tok0 :: mids ++ [tokN]).map (tokMid recordName)) ++
          ['\n']) =
        List.intercalate [',']
          ((tok0 :: mids ++ [tokN]).map (tokSubst recordName aliasName)) ++ ['\n'] := by
      rw [show "$(ALIAS)".toList = '$' :: "(ALIAS)".toList from rfl]
      exact passB_line recordName aliasName hrec (tok0 :: mids ++ [tokN]) hsafe ['\n']
        (by decide)
    have hne : List.intercalate [',']
        ((tok0 :: mids ++ [tokN]).map (tokSubst recordName aliasName)) ≠ [] := by
      rw [show (tok0 :: mids ++ [tokN]).map (tokSubst recordName aliasName) =
        tokSubst recordName aliasName tok0 ::
          (mids ++ [tokN]).map (tokSubst recordName aliasName) from rfl]
      rcases hm : (mids ++ [tokN]).map (tokSubst recordName aliasName) with _ | ⟨y, l⟩
      · simp at hm
      · rw [intercalate_cc]
        cases tokSubst recordName aliasName tok0 <;> simp
    have hsplit : pySplit (List.intercalate [',']
        ((tok0 :: mids ++ [tokN]).map (tokSubst recordName aliasName)) ++ ['\n']) =
        [List.intercalate [',']
          ((tok0 :: mids ++ [tokN]).map (tokSubst recordName aliasName))] := by
      refine pySplit_single _ ?_ hne
      refine inter_comma_all (by decide) _ ?_
      intro l hl c hc
      rcases List.mem_map.mp hl with ⟨a, hal, rfl⟩
      exact (hsub a (hsafe a hal) c hc).1
    have hfilter : (List.intercalate [',']
        ((tok0 :: mids ++ [tokN]).map (tokSubst recordName aliasName))).filter
          (· ≠ '"') =
        List.intercalate [',']
          ((tok0 :: mids ++ [tokN]).map (tokSubst recordName aliasName)) := by
      refine List.filter_eq_self.mpr ?_
      intro c hc
      refine inter_comma_all (P := fun c => decide (c ≠ '"') = true) (by decide) _ ?_ c hc
      intro l hl x hx
      rcases List.mem_map.mp hl with ⟨a, hal, rfl⟩
      simpa using (hsub a (hsafe a hal) x hx).2.1
    have hsplitOn : (List.intercalate [',']
        ((tok0 :: mids ++ [tokN]).map (tokSubst recordName aliasName))).splitOn ',' =
        (tok0 :: mids ++ [tokN]).map (tokSubst recordName aliasName) := by
      refine List.splitOn_intercalate _ ',' ?_ (by simp)
      intro l hl hm
      rcases List.mem_map.mp hl with ⟨a, hal, rfl⟩
      exact (hsub a (hsafe a hal) ',' hm).2.2 rfl
    unfold process_alias_template
    simp only []
    rw [hfile]
    show some ((pySplit (replaceSub ("$(ALIAS)".toList) aliasName
        (replaceSub ("$(RECORD)".toList) recordName
          (stripCloseParens (stripAliasCalls (fileText
            [("alias(".toList ++
              List.intercalate [',', ' '] ((tok0 :: mids ++ [tokN]).map tokSrc) ++
                [')'])])))))).map
      (fun s => (s.filter (· ≠ '"')).splitOn ',')) =
      some [(tok0 :: mids ++ [tokN]).map (tokSubst recordName aliasName)]
    rw [show fileText [("alias(".toList ++
        List.intercalate [',', ' '] ((tok0 :: mids ++ [tokN]).map tokSrc) ++ [')'])] =
      ("alias(".toList ++
        List.intercalate [',', ' '] ((tok0 :: mids ++ [tokN]).map tokSrc) ++ [')']) ++
        ['\n'] from by simp [fileText]]
    rw [hstrip, hscp, hA, hB, hsplit]
    rw [show [List.intercalate [',']
        ((tok0 :: mids ++ [tokN]).map (tokSubst recordName aliasName))].map
      (fun s => (s.filter (· ≠ '"')).splitOn ',') =
      [((List.intercalate [',']
        ((tok0 :: mids ++ [tokN]).map (tokSubst recordName aliasName))).filter
          (· ≠ '"')).splitOn ','] from rfl]
    rw [hfilter, hsplitOn]
  · rw [List.getLastD_eq_getLast?]
    rw [show (tok0 :: mids ++ [tokN]).map (tokSubst recordName aliasName) =
      (tokSubst recordName aliasName tok0 :: mids.map (tokSubst recordName aliasName)) ++
        [tokSubst recordName aliasName tokN] from by simp]
    rw [List.getLast?_concat]
    rfl

/-- Witness: the spec's example template line
`alias($(RECORD), $(RECORD).RBV, $(ALIAS).RBV)` with record
`LM1K2:MCS2:01:m1` and alias `LM1K2:INJ_MP1_MR1`. -/
theorem C7_witness :
    process_alias_template
      [("rel/db/alias.db".toList,
        ["alias($(RECORD), $(RECORD).RBV, $(ALIAS).RBV)".toList])]
      ("rel".toList) ("LM1K2:MCS2:01:m1".toList) ("LM1K2:INJ_MP1_MR1".toList) =
      some [["LM1K2:MCS2:01:m1".toList, "LM1K2:MCS2:01:m1.RBV".toList,
        "LM1K2:INJ_MP1_MR1.RBV".toList]] ∧
    (["LM1K2:MCS2:01:m1".toList, "LM1K2:MCS2:01:m1.RBV".toList,
        "LM1K2:INJ_MP1_MR1.RBV".toList] : List T).headD [] = "LM1K2:MCS2:01:m1".toList ∧
    (["LM1K2:MCS2:01:m1".toList, "LM1K2:MCS2:01:m1.RBV".toList,
        "LM1K2:INJ_MP1_MR1.RBV".toList] : List T).getLastD [] =
      "LM1K2:INJ_MP1_MR1.RBV".toList := by
  have h := C7_template_expansion
    [("rel/db/alias.db".toList,
      ["alias($(RECORD), $(RECORD).RBV, $(ALIAS).RBV)".toList])]
    ("rel".toList) ("LM1K2:MCS2:01:m1".toList) ("LM1K2:INJ_MP1_MR1".toList)
    (TAtom.recM []) (TAtom.aliM (".RBV".toList)) [TAtom.recM (".RBV".toList)]
    (by decide) (by decide) (by decide) (by decide)
  exact ⟨h.1, rfl, rfl⟩

/-- Joining lines with a trailing empty piece is the newline-terminated file
text. -/
theorem intercalate_nl_cons (l y : T) (l3 : List T) :
    List.intercalate ['\n'] (l :: y :: l3) = l ++ '\n' :: List.intercalate ['\n'] (y :: l3) := by
  simp [List.intercalate, List.intersperse]

/-- `intercalate` over newlines of a single chunk. -/
theorem intercalate_nl_single (a : T) : List.intercalate ['\n'] [a] = a := by
  simp [List.intercalate, List.intersperse]

/-- Joining lines with a trailing empty piece is the newline-terminated file
text. -/
theorem intercalate_nl_fileText : ∀ ls : List T,
    List.intercalate ['\n'] (ls ++ [[]]) = fileText ls := by
  intro ls
  induction ls with
  | nil => rfl
  | cons l rest ih =>
    have hsh : (l :: rest) ++ [[]] = l :: (rest ++ [[]]) := rfl
    rw [hsh]
    rcases hr : rest ++ [[]] with _ | ⟨y, l3⟩
    · simp at hr
    rw [intercalate_nl_cons l y l3, ← hr, ih]
    simp [fileText]

/-- Splitting newline-joined newline-free lines recovers them (with the empty
piece after the final newline). -/
theorem splitOn_fileText : ∀ ls : List T, (∀ l ∈ ls, '\n' ∉ l) →
    (fileText ls).splitOn '\n' = ls ++ [[]] := by
  intro ls
  induction ls with
  | nil =>
    intro _
    rfl
  | cons l rest ih =>
    intro h
    have hstep : fileText (l :: rest) = l ++ '\n' :: fileText rest := by
      simp [fileText]
    rw [hstep]
    rw [List.splitOn]
    rw [List.splitOnP_first (fun x => x == '\n') l
      (fun x hx hbe => h l (by simp) ((by simpa using hbe : x = '\n') ▸ hx)) '\n' rfl
      (fileText rest)]
    have ih2 := ih (fun x hx => h x (by simp [hx]))
    rw [List.splitOn] at ih2
    rw [ih2]
    rfl

/-- `splitLast` finds nothing in `cfg:`-free text. -/
theorem splitLast_cfg_none : ∀ s : T, ¬ (cfgMark <:+: s) → splitLast cfgMark s = none := by
  intro s
  induction s with
  | nil => intro _; rfl
  | cons c cs ih =>
    intro h
    rw [splitLast]
    rw [ih (fun hi => h (hi.trans (List.suffix_cons c cs).isInfix))]
    show (if cfgMark.isPrefixOf (c :: cs) = true then
        some (([] : T), (c :: cs).drop cfgMark.length) else none) = none
    rw [if_neg (fun hp => h (List.isPrefixOf_iff_prefix.mp hp).isInfix)]

/-- `cfg:` does not occur in `fg:` glued to `cfg:`-free text. -/
theorem not_infix_fg (post : T) (hpost : ¬ (cfgMark <:+: post)) :
    ¬ (cfgMark <:+: ('f' :: 'g' :: ':' :: post)) := by
  intro hinf
  rcases List.infix_cons_iff.mp hinf with h1 | h1
  · rcases h1 with ⟨t, ht⟩
    have ht2 : 'c' :: ('f' :: 'g' :: ':' :: t) = 'f' :: 'g' :: ':' :: post := ht
    injection ht2 with hh _
    exact absurd hh (by decide)
  rcases List.infix_cons_iff.mp h1 with h2 | h2
  · rcases h2 with ⟨t, ht⟩
    have ht2 : 'c' :: ('f' :: 'g' :: ':' :: t) = 'g' :: ':' :: post := ht
    injection ht2 with hh _
    exact absurd hh (by decide)
  rcases List.infix_cons_iff.mp h2 with h3 | h3
  · rcases h3 with ⟨t, ht⟩
    have ht2 : 'c' :: ('f' :: 'g' :: ':' :: t) = ':' :: post := ht
    injection ht2 with hh _
    exact absurd hh (by decide)
  · exact hpost h3

/-- `splitLast` splits at the boundary `cfg:` when the tail carries no other
occurrence. -/
theorem splitLast_cfg_boundary : ∀ mid post : T, ¬ (cfgMark <:+: post) →
    splitLast cfgMark (mid ++ (cfgMark ++ post)) = some (mid, post) := by
  intro mid
  induction mid with
  | nil =>
    intro post hp
    show splitLast cfgMark ('c' :: ("fg:".toList ++ post)) = some ([], post)
    rw [splitLast]
    rw [splitLast_cfg_none ("fg:".toList ++ post) (not_infix_fg post hp)]
    show (if cfgMark.isPrefixOf ('c' :: ("fg:".toList ++ post)) = true then
        some (([] : T), ('c' :: ("fg:".toList ++ post)).drop cfgMark.length) else none) =
      some ([], post)
    rw [if_pos (show cfgMark.isPrefixOf ('c' :: ("fg:".toList ++ post)) = true from
      List.isPrefixOf_iff_prefix.mpr ⟨post, rfl⟩)]
    rfl
  | cons c mid' ih =>
    intro post hp
    show splitLast cfgMark (c :: (mid' ++ (cfgMark ++ post))) = some (c :: mid', post)
    rw [splitLast]
    rw [ih post hp]

/-- Python dict lookup after adding a fresh key finds the new value. -/
theorem lookupKey_setKey_new (d : Obj) (k : T) (v : JVal)
    (hnew : ∀ e ∈ d, (e.1 == k) = false) :
    lookupKey (setKey d k v) k = some v := by
  unfold setKey
  rw [if_neg (by
    intro hany
    rcases List.any_eq_true.mp hany with ⟨e, he, hp⟩
    have hp2 : (e.1 == k) = true := hp
    rw [hnew e he] at hp2
    exact Bool.noConfusion hp2)]
  unfold lookupKey
  induction d with
  | nil => simp [List.find?]
  | cons e d' ih =>
    rw [show (e :: d') ++ [(k, v)] = e :: (d' ++ [(k, v)]) from rfl]
    rw [List.find?]
    rw [hnew e (by simp)]
    exact ih (fun x hx => hnew x (by simp [hx]))

/-- The tagging loop with equally long tag and record lists zips them. -/
theorem tagHutches_zip : ∀ (os : List Obj) (ts : List T), os.length = ts.length →
    tagHutches os ts =
      some (List.zipWith (fun d hh => setKey d ("hutch".toList) (JVal.str hh)) os ts) := by
  intro os
  induction os with
  | nil =>
    intro ts hlen
    have : ts = [] := List.eq_nil_of_length_eq_zero (by simpa using hlen.symm)
    subst this
    rfl
  | cons d ds ih =>
    intro ts hlen
    cases ts with
    | nil => simp at hlen
    | cons hh hs2 =>
      rw [tagHutches]
      rw [ih hs2 (by simpa using hlen)]
      rfl

/-- Parsing each rendered line succeeds, in order. -/
theorem mapM_json_loads : ∀ objs : List Obj, (∀ o ∈ objs, ∀ f ∈ o, roundJField f) →
    (objs.map renderJson).mapM json_loads = some objs := by
  intro objs
  induction objs with
  | nil =>
    intro _
    rfl
  | cons o rest ih =>
    intro h
    rw [List.map_cons, List.mapM_cons]
    rw [json_loads_renderJson o (h o (by simp))]
    rw [ih (fun x hx => h x (by simp [hx]))]
    rfl

/-!
### Deriving the facility code from a configuration path
-/

/-- The facility scanner accumulates a word run. -/
theorem htGo_word_append (k : T) (hk : ∀ c ∈ k, isWordChar c = true) :
    ∀ (flag : Bool) (pend rest : T),
      htGo flag pend (k ++ rest) = htGo flag (k.reverse ++ pend) rest := by
  induction k with
  | nil => intro flag pend rest; simp
  | cons c k' ih =>
    intro flag pend rest
    have hc : isWordChar c = true := hk c (by simp)
    simp only [List.cons_append]
    rw [htGo, if_pos hc]
    rw [ih (fun x hx => hk x (by simp [hx])) flag (c :: pend) rest]
    simp

/-- One non-word step of the facility scanner: decide the lookarounds and
reset the run. -/
theorem htGo_nonword (c : Char) (hc : isWordChar c = false) (flag : Bool)
    (pend : T) (cs : T) :
    htGo flag pend (c :: cs) =
      (if pend ≠ [] ∧ flag = true ∧ c = '/' ∧ ("ioc".toList).isPrefixOf cs then
        [pend.reverse]
      else []) ++ htGo (c == '/') [] cs := by
  rw [htGo, if_neg (neg_of_eq_false hc)]

/-- `ioc` cannot be a prefix of a word glued to a slash unless it already
prefixes the word. -/
theorem ioc_not_prefix (h : T) (hio : ¬ (("ioc".toList) <+: h)) (r : T) :
    (("ioc".toList).isPrefixOf (h ++ '/' :: r)) = false := by
  cases hb : ("ioc".toList).isPrefixOf (h ++ '/' :: r) with
  | false => rfl
  | true =>
    exfalso
    have hp : ("ioc".toList) <+: (h ++ '/' :: r) := List.isPrefixOf_iff_prefix.mp hb
    have ht := List.prefix_iff_eq_take.mp hp
    rw [show ("ioc".toList).length = 3 from rfl] at ht
    by_cases hlen : 3 ≤ h.length
    · apply hio
      rw [List.take_append_of_le_length hlen] at ht
      rw [ht]
      exact List.take_prefix 3 h
    · have hm : '/' ∈ ("ioc".toList) := by
        rw [List.take_append_eq_append_take] at ht
        rw [ht]
        apply List.mem_append.mpr
        right
        rcases hk : 3 - h.length with _ | k
        · exact absurd (Nat.le_of_sub_eq_zero hk) hlen
        · rw [List.take_succ_cons]
          exact List.mem_cons_self _ _
      exact absurd hm (by decide)

/-- A word run ending at a slash whose lookahead fails contributes nothing. -/
theorem htGo_run_skip (k : T) (hk : ∀ c ∈ k, isWordChar c = true) (flag : Bool)
    (cs : T) (hno : (("ioc".toList).isPrefixOf cs) = false) :
    htGo flag [] (k ++ '/' :: cs) = htGo true [] cs := by
  rw [htGo_word_append k hk flag [] ('/' :: cs)]
  rw [htGo_nonword '/' (by decide) flag (k.reverse ++ []) cs]
  rw [if_neg (by
    rintro ⟨-, -, -, hpre⟩
    rw [hno] at hpre
    exact Bool.noConfusion hpre)]
  rw [show (('/' : Char) == '/') = true from rfl]
  simp

/-- A word run preceded by a slash and followed by `/ioc` is captured. -/
theorem htGo_run_hit (k : T) (hne : k ≠ []) (hk : ∀ c ∈ k, isWordChar c = true)
    (cs : T) (hyes : (("ioc".toList).isPrefixOf cs) = true) :
    htGo true [] (k ++ '/' :: cs) = k :: htGo true [] cs := by
  rw [htGo_word_append k hk true [] ('/' :: cs)]
  rw [htGo_nonword '/' (by decide) true (k.reverse ++ []) cs]
  rw [if_pos ⟨by simpa using hne, rfl, rfl, hyes⟩]
  rw [show (('/' : Char) == '/') = true from rfl]
  simp

/-- The facility code derived from a hutch's tagged configuration path is the
hutch code itself: the only word run between a `/` and a `/ioc` lookahead in
`/cds/group/pcds/pyps/config/<h>/iocmanager.cfg:` is `<h>`. -/
theorem derive_mkCfgPath (h : T) (hne : h ≠ []) (hw : ∀ c ∈ h, isWordChar c = true)
    (hio : ¬ (("ioc".toList) <+: h)) :
    deriveHutch (mkCfgPath h ++ [':']) = h := by
  unfold deriveHutch
  rw [show mkCfgPath h ++ [':'] = cfgRoot ++ (h ++ ('/' :: (cfgLeaf ++ [':']))) from by
    simp [mkCfgPath]]
  rw [show (cfgRoot ++ (h ++ ('/' :: (cfgLeaf ++ [':']))) : T) =
    '/' :: ("cds".toList ++ '/' :: ("group".toList ++ '/' :: ("pcds".toList ++ '/' ::
      ("pyps".toList ++ '/' :: ("config".toList ++ '/' ::
        (h ++ '/' :: ("iocmanager.cfg:".toList))))))) from rfl]
  rw [htGo_nonword '/' (by decide) false [] _]
  rw [if_neg (by rintro ⟨hp, -⟩; exact hp rfl)]
  rw [show (('/' : Char) == '/') = true from rfl]
  have hno1 : ("ioc".toList).isPrefixOf ("group".toList ++ '/' :: ("pcds".toList ++ '/' ::
    ("pyps".toList ++ '/' :: ("config".toList ++ '/' ::
      (h ++ '/' :: ("iocmanager.cfg:".toList)))))) = false := rfl
  have hno2 : ("ioc".toList).isPrefixOf ("pcds".toList ++ '/' :: ("pyps".toList ++ '/' ::
    ("config".toList ++ '/' :: (h ++ '/' :: ("iocmanager.cfg:".toList))))) = false := rfl
  have hno3 : ("ioc".toList).isPrefixOf ("pyps".toList ++ '/' ::
    ("config".toList ++ '/' :: (h ++ '/' :: ("iocmanager.cfg:".toList)))) = false := rfl
  have hno4 : ("ioc".toList).isPrefixOf ("config".toList ++ '/' ::
    (h ++ '/' :: ("iocmanager.cfg:".toList))) = false := rfl
  rw [htGo_run_skip ("cds".toList) (by decide) true _ hno1]
  rw [htGo_run_skip ("group".toList) (by decide) true _ hno2]
  rw [htGo_run_skip ("pcds".toList) (by decide) true _ hno3]
  rw [htGo_run_skip ("pyps".toList) (by decide) true _ hno4]
  rw [htGo_run_skip ("config".toList) (by decide) true _
    ( ioc_not_prefix h hio ("iocmanager.cfg:".toList))]
  rw [htGo_run_hit h hne hw ("iocmanager.cfg:".toList) rfl]
  rw [show htGo true [] ("iocmanager.cfg:".toList) = [] from by decide]
  simp

/-!
### Discovering, reading and scanning the configuration files
-/

/-- Every built configuration path matches the glob. -/
theorem isCfgGlobMatch_mkCfgPath (h : T) (hne : h ≠ [])
    (hw : ∀ c ∈ h, isWordChar c = true) :
    isCfgGlobMatch (mkCfgPath h) = true := by
  have hsl : '/' ∉ h := not_mem_of_all hw (by decide)
  unfold isCfgGlobMatch mkCfgPath
  rw [show (cfgRoot ++ h ++ '/' :: cfgLeaf : T) = cfgRoot ++ (h ++ ['/'] ++ cfgLeaf) from by
    simp]
  rw [show cfgRoot.isPrefixOf (cfgRoot ++ (h ++ ['/'] ++ cfgLeaf)) = true from
    List.isPrefixOf_iff_prefix.mpr ⟨h ++ ['/'] ++ cfgLeaf, rfl⟩]
  rw [List.drop_left cfgRoot (h ++ ['/'] ++ cfgLeaf)]
  rw [splitFirst_headNotMem '/' [] h cfgLeaf hsl]
  cases h with
  | nil => exact absurd rfl hne
  | cons c h' =>
    have hcw : isWordChar c = true := hw c (by simp)
    have hcd : c ≠ '.' := by
      intro he
      rw [he] at hcw
      exact absurd hcw (by decide)
    simp [hcd]

/-- A looked-up file in front of the store. -/
theorem lookupFile_cons_self (f : T) (ls : List T) (fs : FileSys) :
    lookupFile ((f, ls) :: fs) f = some ls := by
  unfold lookupFile
  rw [List.find?_cons_of_pos _ (by simp)]
  rfl

/-- A lookup skips an entry with a different path. -/
theorem lookupFile_cons_ne (e : T × List T) (fs : FileSys) (f : T) (hne : e.1 ≠ f) :
    lookupFile (e :: fs) f = lookupFile fs f := by
  unfold lookupFile
  rw [List.find?_cons_of_neg _ (by simpa using hne)]

/-- Configuration paths of distinct hutch codes are distinct. -/
theorem mkCfgPath_inj (h1 h2 : T) (hs1 : '/' ∉ h1) (hs2 : '/' ∉ h2)
    (he : mkCfgPath h1 = mkCfgPath h2) : h1 = h2 := by
  unfold mkCfgPath at he
  have he2 : cfgRoot ++ (h1 ++ '/' :: cfgLeaf) = cfgRoot ++ (h2 ++ '/' :: cfgLeaf) := by
    simpa [List.append_assoc] using he
  have he3 : h1 ++ '/' :: cfgLeaf = h2 ++ '/' :: cfgLeaf := List.append_cancel_left he2
  have hc := congrArg (splitFirst ['/']) he3
  rw [show h1 ++ '/' :: cfgLeaf = h1 ++ ['/'] ++ cfgLeaf from by simp,
    show h2 ++ '/' :: cfgLeaf = h2 ++ ['/'] ++ cfgLeaf from by simp] at hc
  rw [splitFirst_headNotMem '/' [] h1 cfgLeaf hs1,
    splitFirst_headNotMem '/' [] h2 cfgLeaf hs2] at hc
  exact (Prod.mk.injEq _ _ _ _).mp (Option.some.inj hc) |>.1

/-- In the modelled store of hutch configuration files, each path reads back
its own line list. -/
theorem lookupFile_hutch : ∀ hs : List (T × List (T × DVal)),
    (hs.map (fun e => e.1)).Nodup → (∀ e ∈ hs, '/' ∉ e.1) →
    ∀ e ∈ hs, lookupFile (hs.map (fun x => (mkCfgPath x.1, [renderD x.2])))
      (mkCfgPath e.1) = some [renderD e.2] := by
  intro hs
  induction hs with
  | nil =>
    intro _ _ e he
    exact absurd he (by simp)
  | cons x rest ih =>
    intro hnd hsl e he
    have hnd2 : (x.1 :: rest.map (fun e => e.1)).Nodup := by
      rw [List.map_cons] at hnd
      exact hnd
    rcases List.mem_cons.mp he with rfl | he2
    · rw [List.map_cons]
      exact lookupFile_cons_self (mkCfgPath e.1) [renderD e.2] _
    · rw [List.map_cons]
      rw [lookupFile_cons_ne _ _ _ (by
        show mkCfgPath x.1 ≠ mkCfgPath e.1
        intro hpe
        have hx1 : x.1 = e.1 := mkCfgPath_inj x.1 e.1 (hsl x (by simp)) (hsl e (by simp [he2])) hpe
        have hx2 : x.1 ∈ rest.map (fun e => e.1) := by
          rw [hx1]
          exact List.mem_map_of_mem _ he2
        exact (List.nodup_cons.mp hnd2).1 hx2)]
      exact ih (List.nodup_cons.mp hnd2).2 (fun y hy => hsl y (by simp [hy])) e he2

/-- A search over a file holding exactly one matching line returns the
prefixed line. -/
theorem search_file_single (fs : FileSys) (f : T) (L : T) (pm : T → Bool) (pfx : T)
    (hlook : lookupFile fs f = some [L]) (hm : pm L = true) :
    search_file fs f pm pfx = pfx ++ (L ++ ['\n']) := by
  unfold search_file
  rw [hlook]
  show pfx ++ List.intercalate pfx (([L].filter pm).map (· ++ ['\n'])) = _
  rw [show [L].filter pm = [L] from by simp [List.filter, hm]]
  simp [List.intercalate, List.intersperse]

/-- When every searched file produces a result different from its bare
prefix, the scan keeps them all, in path order. -/
theorem iocScan_all_hit (fs : FileSys) (p : T) (PATH : List T)
    (hhit : ∀ f ∈ PATH,
      search_file fs f (lineMatches p) (iocPfx PATH f) ≠ iocPfx PATH f) :
    iocScan fs p PATH =
      PATH.map (fun f => search_file fs f (lineMatches p) (iocPfx PATH f)) := by
  unfold iocScan
  have main : ∀ (sub : List T),
      (∀ f ∈ sub, search_file fs f (lineMatches p) (iocPfx PATH f) ≠ iocPfx PATH f) →
      ∀ acc : List T,
      sub.foldl (fun acc f =>
        if search_file fs f (lineMatches p) (iocPfx PATH f) ≠ iocPfx PATH f then
          acc ++ [search_file fs f (lineMatches p) (iocPfx PATH f)]
        else acc) acc =
        acc ++ sub.map (fun f => search_file fs f (lineMatches p) (iocPfx PATH f)) := by
    intro sub
    induction sub with
    | nil =>
      intro _ acc
      simp
    | cons f sub' ih =>
      intro hall acc
      rw [List.foldl_cons]
      rw [if_pos (hall f (by simp))]
      rw [ih (fun g hg => hall g (by simp [hg])) (acc ++ [_])]
      simp
  simpa using main PATH hhit []

/-- `findall` on one prefixed matching line captures exactly the tagged
path. -/
theorem findallCfgLine_tagged (h : T) (L : T) (hfree : ¬ (cfgMark <:+: L)) :
    findallCfgLine (mkCfgPath h ++ ':' :: L) = [mkCfgPath h ++ [':']] := by
  unfold findallCfgLine
  rw [show mkCfgPath h ++ ':' :: L = cfgRoot ++ (h ++ ('/' :: (cfgLeaf ++ ':' :: L))) from by
    simp [mkCfgPath]]
  rw [show (cfgRoot ++ (h ++ ('/' :: (cfgLeaf ++ ':' :: L))) : T) =
    '/' :: ("cds/group/pcds/pyps/config/".toList ++ (h ++ ('/' :: (cfgLeaf ++ ':' :: L))))
    from rfl]
  rw [splitFirst]
  rw [if_pos (show (['/'] : T).isPrefixOf
    ('/' :: ("cds/group/pcds/pyps/config/".toList ++ (h ++ ('/' :: (cfgLeaf ++ ':' :: L))))) =
      true from rfl)]
  show (match splitLast cfgMark
      (("cds/group/pcds/pyps/config/".toList ++ (h ++ ('/' :: (cfgLeaf ++ ':' :: L))))) with
    | none => []
    | some (mid, _) => ['/' :: (mid ++ cfgMark)]) = [mkCfgPath h ++ [':']]
  rw [show ("cds/group/pcds/pyps/config/".toList ++ (h ++ ('/' :: (cfgLeaf ++ ':' :: L))) : T) =
    ("cds/group/pcds/pyps/config/".toList ++ (h ++ "/iocmanager.".toList)) ++
      (cfgMark ++ L) from by
    rw [show ('/' :: (cfgLeaf ++ ':' :: L) : T) = "/iocmanager.".toList ++ (cfgMark ++ L)
      from rfl]
    simp]
  rw [splitLast_cfg_boundary _ L hfree]
  show ['/' :: (("cds/group/pcds/pyps/config/".toList ++ (h ++ "/iocmanager.".toList)) ++
    cfgMark)] = [mkCfgPath h ++ [':']]
  rw [show mkCfgPath h ++ [':'] = cfgRoot ++ (h ++ ('/' :: (cfgLeaf ++ [':']))) from by
    simp [mkCfgPath]]
  rw [show (cfgRoot ++ (h ++ ('/' :: (cfgLeaf ++ [':']))) : T) =
    '/' :: ("cds/group/pcds/pyps/config/".toList ++ (h ++ ("/iocmanager.".toList ++ cfgMark)))
    from rfl]
  simp

/-- The tag-stripping substitution erases the prefixed path through its final
`cfg:`. -/
theorem stripCfgLine_tagged (h : T) (L : T) (hfree : ¬ (cfgMark <:+: L)) :
    stripCfgLine (mkCfgPath h ++ ':' :: L) = L := by
  unfold stripCfgLine
  rw [show mkCfgPath h ++ ':' :: L =
    (cfgRoot ++ (h ++ "/iocmanager.".toList)) ++ (cfgMark ++ L) from by
    rw [show mkCfgPath h ++ ':' :: L = cfgRoot ++ (h ++ ('/' :: (cfgLeaf ++ ':' :: L)))
      from by simp [mkCfgPath]]
    rw [show ('/' :: (cfgLeaf ++ ':' :: L) : T) = "/iocmanager.".toList ++ (cfgMark ++ L)
      from rfl]
    simp]
  rw [splitLast_cfg_boundary _ L hfree]

/-- A pointwise-singleton `flatMap` is a `map`. -/
theorem flatMap_single {α β : Type} : ∀ (l : List α) (f : α → List β) (g : α → β),
    (∀ x ∈ l, f x = [g x]) → l.flatMap f = l.map g := by
  intro l
  induction l with
  | nil => intro _ _ _; rfl
  | cons a t ih =>
    intro f g hfg
    rw [List.flatMap_cons, hfg a (by simp), ih f g (fun x hx => hfg x (by simp [hx]))]
    rfl

/-- Reading a mapped list at a position below its length. -/
theorem getD_map_lt {α β : Type} (f : α → β) :
    ∀ (l : List α) (i : Nat), i < l.length → ∀ (d : α) (e : β),
      (l.map f).getD i e = f (l.getD i d) := by
  intro l
  induction l with
  | nil =>
    intro i hi
    simp at hi
  | cons a t ih =>
    intro i hi d e
    cases i with
    | zero => simp
    | succ n =>
      simp only [List.map_cons, List.getD_cons_succ]
      exact ih n (by simpa using hi) d e

/-- Zipping two images of one list pointwise. -/
theorem zipWith_map_same {α β γ δ : Type} (g : β → γ → δ) (A : α → β) (B : α → γ) :
    ∀ l : List α, List.zipWith g (l.map A) (l.map B) = l.map (fun x => g (A x) (B x)) := by
  intro l
  induction l with
  | nil => rfl
  | cons a t ih => simp [ih]

/-!
### The Normalizer over a multi-line joined file text
-/

/-- The key-quoting scanner over the rendered field list, a closing brace and
an arbitrary continuation. -/
theorem qkGo_fieldsD_cont : ∀ fs : List (T × DVal), (∀ f ∈ fs, wfField f) → ∀ r : T,
    qkGo true [] (fieldsText (fun f => f.1 ++ ':' :: renderDVal f.2) fs ++ '}' :: r) =
      fieldsText (fun f => '\'' :: f.1 ++ '\'' :: ':' :: renderDVal f.2) fs ++
        '}' :: qkGo true [] r := by
  intro fs
  induction fs with
  | nil =>
    intro _ r
    simp only [fieldsText, List.nil_append]
    rw [show ('}' :: r : T) = [] ++ '}' :: r from rfl,
      qkGo_no_colon [] (by simp) '}' (by decide) (by decide) r true []]
    rw [show (('}' : Char) != '\'') = true from by decide]
    simp
  | cons f rest ih =>
    intro hwf r
    obtain ⟨⟨hk1, hk2, _, _⟩, _⟩ := hwf f (by simp)
    have hvc : ':' ∉ renderDVal f.2 := renderDVal_no_colon (hwf f (by simp))
    cases rest with
    | nil =>
      simp only [fieldsText]
      rw [show (f.1 ++ ':' :: renderDVal f.2) ++ '}' :: r =
        f.1 ++ ':' :: (renderDVal f.2 ++ '}' :: r) by simp]
      rw [qkGo_key f.1 hk1 hk2]
      rw [qkGo_no_colon (renderDVal f.2) hvc '}' (by decide) (by decide) r true []]
      rw [show (('}' : Char) != '\'') = true from by decide]
      simp
    | cons f2 rest2 =>
      simp only [fieldsText]
      rw [show ((f.1 ++ ':' :: renderDVal f.2) ++
          ',' :: fieldsText (fun f => f.1 ++ ':' :: renderDVal f.2) (f2 :: rest2)) ++ '}' :: r =
        f.1 ++ ':' :: (renderDVal f.2 ++
          ',' :: (fieldsText (fun f => f.1 ++ ':' :: renderDVal f.2) (f2 :: rest2) ++
            '}' :: r)) by simp]
      rw [qkGo_key f.1 hk1 hk2]
      rw [qkGo_no_colon (renderDVal f.2) hvc ',' (by decide) (by decide) _ true []]
      rw [show ((',' : Char) != '\'') = true from by decide]
      rw [ih (fun g hg => hwf g (by simp [hg])) r]
      simp

/-- The key-quoting scanner over one rendered dialect line, its newline and a
continuation. -/
theorem quoteKeys_renderD_cont (fields : List (T × DVal))
    (hwf : ∀ f ∈ fields, wfField f) (r : T) :
    qkGo true [] (renderD fields ++ '\n' :: r) = renderD1 fields ++ '\n' :: qkGo true [] r := by
  unfold renderD renderD1 renderObj
  rw [show ('{' :: fieldsText (fun f => f.1 ++ ':' :: renderDVal f.2) fields ++ ['}']) ++
      '\n' :: r =
    [] ++ '{' :: (fieldsText (fun f => f.1 ++ ':' :: renderDVal f.2) fields ++
      '}' :: '\n' :: r) from by simp]
  rw [qkGo_no_colon [] (by simp) '{' (by decide) (by decide) _ true []]
  rw [show (('{' : Char) != '\'') = true from by decide]
  rw [qkGo_fieldsD_cont fields hwf ('\n' :: r)]
  rw [show ('\n' :: r : T) = [] ++ '\n' :: r from rfl,
    qkGo_no_colon [] (by simp) '\n' (by decide) (by decide) r true []]
  rw [show (('\n' : Char) != '\'') = true from by decide]
  simp

/-- Key quoting acts line by line on a joined file text. -/
theorem quoteKeys_fileText : ∀ fss : List (List (T × DVal)),
    (∀ fs ∈ fss, ∀ f ∈ fs, wfField f) →
    quoteKeys (fileText (fss.map renderD)) = fileText (fss.map renderD1) := by
  intro fss
  induction fss with
  | nil => intro _; rfl
  | cons fs rest ih =>
    intro h
    unfold quoteKeys
    rw [show fileText ((fs :: rest).map renderD) =
      renderD fs ++ '\n' :: fileText (rest.map renderD) from by simp [fileText]]
    rw [quoteKeys_renderD_cont fs (h fs (by simp)) _]
    have ih2 := ih (fun x hx => h x (by simp [hx]))
    unfold quoteKeys at ih2
    rw [ih2]
    simp [fileText]

/-- An all-word-pattern substitution acts line by line on a joined file
text. -/
theorem replaceSub_fileText (p : Char) (pt rep : T)
    (hw : ∀ c ∈ p :: pt, isWordChar c = true) :
    ∀ ls : List T, replaceSub (p :: pt) rep (fileText ls) =
      fileText (ls.map (replaceSub (p :: pt) rep)) := by
  intro ls
  induction ls with
  | nil =>
    show replaceSub (p :: pt) rep [] = fileText ([] : List T)
    rfl
  | cons l rest ih =>
    rw [show fileText (l :: rest) = l ++ '\n' :: fileText rest from by simp [fileText]]
    rw [replaceSub_split (p :: pt) rep (by simp) hw '\n' (by decide)]
    rw [ih]
    simp [fileText]

/-- The `True` pass acts line by line on the key-quoted file text. -/
theorem truePass_fileText (fss : List (List (T × DVal)))
    (hwf : ∀ fs ∈ fss, ∀ f ∈ fs, wfField f) :
    replaceSub ("True".toList) ("true".toList) (fileText (fss.map renderD1)) =
      fileText (fss.map renderD1t) := by
  rw [show ("True".toList) = 'T' :: "rue".toList from rfl]
  rw [replaceSub_fileText 'T' ("rue".toList) ("true".toList) (by decide) (fss.map renderD1)]
  rw [List.map_map]
  congr 1
  apply List.map_congr_left
  intro fs hfs
  exact truePass_renderD1 fs (hwf fs hfs)

/-- The `False` pass acts line by line. -/
theorem falsePass_fileText (fss : List (List (T × DVal)))
    (hwf : ∀ fs ∈ fss, ∀ f ∈ fs, wfField f) :
    replaceSub ("False".toList) ("false".toList) (fileText (fss.map renderD1t)) =
      fileText (fss.map renderD2) := by
  rw [show ("False".toList) = 'F' :: "alse".toList from rfl]
  rw [replaceSub_fileText 'F' ("alse".toList) ("false".toList) (by decide) (fss.map renderD1t)]
  rw [List.map_map]
  congr 1
  apply List.map_congr_left
  intro fs hfs
  exact falsePass_renderD1t fs (hwf fs hfs)

/-- The digit scanner over the rendered field list, a closing brace and an
arbitrary continuation. -/
theorem qdGo_fields_cont : ∀ fs : List (T × DVal), (∀ f ∈ fs, wfField f) → ∀ r : T,
    qdGo (some false)
      (fieldsText (fun f => '\'' :: f.1 ++ '\'' :: ':' :: renderDVal2 f.2) fs ++ '}' :: r) =
    fieldsText (fun f => '\'' :: f.1 ++ '\'' :: ':' :: renderDVal3 f.2) fs ++
      '}' :: qdGo (some false) r := by
  intro fs
  induction fs with
  | nil =>
    intro _ r
    simp only [fieldsText, List.nil_append]
    rw [qdGo_step '}' (by decide)]
    rw [show (('}' : Char) == ':') = false from by decide]
  | cons f rest ih =>
    intro hwf r
    have hk := (hwf f (by simp)).1.2.1
    have hv := wfField_val f (hwf f (by simp))
    cases rest with
    | nil =>
      simp only [fieldsText]
      rw [qdGo_chunk f.1 hk f.2 hv '}' (by decide) (by decide) r]
    | cons f2 rest2 =>
      simp only [fieldsText]
      rw [show (('\'' :: f.1 ++ '\'' :: ':' :: renderDVal2 f.2) ++
          ',' :: fieldsText (fun f => '\'' :: f.1 ++ '\'' :: ':' :: renderDVal2 f.2)
            (f2 :: rest2)) ++ '}' :: r =
        ('\'' :: f.1 ++ '\'' :: ':' :: renderDVal2 f.2) ++
          ',' :: (fieldsText (fun f => '\'' :: f.1 ++ '\'' :: ':' :: renderDVal2 f.2)
            (f2 :: rest2) ++ '}' :: r) by simp]
      rw [qdGo_chunk f.1 hk f.2 hv ',' (by decide) (by decide) _]
      rw [ih (fun g hg => hwf g (by simp [hg])) r]
      simp

/-- The digit scanner over one boolean-rewritten line, its newline and a
continuation. -/
theorem quoteDigits_renderD2_cont (fields : List (T × DVal))
    (hwf : ∀ f ∈ fields, wfField f) (r : T) :
    qdGo (some false) (renderD2 fields ++ '\n' :: r) =
      renderD3 fields ++ '\n' :: qdGo (some false) r := by
  unfold renderD2 renderD3 renderObj
  rw [show ('{' :: fieldsText (fun f => '\'' :: f.1 ++ '\'' :: ':' :: renderDVal2 f.2) fields ++
      ['}']) ++ '\n' :: r =
    '{' :: (fieldsText (fun f => '\'' :: f.1 ++ '\'' :: ':' :: renderDVal2 f.2) fields ++
      '}' :: '\n' :: r) from by simp]
  rw [qdGo_step '{' (by decide)]
  rw [show (('{' : Char) == ':') = false from by decide]
  rw [qdGo_fields_cont fields hwf ('\n' :: r)]
  rw [qdGo_step '\n' (by decide)]
  rw [show (('\n' : Char) == ':') = false from by decide]
  simp

/-- Digit quoting acts line by line on a joined file text. -/
theorem quoteDigits_fileText : ∀ fss : List (List (T × DVal)),
    (∀ fs ∈ fss, ∀ f ∈ fs, wfField f) →
    quoteDigits (fileText (fss.map renderD2)) = fileText (fss.map renderD3) := by
  intro fss
  induction fss with
  | nil => intro _; rfl
  | cons fs rest ih =>
    intro h
    unfold quoteDigits
    rw [show fileText ((fs :: rest).map renderD2) =
      renderD2 fs ++ '\n' :: fileText (rest.map renderD2) from by simp [fileText]]
    rw [quoteDigits_renderD2_cont fs (h fs (by simp)) _]
    have ih2 := ih (fun x hx => h x (by simp [hx]))
    unfold quoteDigits at ih2
    rw [ih2]
    simp [fileText]

/-- A newline-fixing character map acts line by line on a joined file
text. -/
theorem map_fileText (f : Char → Char) (hf : f '\n' = '\n') :
    ∀ ls : List T, (fileText ls).map f = fileText (ls.map (List.map f)) := by
  intro ls
  induction ls with
  | nil => rfl
  | cons l rest ih =>
    rw [show fileText (l :: rest) = l ++ '\n' :: fileText rest from by simp [fileText]]
    simp only [List.map_append, List.map_cons]
    rw [hf, ih]
    simp [fileText]

/-- The quote-style conversion turns the joined fully quoted text into the
joined JSON text. -/
theorem mapSwap_fileText (fss : List (List (T × DVal)))
    (hwf : ∀ fs ∈ fss, ∀ f ∈ fs, wfField f) :
    replaceSub ['\''] ['"'] (fileText (fss.map renderD3)) =
      fileText ((fss.map (fun fs => fs.map (fun f => (f.1, interpDVal f.2)))).map
        renderJson) := by
  rw [replaceSub_quote]
  rw [map_fileText swapQuote rfl (fss.map renderD3)]
  rw [List.map_map, List.map_map]
  congr 1
  apply List.map_congr_left
  intro fs hfs
  exact mapSwap_renderD3 fs (hwf fs hfs)

/-- `'},'` cannot occur after a line's closing brace: the brace is followed
by a newline. -/
theorem not_infix_bc_cont (X : T) (hX : ¬ ((['}', ','] : T) <:+: X)) :
    ∀ t : T, '}' ∉ t → ¬ ((['}', ','] : T) <:+: (t ++ '}' :: '\n' :: X)) := by
  intro t
  induction t with
  | nil =>
    intro _ hinf
    rcases List.infix_cons_iff.mp hinf with h1 | h1
    · rcases h1 with ⟨r, hr⟩
      have hr2 : '}' :: ',' :: r = '}' :: '\n' :: X := hr
      injection hr2 with _ hr3
      injection hr3 with he _
      exact absurd he (by decide)
    · rcases List.infix_cons_iff.mp h1 with h2 | h2
      · rcases h2 with ⟨r, hr⟩
        have hr2 : '}' :: ',' :: r = '\n' :: X := hr
        injection hr2 with he _
        exact absurd he (by decide)
      · exact hX h2
  | cons c t' ih =>
    intro hc hinf
    rcases List.infix_cons_iff.mp hinf with h1 | h1
    · rcases h1 with ⟨r, hr⟩
      have hr2 : '}' :: ',' :: r = c :: (t' ++ '}' :: '\n' :: X) := hr
      injection hr2 with he _
      exact hc (by simp [← he])
    · exact ih (fun hm => hc (by simp [hm])) h1

/-- `'},'` cannot occur anywhere in a joined text of brace-delimited lines
with brace-free bodies. -/
theorem not_infix_bc_fileText : ∀ bodies : List T, (∀ b ∈ bodies, '}' ∉ b) →
    ¬ ((['}', ','] : T) <:+: fileText (bodies.map (fun b => '{' :: b ++ ['}']))) := by
  intro bodies
  induction bodies with
  | nil =>
    intro _
    decide
  | cons b rest ih =>
    intro h hinf
    rw [show fileText ((b :: rest).map (fun b => '{' :: b ++ ['}'])) =
      '{' :: (b ++ '}' :: '\n' :: fileText (rest.map (fun b => '{' :: b ++ ['}']))) from by
        simp [fileText]] at hinf
    rcases List.infix_cons_iff.mp hinf with h1 | h1
    · rcases h1 with ⟨r, hr⟩
      have hr2 : '}' :: ',' :: r =
          '{' :: (b ++ '}' :: '\n' :: fileText (rest.map (fun b => '{' :: b ++ ['}']))) := hr
      injection hr2 with he _
      exact absurd he (by decide)
    · exact not_infix_bc_cont _ (ih (fun x hx => h x (by simp [hx]))) b (h b (by simp)) h1

/-- Membership in a joined file text comes from a line or is the newline. -/
theorem mem_fileText {c : Char} : ∀ {ls : List T}, c ∈ fileText ls →
    (∃ l ∈ ls, c ∈ l) ∨ c = '\n' := by
  intro ls
  induction ls with
  | nil =>
    intro h
    exact absurd h (by simp [fileText])
  | cons l rest ih =>
    intro h
    rw [show fileText (l :: rest) = l ++ '\n' :: fileText rest from by simp [fileText]] at h
    rcases List.mem_append.mp h with h1 | h1
    · exact Or.inl ⟨l, by simp, h1⟩
    · rcases List.mem_cons.mp h1 with h2 | h2
      · exact Or.inr h2
      · rcases ih h2 with ⟨l2, hl2, hc⟩ | h3
        · exact Or.inl ⟨l2, by simp [hl2], hc⟩
        · exact Or.inr h3

/-- A nonempty joined file text is the newline-intercalation plus a final
newline. -/
theorem fileText_eq_intercalate : ∀ (l : T) (ls : List T),
    fileText (l :: ls) = List.intercalate ['\n'] (l :: ls) ++ ['\n'] := by
  intro l ls
  induction ls generalizing l with
  | nil => simp [fileText, intercalate_nl_single]
  | cons b r ih =>
    rw [show fileText (l :: b :: r) = l ++ '\n' :: fileText (b :: r) from by simp [fileText]]
    rw [ih b, intercalate_nl_cons]
    simp

/-- The newline-joined rendered JSON lines form one brace-delimited block. -/
theorem inter_renderJson_shape : ∀ (o : Obj) (os : List Obj), ∃ mid : T,
    List.intercalate ['\n'] (renderJson o :: os.map renderJson) = '{' :: mid ++ ['}'] := by
  intro o os
  induction os generalizing o with
  | nil =>
    refine ⟨fieldsTextJ o, ?_⟩
    rw [List.map_nil, intercalate_nl_single]
    rfl
  | cons o2 os2 ih =>
    obtain ⟨mid2, hm⟩ := ih o2
    refine ⟨fieldsTextJ o ++ '}' :: '\n' :: '{' :: mid2, ?_⟩
    rw [List.map_cons, intercalate_nl_cons, hm]
    show renderJson o ++ '\n' :: ('{' :: mid2 ++ ['}']) = _
    simp [renderJson, renderObj]

/-- Stripping a brace-delimited block with one trailing newline removes
exactly that newline. -/
theorem pyStrip_obj_nl (mid : T) :
    pyStrip (('{' :: mid ++ ['}']) ++ ['\n']) = '{' :: mid ++ ['}'] := by
  unfold pyStrip
  rw [show ('{' :: mid ++ ['}']) ++ ['\n'] = '{' :: (mid ++ '}' :: '\n' :: []) from by simp]
  rw [show List.dropWhile isPyWS ('{' :: (mid ++ '}' :: '\n' :: [])) =
    '{' :: (mid ++ '}' :: '\n' :: []) from by
      rw [List.dropWhile_cons, if_neg (by decide)]]
  rw [show ('{' :: (mid ++ '}' :: '\n' :: [])).reverse =
    '\n' :: '}' :: (mid.reverse ++ ['{']) from by simp]
  rw [List.dropWhile_cons, if_pos (by decide)]
  rw [List.dropWhile_cons, if_neg (by decide)]
  simp

/-- The cleanup tail of the Normalizer on the joined rendered JSON lines:
both cleanup substitutions are the identity, the strip removes the final
newline, and the split recovers the lines. -/
theorem fix_json_tail_fileText (objs : List Obj) (hne : objs ≠ [])
    (hobjs : ∀ o ∈ objs, ∀ g ∈ o, roundJField g) :
    (pyStrip (replaceSub [' ', '{'] ['{'] (replaceSub ['}', ','] ['}']
      (fileText (objs.map renderJson))))).splitOn '\n' = objs.map renderJson := by
  have hshape : objs.map renderJson =
      (objs.map fieldsTextJ).map (fun b => '{' :: b ++ ['}']) := by
    rw [List.map_map]
    apply List.map_congr_left
    intro o _
    rfl
  have hid1 : replaceSub ['}', ','] ['}'] (fileText (objs.map renderJson)) =
      fileText (objs.map renderJson) := by
    apply replaceSub_of_not_infix
    rw [hshape]
    apply not_infix_bc_fileText
    intro b hb
    rcases List.mem_map.mp hb with ⟨o, ho, rfl⟩
    intro hm
    rcases fieldsTextJ_chars o (hobjs o ho) '}' hm with h | h | h | h <;>
      exact absurd h (by decide)
  rw [hid1]
  have hid2 : replaceSub [' ', '{'] ['{'] (fileText (objs.map renderJson)) =
      fileText (objs.map renderJson) := by
    apply replaceSub_of_headNotMem
    intro hm
    rcases mem_fileText hm with ⟨l, hl, hc⟩ | h
    · rcases List.mem_map.mp hl with ⟨o, ho, rfl⟩
      rcases renderJson_chars o (hobjs o ho) ' ' hc with h | h | h | h | h | h <;>
        exact absurd h (by decide)
    · exact absurd h (by decide)
  rw [hid2]
  have hnl : ∀ l ∈ objs.map renderJson, '\n' ∉ l := by
    intro l hl hm
    rcases List.mem_map.mp hl with ⟨o, ho, rfl⟩
    rcases renderJson_chars o (hobjs o ho) '\n' hm with h | h | h | h | h | h <;>
      exact absurd h (by decide)
  cases objs with
  | nil => exact absurd rfl hne
  | cons o os =>
    rw [List.map_cons]
    rw [fileText_eq_intercalate (renderJson o) (os.map renderJson)]
    obtain ⟨mid, hm⟩ := inter_renderJson_shape o os
    rw [hm, pyStrip_obj_nl mid, ← hm]
    refine List.splitOn_intercalate _ '\n' ?_ (by simp)
    intro l hl
    exact hnl l (by rw [List.map_cons]; exact hl)

set_option maxHeartbeats 1000000 in
/-- The seven-stage Normalizer maps a nonempty newline-joined sequence of
well-formed rendered dialect lines to the corresponding JSON lines, one list
entry per input line. -/
theorem fix_json_fileText (fss : List (List (T × DVal))) (hne : fss ≠ [])
    (hwf : ∀ fs ∈ fss, ∀ f ∈ fs, wfField f) :
    fix_json (fileText (fss.map renderD)) =
      (fss.map (fun fs => fs.map (fun f => (f.1, interpDVal f.2)))).map renderJson := by
  show (pyStrip (replaceSub [' ', '{'] ['{'] (replaceSub ['}', ','] ['}']
      (replaceSub ['\''] ['"'] (quoteDigits (replaceSub ("False".toList) ("false".toList)
        (replaceSub ("True".toList) ("true".toList)
          (quoteKeys (fileText (fss.map renderD)))))))))).splitOn '\n' = _
  rw [quoteKeys_fileText fss hwf]
  rw [truePass_fileText fss hwf]
  rw [falsePass_fileText fss hwf]
  rw [quoteDigits_fileText fss hwf]
  rw [mapSwap_fileText fss hwf]
  have h := fix_json_tail_fileText (fss.map (fun fs => fs.map (fun f => (f.1, interpDVal f.2))))
    (by simpa using hne)
    (by
      intro o ho
      rcases List.mem_map.mp ho with ⟨fs, hfs, rfl⟩
      exact mapped_roundJField fs (hwf fs hfs))
  convert h using 2

/-- A `flatMap` over a mapped list composes pointwise. -/
theorem flatMap_map_comp {α β γ : Type} : ∀ (l : List α) (f : α → β) (g : β → List γ),
    (l.map f).flatMap g = l.flatMap (fun x => g (f x)) := by
  intro l
  induction l with
  | nil => intro _ _; rfl
  | cons a t ih =>
    intro f g
    simp only [List.map_cons, List.flatMap_cons, ih]

/-- A nonempty joined file text is nonempty. -/
theorem fileText_ne_nil (ls : List T) (h : ls ≠ []) : fileText ls ≠ [] := by
  cases ls with
  | nil => exact absurd rfl h
  | cons l rest => simp [fileText]

set_option maxHeartbeats 1000000 in
/-- Claim C1 (amended): with the wildcard selector, when at least two hutch
configuration files are discovered (so the scan prefixes every matched line
with its file path and colon) and each file holds one matching `cfg:`-free
well-formed inventory line, `find_ioc` returns the parsed records in strict
encounter order, and the `hutch` tag attached to the `N`-th record equals the
facility code `re.findall(r'(?<=/)\w+(?=/ioc)', ...)` derives from the path
of that record's originating configuration file (which is that hutch's
directory name).  With a single discovered file no prefix is added and the
tagging loop raises `IndexError` instead. -/
theorem C1_hutch_tag_alignment
    (hs : List (T × List (T × DVal))) (p : T)
    (h2 : 2 ≤ hs.length)
    (hnd : (hs.map (fun e => e.1)).Nodup)
    (hh : ∀ e ∈ hs, e.1 ≠ [] ∧ (∀ c ∈ e.1, isWordChar c = true) ∧
      ¬ (("ioc".toList) <+: e.1))
    (hwf : ∀ e ∈ hs, ∀ f ∈ e.2, wfField f)
    (hkey : ∀ e ∈ hs, ∀ f ∈ e.2, f.1 ≠ "hutch".toList)
    (hline : ∀ e ∈ hs, '\n' ∉ renderD e.2 ∧ ¬ (cfgMark <:+: renderD e.2) ∧
      lineMatches p (renderD e.2) = true) :
    find_ioc (hs.map (fun e => (mkCfgPath e.1, [renderD e.2])))
        (some ("all".toList)) (some p) =
      Except.ok (some (hs.map (fun e =>
        setKey (e.2.map (fun f => (f.1, interpDVal f.2))) ("hutch".toList)
          (JVal.str e.1)))) ∧
    ∀ i, i < hs.length →
      lookupKey ((hs.map (fun e =>
          setKey (e.2.map (fun f => (f.1, interpDVal f.2))) ("hutch".toList)
            (JVal.str e.1))).getD i []) ("hutch".toList) =
        some (JVal.str (deriveHutch (mkCfgPath (hs.getD i ([], [])).1 ++ [':']))) ∧
      deriveHutch (mkCfgPath (hs.getD i ([], [])).1 ++ [':']) = (hs.getD i ([], [])).1 := by
  have hword : ∀ e ∈ hs, ∀ c ∈ e.1, isWordChar c = true := fun e he => (hh e he).2.1
  have hsl : ∀ e ∈ hs, '/' ∉ e.1 := fun e he =>
    not_mem_of_all (hword e he) (by decide)
  have hmatch : ∀ e ∈ hs, lineMatches p (renderD e.2) = true := fun e he => (hline e he).2.2
  have hcfree : ∀ e ∈ hs, ¬ (cfgMark <:+: renderD e.2) := fun e he => (hline e he).2.1
  have hnlf : ∀ e ∈ hs, '\n' ∉ renderD e.2 := fun e he => (hline e he).1
  have hne0 : hs ≠ [] := by
    intro h0
    rw [h0] at h2
    simp at h2
  have hglob : glob (hs.map (fun e => (mkCfgPath e.1, [renderD e.2]))) =
      hs.map (fun e => mkCfgPath e.1) := by
    unfold glob
    have h1 : (hs.map (fun e => (mkCfgPath e.1, [renderD e.2]))).map (fun x => x.1) =
        hs.map (fun e => mkCfgPath e.1) := by
      rw [List.map_map]
      rfl
    rw [h1]
    apply List.filter_eq_self.mpr
    intro a ha
    rcases List.mem_map.mp ha with ⟨e, he, rfl⟩
    exact isCfgGlobMatch_mkCfgPath e.1 (hh e he).1 (hword e he)
  have hlook : ∀ e ∈ hs, lookupFile (hs.map (fun x => (mkCfgPath x.1, [renderD x.2])))
      (mkCfgPath e.1) = some [renderD e.2] :=
    lookupFile_hutch hs hnd hsl
  have hpfx : ∀ f : T, iocPfx (hs.map (fun e => mkCfgPath e.1)) f = f ++ [':'] := by
    intro f
    unfold iocPfx
    rw [if_pos (by
      simp only [List.length_map]
      omega)]
  have hscan : iocScan (hs.map (fun e => (mkCfgPath e.1, [renderD e.2]))) p
      (glob (hs.map (fun e => (mkCfgPath e.1, [renderD e.2])))) =
      hs.map (fun e => (mkCfgPath e.1 ++ [':']) ++ (renderD e.2 ++ ['\n'])) := by
    rw [iocScan_all_hit _ p _ ?hita]
    · rw [hglob, List.map_map]
      apply List.map_congr_left
      intro e he
      show search_file (hs.map (fun e => (mkCfgPath e.1, [renderD e.2]))) (mkCfgPath e.1)
        (lineMatches p) (iocPfx (hs.map (fun e => mkCfgPath e.1)) (mkCfgPath e.1)) = _
      rw [hpfx (mkCfgPath e.1)]
      exact search_file_single _ _ _ _ _ (hlook e he) (hmatch e he)
    case hita =>
      intro f hf
      rw [hglob] at hf ⊢
      rcases List.mem_map.mp hf with ⟨e, he, rfl⟩
      rw [hpfx (mkCfgPath e.1)]
      rw [search_file_single _ _ _ _ _ (hlook e he) (hmatch e he)]
      intro heq
      have hlen := congrArg List.length heq
      simp at hlen
  have htxt : (iocScan (hs.map (fun e => (mkCfgPath e.1, [renderD e.2]))) p
      (glob (hs.map (fun e => (mkCfgPath e.1, [renderD e.2]))))).flatten =
      fileText (hs.map (fun e => mkCfgPath e.1 ++ ':' :: renderD e.2)) := by
    rw [hscan]
    unfold fileText
    rw [List.map_map]
    congr 1
    apply List.map_congr_left
    intro e _
    show (mkCfgPath e.1 ++ [':']) ++ (renderD e.2 ++ ['\n']) =
      (mkCfgPath e.1 ++ ':' :: renderD e.2) ++ ['\n']
    simp
  have htne : fileText (hs.map (fun e => mkCfgPath e.1 ++ ':' :: renderD e.2)) ≠ [] := by
    apply fileText_ne_nil
    intro hmn
    exact hne0 (List.map_eq_nil_iff.mp hmn)
  have hlines : ∀ l ∈ hs.map (fun e => mkCfgPath e.1 ++ ':' :: renderD e.2), '\n' ∉ l := by
    intro l hl
    rcases List.mem_map.mp hl with ⟨e, he, rfl⟩
    intro hm
    rcases List.mem_append.mp hm with h1 | h1
    · unfold mkCfgPath at h1
      rcases List.mem_append.mp h1 with h2 | h2
      · rcases List.mem_append.mp h2 with h3 | h3
        · exact absurd h3 (by decide)
        · exact absurd ((hword e he) '\n' h3) (by decide)
      · rcases List.mem_cons.mp h2 with h3 | h3
        · exact absurd h3 (by decide)
        · exact absurd h3 (by decide)
    · rcases List.mem_cons.mp h1 with h2 | h2
      · exact absurd h2 (by decide)
      · exact hnlf e he h2
  have hsplit : (fileText (hs.map (fun e => mkCfgPath e.1 ++ ':' :: renderD e.2))).splitOn
      '\n' = hs.map (fun e => mkCfgPath e.1 ++ ':' :: renderD e.2) ++ [[]] :=
    splitOn_fileText _ hlines
  have hfind : findallCfg (fileText (hs.map (fun e => mkCfgPath e.1 ++ ':' :: renderD e.2))) =
      hs.map (fun e => mkCfgPath e.1 ++ [':']) := by
    unfold findallCfg
    rw [hsplit]
    rw [List.flatMap_append]
    rw [show ([([] : T)] : List T).flatMap findallCfgLine = [] from by decide]
    rw [List.append_nil]
    rw [flatMap_map_comp hs _ findallCfgLine]
    exact flatMap_single hs _ (fun e => mkCfgPath e.1 ++ [':'])
      (fun e he => findallCfgLine_tagged e.1 (renderD e.2) (hcfree e he))
  have hhutch : (findallCfg (fileText
      (hs.map (fun e => mkCfgPath e.1 ++ ':' :: renderD e.2)))).map deriveHutch =
      hs.map (fun e => e.1) := by
    rw [hfind, List.map_map]
    apply List.map_congr_left
    intro e he
    show deriveHutch (mkCfgPath e.1 ++ [':']) = e.1
    exact derive_mkCfgPath e.1 (hh e he).1 (hword e he) (hh e he).2.2
  have hstrip : stripCfgTags (fileText
      (hs.map (fun e => mkCfgPath e.1 ++ ':' :: renderD e.2))) =
      fileText (hs.map (fun e => renderD e.2)) := by
    unfold stripCfgTags
    rw [hsplit]
    rw [List.map_append]
    rw [show List.map stripCfgLine [([] : T)] = [([] : T)] from by decide]
    rw [show (hs.map (fun e => mkCfgPath e.1 ++ ':' :: renderD e.2)).map stripCfgLine =
      hs.map (fun e => renderD e.2) from by
        rw [List.map_map]
        apply List.map_congr_left
        intro e he
        show stripCfgLine (mkCfgPath e.1 ++ ':' :: renderD e.2) = renderD e.2
        exact stripCfgLine_tagged e.1 (renderD e.2) (hcfree e he)]
    exact intercalate_nl_fileText _
  have hjson : fix_json (stripCfgTags (fileText
      (hs.map (fun e => mkCfgPath e.1 ++ ':' :: renderD e.2)))) =
      (hs.map (fun e => e.2.map (fun f => (f.1, interpDVal f.2)))).map renderJson := by
    rw [hstrip]
    rw [show hs.map (fun e => renderD e.2) = (hs.map (fun e => e.2)).map renderD from by
      rw [List.map_map]
      rfl]
    rw [fix_json_fileText (hs.map (fun e => e.2))
      (by
        intro hmn
        exact hne0 (List.map_eq_nil_iff.mp hmn))
      (by
        intro fs hfs
        rcases List.mem_map.mp hfs with ⟨e, he, rfl⟩
        exact hwf e he)]
    simp only [List.map_map]
    rfl
  have hout : ((hs.map (fun e => e.2.map (fun f => (f.1, interpDVal f.2)))).map
      renderJson).mapM json_loads =
      some (hs.map (fun e => e.2.map (fun f => (f.1, interpDVal f.2)))) :=
    mapM_json_loads _ (by
      intro o ho
      rcases List.mem_map.mp ho with ⟨e, he, rfl⟩
      exact mapped_roundJField e.2 (hwf e he))
  have htag : tagHutches (hs.map (fun e => e.2.map (fun f => (f.1, interpDVal f.2))))
      (hs.map (fun e => e.1)) = some (hs.map (fun e =>
        setKey (e.2.map (fun f => (f.1, interpDVal f.2))) ("hutch".toList)
          (JVal.str e.1))) := by
    rw [tagHutches_zip _ _ (by simp)]
    rw [zipWith_map_same (fun d hh2 => setKey d ("hutch".toList) (JVal.str hh2)) _ _ hs]
  have hparse : find_ioc_parse ("all".toList)
      (fileText (hs.map (fun e => mkCfgPath e.1 ++ ':' :: renderD e.2))) =
      Except.ok (some (hs.map (fun e =>
        setKey (e.2.map (fun f => (f.1, interpDVal f.2))) ("hutch".toList)
          (JVal.str e.1)))) := by
    simp only [find_ioc_parse]
    rw [hhutch, hjson, hout]
    show (if ("all".toList = "all".toList) then
        match tagHutches (hs.map (fun e => e.2.map (fun f => (f.1, interpDVal f.2))))
          (hs.map (fun e => e.1)) with
        | none => Except.error PyErr.indexError
        | some tagged => Except.ok (some tagged)
      else Except.ok (some (hs.map (fun e => e.2.map (fun f => (f.1, interpDVal f.2)))))) =
      Except.ok (some (hs.map (fun e =>
        setKey (e.2.map (fun f => (f.1, interpDVal f.2))) ("hutch".toList)
          (JVal.str e.1))))
    rw [if_pos rfl]
    rw [htag]
  have hgo : find_ioc_go (hs.map (fun e => (mkCfgPath e.1, [renderD e.2]))) ("all".toList) p =
      Except.ok (some (hs.map (fun e =>
        setKey (e.2.map (fun f => (f.1, interpDVal f.2))) ("hutch".toList)
          (JVal.str e.1)))) := by
    simp only [find_ioc_go, if_true]
    rw [htxt]
    rw [if_neg htne]
    exact hparse
  constructor
  · show (if ("all".toList ∈ hutch_list) then
      find_ioc_go (hs.map (fun e => (mkCfgPath e.1, [renderD e.2]))) ("all".toList) p
      else Except.error PyErr.valueErrorHutch) = _
    rw [if_pos (by decide)]
    exact hgo
  · intro i hi
    have hgetd : hs.getD i ([], []) = hs[i] := by
      rw [List.getD_eq_getElem?_getD, List.getElem?_eq_getElem hi, Option.getD_some]
    have hmem : hs.getD i ([], []) ∈ hs := by
      rw [hgetd]
      exact List.getElem_mem hi
    refine ⟨?_, derive_mkCfgPath (hs.getD i ([], [])).1 (hh _ hmem).1 (hword _ hmem)
      (hh _ hmem).2.2⟩
    rw [getD_map_lt (fun e => setKey (e.2.map (fun f => (f.1, interpDVal f.2)))
      ("hutch".toList) (JVal.str e.1)) hs i hi ([], []) []]
    rw [derive_mkCfgPath (hs.getD i ([], [])).1 (hh _ hmem).1 (hword _ hmem) (hh _ hmem).2.2]
    exact lookupKey_setKey_new _ _ _ (by
      intro x hx
      rcases List.mem_map.mp hx with ⟨f, hf, rfl⟩
      have hk := hkey _ hmem f hf
      simpa using hk)

/-- Witness: two hutch files, `xpp` and `tmo`, each holding one matching
inventory line; the wildcard query tags the first record `xpp` and the second
`tmo`, each equal to the code derived from its file's path. -/
theorem C1_witness :
    (2 ≤ c1Hutches.length) ∧
    (find_ioc (c1Hutches.map (fun e => (mkCfgPath e.1, [renderD e.2])))
        (some ("all".toList)) (some ("id".toList)) =
      Except.ok (some (c1Hutches.map (fun e =>
        setKey (e.2.map (fun f => (f.1, interpDVal f.2))) ("hutch".toList)
          (JVal.str e.1)))) ∧
    ∀ i, i < c1Hutches.length →
      lookupKey ((c1Hutches.map (fun e =>
          setKey (e.2.map (fun f => (f.1, interpDVal f.2))) ("hutch".toList)
            (JVal.str e.1))).getD i []) ("hutch".toList) =
        some (JVal.str (deriveHutch (mkCfgPath (c1Hutches.getD i ([], [])).1 ++ [':']))) ∧
      deriveHutch (mkCfgPath (c1Hutches.getD i ([], [])).1 ++ [':']) =
        (c1Hutches.getD i ([], [])).1) :=
  ⟨by decide,
    C1_hutch_tag_alignment c1Hutches ("id".toList) (by decide) (by decide) (by decide)
      (by decide) (by decide) (by decide)⟩

end GetPVAliases
